import Mathlib

/-!
# Page replacement simulators

A shallow embedding of `main.cpp`: the five simulators `runFIFO`, `runLRU`,
`runOptimal`, `runLFU` and `runSecondChance`, the rows they print and the
`Result` they return.

Modelling conventions.

* `vector<int>` is `List Int`; the page numbers and the sentinel `-1` of an
  empty frame are `Int`.  `framesCount` is a `Nat`: every vector of a
  simulator is built with `framesCount` elements and is never resized.
* Step indices, the counters `hits` and `faults` and the clock pointer are
  `Nat`.  `main` reads the trace length into an `int`, so none of them
  leaves the range of `int` and no wrap-around is modelled.
* A computation whose behaviour is undefined in C++ (a subscript outside
  the vector, `% 0`) yields `none`.
* The quotients `(double)hits / n` are `Option ℚ`: `none` is the value of
  a division by zero (`0.0 / 0` is not a number), otherwise the exact
  quotient; rounding to `double` is not modelled.
* The calls of `printStepRow` are collected as a list of `StepRow`.
-/

namespace PageSim

/-! ## Data -/

/-- The arguments of one call of `printStepRow`. -/
structure StepRow where
  step : Nat
  page : Int
  frames : List Int
  hit : Bool
  replaced : Int
  deriving DecidableEq

/-- The struct `Result` of the source. -/
structure Result where
  name : String
  hits : Nat
  faults : Nat
  hitRatio : Option ℚ
  faultRatio : Option ℚ

/-- What a simulator produces: the printed rows and the returned `Result`. -/
structure Run where
  rows : List StepRow
  result : Result

/-- The effect of one iteration of a simulator loop: the new policy state
and the local variables `hit` and `replaced` at the end of the body. -/
structure Outcome (σ : Type) where
  state : σ
  hit : Bool
  replaced : Int

/-- The variables of a simulator after its main loop. -/
structure LoopOut (σ : Type) where
  state : σ
  hits : Nat
  faults : Nat
  rows : List StepRow

/-- The quotient `(double)count / n`; `none` when the divisor is zero. -/
def ratio (count n : Nat) : Option ℚ :=
  if n = 0 then none else some ((count : ℚ) / (n : ℚ))

/-- The search loops `for (j = 0; j < framesCount; ++j) if (frames[j] == x) { ...; break; }`:
the index of the first slot equal to `x`; `none` is the initial `-1`. -/
def findSlot (x : Int) : List Int → Option Nat
  | [] => none
  | y :: ys => if y = x then some 0 else (findSlot x ys).map (· + 1)

/-- The main loop `for (i = 0; i < ref.size(); ++i)` shared by the five
simulators: `body i page s` is the loop body, the counters are bumped
according to `hit`, and one row is printed per element. -/
def simLoop {σ : Type} (framesOf : σ → List Int)
    (body : Nat → Int → σ → Option (Outcome σ)) :
    List Int → Nat → σ → Nat → Nat → Option (LoopOut σ)
  | [], _, s, hits, faults => some ⟨s, hits, faults, []⟩
  | page :: rest, i, s, hits, faults =>
    match body i page s with
    | none => none
    | some o =>
      match simLoop framesOf body rest (i + 1) o.state
          (if o.hit then hits + 1 else hits) (if o.hit then faults else faults + 1) with
      | none => none
      | some out =>
        some ⟨out.state, out.hits, out.faults,
          ⟨i + 1, page, framesOf o.state, o.hit, o.replaced⟩ :: out.rows⟩

/-- The tail of every simulator: fill in `Result` from the counters. -/
def summarize {σ : Type} (algoName : String) (n : Nat) (out : LoopOut σ) : Run :=
  ⟨out.rows, ⟨algoName, out.hits, out.faults, ratio out.hits n, ratio out.faults n⟩⟩

/-! ## FIFO -/

/-- The variables `frames` and `pointer` of `runFIFO`. -/
structure FIFOState where
  frames : List Int
  pointer : Nat
  deriving DecidableEq

/-- The state of `runFIFO` before the loop. -/
def fifoInit (framesCount : Nat) : FIFOState :=
  ⟨List.replicate framesCount (-1), 0⟩

/-- The loop body of `runFIFO`. -/
def fifoStep (framesCount : Nat) (page : Int) (s : FIFOState) : Option (Outcome FIFOState) :=
  match findSlot page s.frames with
  | some _ => some ⟨s, true, -1⟩
  | none =>
    match findSlot (-1) s.frames with
    | some j => some ⟨⟨s.frames.set j page, s.pointer⟩, false, -1⟩
    | none =>
      match s.frames[s.pointer]? with
      | none => none
      | some old =>
        if framesCount = 0 then none
        else some ⟨⟨s.frames.set s.pointer page, (s.pointer + 1) % framesCount⟩, false, old⟩

/-- The loop of `runFIFO` over a list of pages, from the initial state. -/
def fifoLoop (framesCount : Nat) (pages : List Int) : Option (LoopOut FIFOState) :=
  simLoop FIFOState.frames (fun _ => fifoStep framesCount) pages 0 (fifoInit framesCount) 0 0

/-- The function `runFIFO`. -/
def runFIFO (ref : List Int) (framesCount : Nat) : Option Run :=
  (fifoLoop framesCount ref).map (summarize "FIFO" ref.length)

/-! ## LRU -/

/-- The variables `frames` and `lastUsed` of `runLRU`. -/
structure LRUState where
  frames : List Int
  lastUsed : List Int
  deriving DecidableEq

/-- The state of `runLRU` before the loop. -/
def lruInit (framesCount : Nat) : LRUState :=
  ⟨List.replicate framesCount (-1), List.replicate framesCount (-1)⟩

/-- The loop `for (j = 1; j < framesCount; ++j) if (lastUsed[j] < minLast) ...`,
run over the elements `lastUsed[j], lastUsed[j+1], ...`. -/
def lruScan : List Int → Nat → Nat → Int → Nat
  | [], _, lruIndex, _ => lruIndex
  | x :: xs, j, lruIndex, minLast =>
    if x < minLast then lruScan xs (j + 1) j x else lruScan xs (j + 1) lruIndex minLast

/-- The choice of `lruIndex`: reading `lastUsed[0]` of an empty vector is undefined. -/
def lruVictim : List Int → Option Nat
  | [] => none
  | x :: xs => some (lruScan xs 1 0 x)

/-- The loop body of `runLRU` at step index `i`. -/
def lruStep (i : Nat) (page : Int) (s : LRUState) : Option (Outcome LRUState) :=
  match findSlot page s.frames with
  | some hitIndex => some ⟨⟨s.frames, s.lastUsed.set hitIndex i⟩, true, -1⟩
  | none =>
    match findSlot (-1) s.frames with
    | some emptyIndex =>
      some ⟨⟨s.frames.set emptyIndex page, s.lastUsed.set emptyIndex i⟩, false, -1⟩
    | none =>
      match lruVictim s.lastUsed with
      | none => none
      | some lruIndex =>
        match s.frames[lruIndex]? with
        | none => none
        | some old =>
          some ⟨⟨s.frames.set lruIndex page, s.lastUsed.set lruIndex i⟩, false, old⟩

/-- The loop of `runLRU` over a list of pages, from the initial state. -/
def lruLoop (framesCount : Nat) (pages : List Int) : Option (LoopOut LRUState) :=
  simLoop LRUState.frames lruStep pages 0 (lruInit framesCount) 0 0

/-- The function `runLRU`. -/
def runLRU (ref : List Int) (framesCount : Nat) : Option Run :=
  (lruLoop framesCount ref).map (summarize "LRU" ref.length)

/-! ## Optimal -/

/-- The variable `frames` of `runOptimal`. -/
structure OptState where
  frames : List Int
  deriving DecidableEq

/-- The state of `runOptimal` before the loop. -/
def optInit (framesCount : Nat) : OptState :=
  ⟨List.replicate framesCount (-1)⟩

/-- The inner loop `for (k = i + 1; k < ref.size(); ++k) if (ref[k] == currentPage) ...`:
the index of the next use of `currentPage` after step `i`; `none` is `-1`. -/
def nextUse (ref : List Int) (i : Nat) (currentPage : Int) : Option Nat :=
  (findSlot currentPage (ref.drop (i + 1))).map (· + (i + 1))

/-- The loop over the slots `j, j+1, ...` that chooses `indexToReplace`
(`none` is the initial `-1`). -/
def optScan (ref : List Int) (i : Nat) : List Int → Nat → Option Nat → Int → Option Nat
  | [], _, indexToReplace, _ => indexToReplace
  | currentPage :: rest, j, indexToReplace, farthestUse =>
    match nextUse ref i currentPage with
    | none => some j
    | some k =>
      if (k : Int) > farthestUse then optScan ref i rest (j + 1) (some j) (k : Int)
      else optScan ref i rest (j + 1) indexToReplace farthestUse

/-- The loop body of `runOptimal` at step index `i` of the trace `ref`. -/
def optStep (ref : List Int) (i : Nat) (page : Int) (s : OptState) : Option (Outcome OptState) :=
  match findSlot page s.frames with
  | some _ => some ⟨s, true, -1⟩
  | none =>
    match findSlot (-1) s.frames with
    | some emptyIndex => some ⟨⟨s.frames.set emptyIndex page⟩, false, -1⟩
    | none =>
      match optScan ref i s.frames 0 none (-1) with
      | none => none
      | some indexToReplace =>
        match s.frames[indexToReplace]? with
        | none => none
        | some old => some ⟨⟨s.frames.set indexToReplace page⟩, false, old⟩

/-- The loop of `runOptimal` over the first elements `pages` of the trace `ref`. -/
def optLoop (ref : List Int) (framesCount : Nat) (pages : List Int) : Option (LoopOut OptState) :=
  simLoop OptState.frames (optStep ref) pages 0 (optInit framesCount) 0 0

/-- The function `runOptimal`. -/
def runOptimal (ref : List Int) (framesCount : Nat) : Option Run :=
  (optLoop ref framesCount ref).map (summarize "Optimal" ref.length)

/-! ## LFU -/

/-- The variables `frames`, `freq` and `loadTime` of `runLFU`. -/
structure LFUState where
  frames : List Int
  freq : List Int
  loadTime : List Int
  deriving DecidableEq

/-- The state of `runLFU` before the loop. -/
def lfuInit (framesCount : Nat) : LFUState :=
  ⟨List.replicate framesCount (-1), List.replicate framesCount 0,
    List.replicate framesCount (-1)⟩

/-- The loop `for (j = 1; j < framesCount; ++j)` that chooses `idx`, run over
the pairs `(freq[j], loadTime[j]), ...`; `bestFreq` and `bestLoad` are
`freq[idx]` and `loadTime[idx]`. -/
def lfuScan : List (Int × Int) → Nat → Nat → Int → Int → Nat
  | [], _, idx, _, _ => idx
  | (f, t) :: rest, j, idx, bestFreq, bestLoad =>
    if f < bestFreq then lfuScan rest (j + 1) j f t
    else if f = bestFreq then
      if t < bestLoad then lfuScan rest (j + 1) j f t
      else lfuScan rest (j + 1) idx bestFreq bestLoad
    else lfuScan rest (j + 1) idx bestFreq bestLoad

/-- The choice of `idx`; with no slot the loop does not run and `idx` stays 0. -/
def lfuVictim (freq loadTime : List Int) : Nat :=
  match freq.zip loadTime with
  | [] => 0
  | (f, t) :: rest => lfuScan rest 1 0 f t

/-- The loop body of `runLFU` at step index `i`. -/
def lfuStep (i : Nat) (page : Int) (s : LFUState) : Option (Outcome LFUState) :=
  match findSlot page s.frames with
  | some hitIndex =>
    some ⟨⟨s.frames, s.freq.set hitIndex (s.freq.getD hitIndex 0 + 1), s.loadTime⟩, true, -1⟩
  | none =>
    match findSlot (-1) s.frames with
    | some emptyIndex =>
      some ⟨⟨s.frames.set emptyIndex page, s.freq.set emptyIndex 1,
        s.loadTime.set emptyIndex i⟩, false, -1⟩
    | none =>
      match s.frames[lfuVictim s.freq s.loadTime]? with
      | none => none
      | some old =>
        some ⟨⟨s.frames.set (lfuVictim s.freq s.loadTime) page,
          s.freq.set (lfuVictim s.freq s.loadTime) 1,
          s.loadTime.set (lfuVictim s.freq s.loadTime) i⟩, false, old⟩

/-- The loop of `runLFU` over a list of pages, from the initial state. -/
def lfuLoop (framesCount : Nat) (pages : List Int) : Option (LoopOut LFUState) :=
  simLoop LFUState.frames lfuStep pages 0 (lfuInit framesCount) 0 0

/-- The function `runLFU`. -/
def runLFU (ref : List Int) (framesCount : Nat) : Option Run :=
  (lfuLoop framesCount ref).map (summarize "LFU" ref.length)

/-! ## Second Chance -/

/-- The variables `frames`, `refBit` and `pointer` of `runSecondChance`. -/
structure SCState where
  frames : List Int
  refBit : List Int
  pointer : Nat
  deriving DecidableEq

/-- The state of `runSecondChance` before the loop. -/
def scInit (framesCount : Nat) : SCState :=
  ⟨List.replicate framesCount (-1), List.replicate framesCount 0, 0⟩

/-- The result of the replacement sweep: the state after it, the page that
was replaced, and the number of slots whose bit the sweep has read. -/
structure SweepOut where
  state : SCState
  replaced : Int
  inspected : Nat

/-- Number of slots whose reference bit is set. -/
def setBits : List Int → Nat
  | [] => 0
  | b :: bs => (if b = 0 then 0 else 1) + setBits bs

/-- The sweep `while (true) { ... }` of `runSecondChance`; `inspected` counts
the iterations made so far.  Every iteration that does not leave the loop
clears one set bit, which is why the loop ends. -/
def sweep (framesCount : Nat) (page : Int) (frames refBit : List Int) (pointer inspected : Nat) :
    Option SweepOut :=
  match h : refBit[pointer]? with
  | none => none
  | some b =>
    if hb : b = 0 then
      match frames[pointer]? with
      | none => none
      | some old =>
        if framesCount = 0 then none
        else some ⟨⟨frames.set pointer page, refBit.set pointer 1,
          (pointer + 1) % framesCount⟩, old, inspected + 1⟩
    else
      if framesCount = 0 then none
      else sweep framesCount page frames (refBit.set pointer 0)
        ((pointer + 1) % framesCount) (inspected + 1)
termination_by setBits refBit
decreasing_by
  have key : ∀ (l : List Int) (p : Nat) (c : Int), l[p]? = some c → c ≠ 0 →
      setBits (l.set p 0) < setBits l := by
    intro l
    induction l with
    | nil => intro p c hc; simp at hc
    | cons x xs ih =>
      intro p c hc hne
      cases p with
      | zero =>
        simp at hc
        subst hc
        simp [setBits, hne]
      | succ n =>
        simp at hc
        have := ih n c hc hne
        simp only [setBits, List.set_cons_succ]
        omega
  exact key refBit pointer b h hb

/-- The loop body of `runSecondChance`. -/
def scStep (framesCount : Nat) (page : Int) (s : SCState) : Option (Outcome SCState) :=
  match findSlot page s.frames with
  | some hitIndex => some ⟨⟨s.frames, s.refBit.set hitIndex 1, s.pointer⟩, true, -1⟩
  | none =>
    match findSlot (-1) s.frames with
    | some emptyIndex =>
      some ⟨⟨s.frames.set emptyIndex page, s.refBit.set emptyIndex 1, s.pointer⟩, false, -1⟩
    | none =>
      match sweep framesCount page s.frames s.refBit s.pointer 0 with
      | none => none
      | some r => some ⟨r.state, false, r.replaced⟩

/-- The loop of `runSecondChance` over a list of pages, from the initial state. -/
def scLoop (framesCount : Nat) (pages : List Int) : Option (LoopOut SCState) :=
  simLoop SCState.frames (fun _ => scStep framesCount) pages 0 (scInit framesCount) 0 0

/-- The function `runSecondChance`. -/
def runSecondChance (ref : List Int) (framesCount : Nat) : Option Run :=
  (scLoop framesCount ref).map (summarize "Second Chance" ref.length)

/-! ## Specification vocabulary -/

/-- What one step of a simulator may do to the frames: a hit leaves them
unchanged; a fault overwrites one slot `j` with the page, `replaced` being
the old content of that slot, and an empty slot is used when there is one. -/
def StepOK (page : Int) (before after : List Int) (hit : Bool) (replaced : Int) : Prop :=
  (hit = true ∧ page ∈ before ∧ after = before ∧ replaced = -1) ∨
  (hit = false ∧ page ∉ before ∧ ∃ j, j < before.length ∧ after = before.set j page ∧
    before[j]? = some replaced ∧ ((-1 : Int) ∈ before → replaced = -1))

/-- The rows printed for `pages` from step index `i` on, starting with the
frames `before`, are linked by `StepOK`. -/
def RowsOK : List Int → Nat → List Int → List StepRow → Prop
  | _, _, [], [] => True
  | before, i, p :: ps, r :: rs =>
    r.step = i + 1 ∧ r.page = p ∧ StepOK p before r.frames r.hit r.replaced ∧
      RowsOK r.frames (i + 1) ps rs
  | _, _, _, _ => False

/-- Number of rows marked as hits. -/
def hitRows (rows : List StepRow) : Nat := (rows.filter (fun r => r.hit)).length

/-- Number of rows marked as faults. -/
def faultRows (rows : List StepRow) : Nat := (rows.filter (fun r => !r.hit)).length

/-- The frames after the last row (`start` when there is no row). -/
def lastFrames (start : List Int) (rows : List StepRow) : List Int :=
  match rows.getLast? with
  | none => start
  | some r => r.frames

/-- Invariant of `runFIFO`: the frame vector has `framesCount` slots and the pointer is a slot. -/
def FIFOInv (framesCount : Nat) (s : FIFOState) : Prop :=
  s.frames.length = framesCount ∧ s.pointer < framesCount

/-- Invariant of `runLRU`: both vectors have `framesCount` elements. -/
def LRUInv (framesCount : Nat) (s : LRUState) : Prop :=
  s.frames.length = framesCount ∧ s.lastUsed.length = framesCount

/-- Invariant of `runOptimal`: the frame vector has `framesCount` slots. -/
def OptInv (framesCount : Nat) (s : OptState) : Prop :=
  s.frames.length = framesCount

/-- Invariant of `runLFU`: the three vectors have `framesCount` elements. -/
def LFUInv (framesCount : Nat) (s : LFUState) : Prop :=
  s.frames.length = framesCount ∧ s.freq.length = framesCount ∧
    s.loadTime.length = framesCount

/-- Invariant of `runSecondChance`: both vectors have `framesCount` elements
and the pointer is a slot. -/
def SCInv (framesCount : Nat) (s : SCState) : Prop :=
  s.frames.length = framesCount ∧ s.refBit.length = framesCount ∧ s.pointer < framesCount

/-- The frames every simulator starts from: `framesCount` empty slots. -/
def emptyFrames (framesCount : Nat) : List Int := List.replicate framesCount (-1)

/-- A simulator call returned, its rows are linked by `StepOK` from the empty
frames on, and the returned counters count the hit and the fault rows. -/
def RunOK (framesCount : Nat) (ref : List Int) (r : Option Run) : Prop :=
  ∃ run, r = some run ∧ RowsOK (emptyFrames framesCount) 0 ref run.rows ∧
    run.result.hits = hitRows run.rows ∧ run.result.faults = faultRows run.rows

/-- No page other than the sentinel `-1` is held by two different slots. -/
def NoDupResident (frames : List Int) : Prop :=
  ∀ (j₁ j₂ : Nat) (p : Int), frames[j₁]? = some p → frames[j₂]? = some p → p ≠ -1 → j₁ = j₂

/-- Number of slots that hold a page. -/
def residentCount (frames : List Int) : Nat := (frames.filter (fun f => f != -1)).length

/-- The frames before step `i` of a run: the empty frames before step 0,
the snapshot of row `i - 1` otherwise. -/
def framesBefore (start : List Int) (rows : List StepRow) : Nat → List Int
  | 0 => start
  | k + 1 =>
    match rows[k]? with
    | some r => r.frames
    | none => []

/-- The simulator returned, and its counters add up to the length of the trace. -/
def CountsEveryAccess (ref : List Int) (r : Option Run) : Prop :=
  ∃ run, r = some run ∧ run.result.hits + run.result.faults = ref.length

/-- The simulator returned a run with one row per trace element, and the
frame snapshot of every row satisfies `P`. -/
def AfterEveryStep (ref : List Int) (r : Option Run) (P : List Int → Prop) : Prop :=
  ∃ run, r = some run ∧ run.rows.length = ref.length ∧ ∀ row ∈ run.rows, P row.frames

/-- The frame vector has `framesCount` slots, at most `framesCount` of them
hold a page, and no page is held by two slots. -/
def FramesWellFormed (framesCount : Nat) (frames : List Int) : Prop :=
  frames.length = framesCount ∧ residentCount frames ≤ framesCount ∧ NoDupResident frames

/-- Step semantics of a run: row `i` is marked as a hit exactly when page
`ref[i]` is in the frames before the step, a hit leaves the frames unchanged,
a fault overwrites exactly one slot with the page, which is then resident;
the returned counters count the rows marked as hits and as faults. -/
def StepSemantics (framesCount : Nat) (ref : List Int) (r : Option Run) : Prop :=
  ∃ run, r = some run ∧ run.rows.length = ref.length ∧
    run.result.hits = hitRows run.rows ∧ run.result.faults = faultRows run.rows ∧
    ∀ (i : Nat) (page : Int) (row : StepRow), ref[i]? = some page → run.rows[i]? = some row →
      row.page = page ∧
      (row.hit = true ↔ page ∈ framesBefore (emptyFrames framesCount) run.rows i) ∧
      (row.hit = true → row.frames = framesBefore (emptyFrames framesCount) run.rows i) ∧
      (row.hit = false →
        (∃! j, j < framesCount ∧
          row.frames = (framesBefore (emptyFrames framesCount) run.rows i).set j page) ∧
        page ∈ row.frames)

/-- The state of `runLRU` before step `i`: the state of its loop after the
first `i` elements of the trace. -/
def lruStateBefore (ref : List Int) (framesCount i : Nat) : Option LRUState :=
  (lruLoop framesCount (ref.take i)).map (fun out => out.state)

/-- Invariant of the markers of `runLRU` before step `i`: every marker is
less than `i`, and two occupied slots never carry the same marker. -/
def LRUMarks (i : Nat) (s : LRUState) : Prop :=
  (∀ (j : Nat) (x : Int), s.lastUsed[j]? = some x → x < (i : Int)) ∧
  (∀ (j₁ j₂ : Nat) (x : Int), s.lastUsed[j₁]? = some x → s.lastUsed[j₂]? = some x →
    s.frames[j₁]? ≠ some (-1) → s.frames[j₂]? ≠ some (-1) → j₁ = j₂)

/-- The pages printed in the column `Replaced`, in order: the evicted pages. -/
def evictedSeq (rows : List StepRow) : List Int :=
  (rows.map (fun r => r.replaced)).filter (fun x => x != -1)

/-- The pages loaded on faults, in order. -/
def loadedSeq (rows : List StepRow) : List Int :=
  (rows.filter (fun r => !r.hit)).map (fun r => r.page)

/-- History invariant of `runFIFO`: the loaded pages, followed by the empty
slots, are the evicted pages followed by the frames read circularly from
the pointer; while a slot is empty nothing has been evicted and the
pointer has not moved. -/
def FIFOHist (framesCount : Nat) (s : FIFOState) (loaded evicted : List Int) : Prop :=
  s.frames.length = framesCount ∧ s.pointer < framesCount ∧ (∀ p ∈ loaded, p ≠ -1) ∧
    ∃ m, loaded ++ List.replicate m (-1) =
        evicted ++ (s.frames.drop s.pointer ++ s.frames.take s.pointer) ∧
      (0 < m → s.pointer = 0 ∧ evicted = [])

/-- The state of `runSecondChance` after the loop has processed `pages`. -/
def scStateAfter (framesCount : Nat) (pages : List Int) : Option SCState :=
  (scLoop framesCount pages).map (fun out => out.state)

/-- Least value of `f` over the finite set `S` (0 when `S` is empty). -/
def minOver (S : Finset Int) (f : Int → Nat) : Nat :=
  if h : S.Nonempty then S.inf' h f else 0

/-- The least number of faults with which the trace can be served by demand
paging with `k` frames from the resident set `S`: a resident page costs
nothing, a missing page costs one fault and is added to `S` while fewer than
`k` pages are resident, and otherwise takes the place of the best choice of
a resident page. -/
def minFaults (k : Nat) : List Int → Finset Int → Nat
  | [], _ => 0
  | p :: σ, S =>
    if p ∈ S then minFaults k σ S
    else if S.card < k then minFaults k σ (insert p S) + 1
    else minOver S (fun q => minFaults k σ (insert p (S.erase q))) + 1

/-- Distance to the next use of `q` in the trace `σ` (its length when `q` is not used). -/
def reuse (q : Int) (σ : List Int) : Nat :=
  match findSlot q σ with
  | some d => d
  | none => σ.length

/-- The set of resident pages of a frame vector. -/
def resident (frames : List Int) : Finset Int := frames.toFinset.erase (-1)

/-- The state of `runOptimal` before step `i`: the state of its loop after the
first `i` elements of the trace. -/
def optStateBefore (ref : List Int) (framesCount i : Nat) : Option OptState :=
  (optLoop ref framesCount (ref.take i)).map (fun out => out.state)

/-- Index `k` is the next occurrence of page `q` in the trace after step `i`. -/
def IsNextUse (ref : List Int) (i : Nat) (q : Int) (k : Nat) : Prop :=
  i < k ∧ ref[k]? = some q ∧ ∀ k', i < k' → k' < k → ref[k']? ≠ some q

/-- The state of `runLFU` before step `i`: the state of its loop after the
first `i` elements of the trace. -/
def lfuStateBefore (ref : List Int) (framesCount i : Nat) : Option LFUState :=
  (lfuLoop framesCount (ref.take i)).map (fun out => out.state)

/-- The pair `(f, t)` is not after `(f', t')` in the order of the LFU scan:
lower frequency first, then lower load step. -/
def LfuLe (f t f' t' : Int) : Prop := f < f' ∨ (f = f' ∧ t ≤ t')

/-- The index of the last access to page `p` among the first `n` elements of the trace. -/
def lastAccess (ref : List Int) : Nat → Int → Option Nat
  | 0, _ => none
  | n + 1, p => if ref[n]? = some p then some n else lastAccess ref n p

/-- Index `k` is the last access to page `p` among the first `n` elements of the trace. -/
def IsLastAccess (ref : List Int) (n : Nat) (p : Int) (k : Nat) : Prop :=
  k < n ∧ ref[k]? = some p ∧ ∀ k', k < k' → k' < n → ref[k']? ≠ some p

/-- Invariant of `runLRU` before step `n`: the marker of every occupied slot is
the index of the last access to its page. -/
def LRUAccess (ref : List Int) (n : Nat) (s : LRUState) : Prop :=
  ∀ (j : Nat) (p : Int), s.frames[j]? = some p → p ≠ -1 →
    ∃ k, lastAccess ref n p = some k ∧ s.lastUsed[j]? = some (k : Int)

/-- The invariants of `runLRU` before step `n`, taken together. -/
def LRUGood (ref : List Int) (framesCount n : Nat) (s : LRUState) : Prop :=
  LRUInv framesCount s ∧ NoDupResident s.frames ∧ LRUMarks n s ∧ LRUAccess ref n s

/-- The reference bits of `runSecondChance` on a trace without repetition:
while the pointer is at 0 every occupied slot has its bit set; afterwards,
all slots being occupied, exactly the slots before the pointer have their bit set. -/
def ClockBits (framesCount : Nat) (s : SCState) : Prop :=
  (s.pointer = 0 ∧ ∀ (j : Nat) (q : Int), s.frames[j]? = some q → q ≠ -1 →
      ∃ b, s.refBit[j]? = some b ∧ b ≠ 0) ∨
  ((-1 : Int) ∉ s.frames ∧ ∀ (j : Nat), j < framesCount →
      (j < s.pointer → ∃ b, s.refBit[j]? = some b ∧ b ≠ 0) ∧
      (s.pointer ≤ j → s.refBit[j]? = some 0))

/-- The relation between the states of `runFIFO` and `runSecondChance` before
step `n` of a trace without repetition. -/
def FifoClock (ref : List Int) (framesCount n : Nat) (sf : FIFOState) (sc : SCState) : Prop :=
  sf.frames = sc.frames ∧ sf.pointer = sc.pointer ∧ sc.frames.length = framesCount ∧
    sc.refBit.length = framesCount ∧ sc.pointer < framesCount ∧
    (∀ x ∈ sc.frames, x = -1 ∨ x ∈ ref.take n) ∧ ClockBits framesCount sc

/-- The simulator returned; it made as many faults as there are distinct pages
in the trace; no row shows a replaced page, every fault finding an empty slot;
and an access is a fault exactly when its page has not been accessed before. -/
def ServedWithoutEviction (framesCount : Nat) (ref : List Int) (r : Option Run) : Prop :=
  ∃ run, r = some run ∧ run.result.faults = ref.toFinset.card ∧
    (∀ row ∈ run.rows, row.replaced = -1) ∧
    (∀ (i : Nat) (row : StepRow), run.rows[i]? = some row → row.hit = false →
      (-1 : Int) ∈ framesBefore (emptyFrames framesCount) run.rows i) ∧
    (∀ (i : Nat) (page : Int) (row : StepRow), ref[i]? = some page → run.rows[i]? = some row →
      (row.hit = false ↔ page ∉ ref.take i))

/-- The relation between the states of `runLRU` with `k` frames and with `k + 1`
frames before step `n`: every page resident with `k` frames is resident with
`k + 1` frames, and the resident sets agree while the smaller one has an empty slot. -/
def LRUIncl (ref : List Int) (k n : Nat) (s₁ s₂ : LRUState) : Prop :=
  LRUGood ref k n s₁ ∧ LRUGood ref (k + 1) n s₂ ∧
    resident s₁.frames ⊆ resident s₂.frames ∧
    ((-1 : Int) ∈ s₁.frames → resident s₁.frames = resident s₂.frames)

/-! ## Lemmas -/

theorem findSlot_none {x : Int} {l : List Int} : findSlot x l = none ↔ x ∉ l := by
  induction l with
  | nil => simp [findSlot]
  | cons y ys ih =>
    by_cases h : y = x
    · simp [findSlot, h]
    · have h2 : ¬ x = y := fun e => h e.symm
      simp [findSlot, h, h2, ih]

theorem findSlot_some {x : Int} {l : List Int} {j : Nat} (h : findSlot x l = some j) :
    j < l.length ∧ l[j]? = some x := by
  induction l generalizing j with
  | nil => simp [findSlot] at h
  | cons y ys ih =>
    by_cases hy : y = x
    · simp [findSlot, hy] at h; subst h; simp [hy]
    · simp [findSlot, hy] at h
      obtain ⟨a, ha, rfl⟩ := h
      obtain ⟨h1, h2⟩ := ih ha
      exact ⟨by simp; omega, by simpa using h2⟩

theorem findSlot_some_mem {x : Int} {l : List Int} {j : Nat} (h : findSlot x l = some j) :
    x ∈ l := by
  by_contra hx
  rw [findSlot_none.mpr hx] at h
  cases h

theorem hitRows_add_faultRows (rows : List StepRow) :
    hitRows rows + faultRows rows = rows.length := by
  induction rows with
  | nil => rfl
  | cons r rs ih =>
    cases hr : r.hit <;> simp [hitRows, faultRows, List.filter_cons, hr] at ih ⊢ <;> omega

theorem RowsOK_length : ∀ (before : List Int) (i : Nat) (pages : List Int) (rows : List StepRow),
    RowsOK before i pages rows → rows.length = pages.length
  | _, _, [], [], _ => rfl
  | _, _, [], _ :: _, h => by simp [RowsOK] at h
  | _, _, _ :: _, [], h => by simp [RowsOK] at h
  | _, i, _ :: ps, r :: rs, h => by
    simp only [RowsOK] at h
    simp [RowsOK_length r.frames (i + 1) ps rs h.2.2.2]

/-- The loop invariant rule: if the body, run in a state satisfying `Inv`
on a page satisfying `P`, is defined, keeps `Inv` and obeys `StepOK`, then
the loop is defined on every list of such pages, keeps `Inv`, prints rows
linked by `StepOK`, and its counters count the hit and fault rows. -/
theorem simLoop_spec {σ : Type} (framesOf : σ → List Int)
    (body : Nat → Int → σ → Option (Outcome σ)) (Inv : Nat → σ → Prop) (P : Int → Prop)
    (hstep : ∀ i page s, P page → Inv i s → ∃ o, body i page s = some o ∧ Inv (i + 1) o.state ∧
      StepOK page (framesOf s) (framesOf o.state) o.hit o.replaced) :
    ∀ (pages : List Int) (i : Nat) (s : σ) (hits faults : Nat), (∀ p ∈ pages, P p) → Inv i s →
      ∃ out, simLoop framesOf body pages i s hits faults = some out ∧
        Inv (i + pages.length) out.state ∧ RowsOK (framesOf s) i pages out.rows ∧
        out.hits = hits + hitRows out.rows ∧ out.faults = faults + faultRows out.rows ∧
        framesOf out.state = lastFrames (framesOf s) out.rows := by
  intro pages
  induction pages with
  | nil =>
    intro i s hits faults _ hI
    exact ⟨⟨s, hits, faults, []⟩, rfl, by simpa using hI, trivial, by simp [hitRows],
      by simp [faultRows], by simp [lastFrames]⟩
  | cons p ps ih =>
    intro i s hits faults hP hI
    obtain ⟨o, ho, hI', hok⟩ := hstep i p s (hP p (List.mem_cons_self _ _)) hI
    obtain ⟨out, hout, hInv, hrows, hh, hf, hlast⟩ :=
      ih (i + 1) o.state (if o.hit then hits + 1 else hits)
        (if o.hit then faults else faults + 1)
        (fun q hq => hP q (List.mem_cons_of_mem _ hq)) hI'
    refine ⟨⟨out.state, out.hits, out.faults,
      ⟨i + 1, p, framesOf o.state, o.hit, o.replaced⟩ :: out.rows⟩, ?_, ?_, ?_, ?_, ?_, ?_⟩
    · simp [simLoop, ho, hout]
    · have : i + (p :: ps).length = i + 1 + ps.length := by simp; omega
      rw [this]; exact hInv
    · exact ⟨rfl, rfl, hok, hrows⟩
    · cases hhit : o.hit <;> simp [hitRows, List.filter_cons, hhit] at hh ⊢ <;> omega
    · cases hhit : o.hit <;> simp [faultRows, List.filter_cons, hhit] at hf ⊢ <;> omega
    · simp only [hlast, lastFrames]
      cases hr : out.rows with
      | nil => simp
      | cons r rs =>
        rcases hl : (r :: rs).getLast? with _ | x
        · simp at hl
        · simp [List.getLast?_cons_cons, hl]

theorem sweep_eq (framesCount : Nat) (page : Int) (frames refBit : List Int)
    (pointer inspected : Nat) :
    sweep framesCount page frames refBit pointer inspected =
      match refBit[pointer]? with
      | none => none
      | some b =>
        if b = 0 then
          match frames[pointer]? with
          | none => none
          | some old =>
            if framesCount = 0 then none
            else some ⟨⟨frames.set pointer page, refBit.set pointer 1,
              (pointer + 1) % framesCount⟩, old, inspected + 1⟩
        else
          if framesCount = 0 then none
          else sweep framesCount page frames (refBit.set pointer 0)
            ((pointer + 1) % framesCount) (inspected + 1) := by
  rw [sweep]
  split
  · rename_i h; simp [h]
  · rename_i b h
    simp only [h]
    by_cases hb : b = 0 <;> simp [hb]

theorem stepOK_hit {page : Int} {frames : List Int} {j : Nat}
    (h : findSlot page frames = some j) : StepOK page frames frames true (-1) :=
  Or.inl ⟨rfl, findSlot_some_mem h, rfl, rfl⟩

theorem stepOK_fill {page : Int} {frames : List Int} {j : Nat}
    (hp : findSlot page frames = none) (h : findSlot (-1) frames = some j) :
    StepOK page frames (frames.set j page) false (-1) :=
  Or.inr ⟨rfl, findSlot_none.mp hp, j, (findSlot_some h).1, rfl, (findSlot_some h).2, fun _ => rfl⟩

theorem stepOK_evict {page old : Int} {frames : List Int} {j : Nat}
    (hp : findSlot page frames = none) (h : findSlot (-1) frames = none)
    (hj : frames[j]? = some old) :
    StepOK page frames (frames.set j page) false old := by
  refine Or.inr ⟨rfl, findSlot_none.mp hp, j, ?_, rfl, hj, fun hm => absurd hm (findSlot_none.mp h)⟩
  by_contra hlt
  rw [List.getElem?_eq_none (by omega)] at hj
  cases hj

theorem fifoStep_spec (framesCount : Nat) (page : Int) (s : FIFOState)
    (hI : FIFOInv framesCount s) :
    ∃ o, fifoStep framesCount page s = some o ∧ FIFOInv framesCount o.state ∧
      StepOK page s.frames o.state.frames o.hit o.replaced := by
  obtain ⟨hlen, hptr⟩ := hI
  unfold fifoStep
  rcases hp : findSlot page s.frames with _ | j
  · rcases he : findSlot (-1) s.frames with _ | e
    · have hget : s.frames[s.pointer]? = some (s.frames[s.pointer]) :=
        List.getElem?_eq_getElem (by omega)
      have hfc : framesCount ≠ 0 := by omega
      simp only [hget, hfc, if_false]
      exact ⟨_, rfl, ⟨by simp [hlen], Nat.mod_lt _ (by omega)⟩, stepOK_evict hp he hget⟩
    · exact ⟨_, rfl, ⟨by simp [hlen], hptr⟩, stepOK_fill hp he⟩
  · exact ⟨_, rfl, ⟨hlen, hptr⟩, stepOK_hit hp⟩

theorem lruScan_range (xs : List Int) (j lruIndex : Nat) (minLast : Int) :
    lruScan xs j lruIndex minLast = lruIndex ∨
      (j ≤ lruScan xs j lruIndex minLast ∧ lruScan xs j lruIndex minLast < j + xs.length) := by
  induction xs generalizing j lruIndex minLast with
  | nil => exact Or.inl rfl
  | cons x xs ih =>
    simp only [lruScan, List.length_cons]
    split
    · rcases ih (j + 1) j x with h | h
      · right; rw [h]; omega
      · right; omega
    · rcases ih (j + 1) lruIndex minLast with h | h
      · left; exact h
      · right; omega

theorem lruVictim_lt (lastUsed : List Int) (h : 0 < lastUsed.length) :
    ∃ v, lruVictim lastUsed = some v ∧ v < lastUsed.length := by
  cases lastUsed with
  | nil => simp at h
  | cons x xs =>
    refine ⟨_, rfl, ?_⟩
    rcases lruScan_range xs 1 0 x with h | h
    · rw [h]; simp
    · simp only [List.length_cons]; omega

theorem lruStep_spec (framesCount : Nat) (hfc : 1 ≤ framesCount) (i : Nat) (page : Int)
    (s : LRUState) (hI : LRUInv framesCount s) :
    ∃ o, lruStep i page s = some o ∧ LRUInv framesCount o.state ∧
      StepOK page s.frames o.state.frames o.hit o.replaced := by
  obtain ⟨hlen, hlu⟩ := hI
  unfold lruStep
  rcases hp : findSlot page s.frames with _ | j
  · rcases he : findSlot (-1) s.frames with _ | e
    · obtain ⟨v, hv, hvlt⟩ := lruVictim_lt s.lastUsed (by omega)
      have hget : s.frames[v]? = some (s.frames[v]) := List.getElem?_eq_getElem (by omega)
      simp only [hv, hget]
      exact ⟨_, rfl, ⟨by simp [hlen], by simp [hlu]⟩, stepOK_evict hp he hget⟩
    · exact ⟨_, rfl, ⟨by simp [hlen], by simp [hlu]⟩, stepOK_fill hp he⟩
  · exact ⟨_, rfl, ⟨hlen, by simp [hlu]⟩, stepOK_hit hp⟩

theorem optScan_range (ref : List Int) (i : Nat) (l : List Int) (j : Nat)
    (indexToReplace : Option Nat) (farthestUse : Int) :
    optScan ref i l j indexToReplace farthestUse = indexToReplace ∨
      ∃ v, optScan ref i l j indexToReplace farthestUse = some v ∧ j ≤ v ∧ v < j + l.length := by
  induction l generalizing j indexToReplace farthestUse with
  | nil => exact Or.inl rfl
  | cons x xs ih =>
    simp only [optScan, List.length_cons]
    rcases hn : nextUse ref i x with _ | k
    · exact Or.inr ⟨j, rfl, le_refl _, by omega⟩
    · simp only
      split
      · rcases ih (j + 1) (some j) (k : Int) with h | ⟨v, h, h1, h2⟩
        · exact Or.inr ⟨j, h, le_refl _, by omega⟩
        · exact Or.inr ⟨v, h, by omega, by omega⟩
      · rcases ih (j + 1) indexToReplace farthestUse with h | ⟨v, h, h1, h2⟩
        · exact Or.inl h
        · exact Or.inr ⟨v, h, by omega, by omega⟩

theorem optVictim_lt (ref : List Int) (i : Nat) (frames : List Int) (h : 0 < frames.length) :
    ∃ v, optScan ref i frames 0 none (-1) = some v ∧ v < frames.length := by
  cases frames with
  | nil => simp at h
  | cons x xs =>
    simp only [optScan]
    rcases hn : nextUse ref i x with _ | k
    · exact ⟨0, rfl, by simp⟩
    · have hk : (k : Int) > -1 := by omega
      simp only [hk, if_true]
      rcases optScan_range ref i xs 1 (some 0) (k : Int) with h | ⟨v, h, h1, h2⟩
      · exact ⟨0, h, by simp⟩
      · exact ⟨v, h, by simp only [List.length_cons]; omega⟩

theorem optStep_spec (ref : List Int) (framesCount : Nat) (hfc : 1 ≤ framesCount) (i : Nat)
    (page : Int) (s : OptState) (hI : OptInv framesCount s) :
    ∃ o, optStep ref i page s = some o ∧ OptInv framesCount o.state ∧
      StepOK page s.frames o.state.frames o.hit o.replaced := by
  have hlen : s.frames.length = framesCount := hI
  unfold optStep
  rcases hp : findSlot page s.frames with _ | j
  · rcases he : findSlot (-1) s.frames with _ | e
    · obtain ⟨v, hv, hvlt⟩ := optVictim_lt ref i s.frames (by omega)
      have hget : s.frames[v]? = some (s.frames[v]) := List.getElem?_eq_getElem (by omega)
      simp only [hv, hget]
      exact ⟨_, rfl, by simp [OptInv, hlen], stepOK_evict hp he hget⟩
    · exact ⟨_, rfl, by simp [OptInv, hlen], stepOK_fill hp he⟩
  · exact ⟨_, rfl, hI, stepOK_hit hp⟩

theorem lfuScan_range (l : List (Int × Int)) (j idx : Nat) (bestFreq bestLoad : Int) :
    lfuScan l j idx bestFreq bestLoad = idx ∨
      (j ≤ lfuScan l j idx bestFreq bestLoad ∧ lfuScan l j idx bestFreq bestLoad < j + l.length) := by
  induction l generalizing j idx bestFreq bestLoad with
  | nil => exact Or.inl rfl
  | cons x xs ih =>
    obtain ⟨f, t⟩ := x
    simp only [lfuScan, List.length_cons]
    have hnew := ih (j + 1) j f t
    have hold := ih (j + 1) idx bestFreq bestLoad
    split
    · rcases hnew with h | h
      · right; rw [h]; omega
      · right; omega
    · split
      · split
        · rcases hnew with h | h
          · right; rw [h]; omega
          · right; omega
        · rcases hold with h | h
          · left; exact h
          · right; omega
      · rcases hold with h | h
        · left; exact h
        · right; omega

theorem lfuVictim_lt (freq loadTime : List Int) (h : 0 < freq.length)
    (hl : loadTime.length = freq.length) : lfuVictim freq loadTime < freq.length := by
  unfold lfuVictim
  have hz : (freq.zip loadTime).length = freq.length := by simp [hl]
  rcases hzip : freq.zip loadTime with _ | ⟨⟨f, t⟩, rest⟩
  · rw [hzip] at hz; simp at hz; omega
  · rw [hzip] at hz
    simp only [List.length_cons] at hz
    rcases lfuScan_range rest 1 0 f t with h' | h'
    · simp only [h']; exact h
    · simp only; omega

theorem lfuStep_spec (framesCount : Nat) (hfc : 1 ≤ framesCount) (i : Nat) (page : Int)
    (s : LFUState) (hI : LFUInv framesCount s) :
    ∃ o, lfuStep i page s = some o ∧ LFUInv framesCount o.state ∧
      StepOK page s.frames o.state.frames o.hit o.replaced := by
  obtain ⟨hlen, hfr, hlt⟩ := hI
  unfold lfuStep
  rcases hp : findSlot page s.frames with _ | j
  · rcases he : findSlot (-1) s.frames with _ | e
    · have hvlt := lfuVictim_lt s.freq s.loadTime (by omega) (by omega)
      have hget : s.frames[lfuVictim s.freq s.loadTime]? =
          some (s.frames[lfuVictim s.freq s.loadTime]) := List.getElem?_eq_getElem (by omega)
      simp only [hget]
      exact ⟨_, rfl, ⟨by simp [hlen], by simp [hfr], by simp [hlt]⟩, stepOK_evict hp he hget⟩
    · exact ⟨_, rfl, ⟨by simp [hlen], by simp [hfr], by simp [hlt]⟩, stepOK_fill hp he⟩
  · exact ⟨_, rfl, ⟨hlen, by simp [hfr], hlt⟩, stepOK_hit hp⟩

theorem setBits_le_length (l : List Int) : setBits l ≤ l.length := by
  induction l with
  | nil => simp [setBits]
  | cons x xs ih => simp only [setBits, List.length_cons]; split <;> omega

theorem setBits_set_zero (l : List Int) (p : Nat) (c : Int) (hc : l[p]? = some c) (hne : c ≠ 0) :
    setBits (l.set p 0) + 1 = setBits l := by
  induction l generalizing p with
  | nil => simp at hc
  | cons x xs ih =>
    cases p with
    | zero =>
      simp at hc
      subst hc
      simp [setBits, hne]; omega
    | succ n =>
      simp at hc
      have := ih n hc
      simp only [setBits, List.set_cons_succ]
      omega

/-- The sweep, started in a state satisfying the invariant, ends: it returns
a state satisfying the invariant in which one slot `j` has been overwritten,
and it has read at most one bit more than there were set bits. -/
theorem sweep_spec (framesCount : Nat) (page : Int) (frames : List Int) :
    ∀ (n : Nat) (refBit : List Int) (pointer inspected : Nat), setBits refBit = n →
      frames.length = framesCount → refBit.length = framesCount → pointer < framesCount →
      ∃ r, sweep framesCount page frames refBit pointer inspected = some r ∧
        SCInv framesCount r.state ∧
        (∃ j, j < framesCount ∧ r.state.frames = frames.set j page ∧
          frames[j]? = some r.replaced) ∧
        inspected < r.inspected ∧ r.inspected ≤ inspected + n + 1 := by
  intro n
  induction n using Nat.strong_induction_on with
  | _ n ih =>
    intro refBit pointer inspected hn hfl hrl hp
    have hfc : framesCount ≠ 0 := by omega
    have hb : refBit[pointer]? = some (refBit[pointer]) := List.getElem?_eq_getElem (by omega)
    have hf : frames[pointer]? = some (frames[pointer]) := List.getElem?_eq_getElem (by omega)
    rw [sweep_eq]
    simp only [hb, hf, hfc, if_false]
    by_cases h0 : refBit[pointer] = 0
    · simp only [h0, if_true]
      exact ⟨_, rfl, ⟨by simp [hfl], by simp [hrl], Nat.mod_lt _ (by omega)⟩,
        ⟨pointer, hp, rfl, hf⟩, by simp, by simp⟩
    · simp only [h0, if_false]
      have hdec := setBits_set_zero refBit pointer _ hb h0
      obtain ⟨r, hr, hinv, hj, hlo, hhi⟩ :=
        ih (setBits (refBit.set pointer 0)) (by omega) (refBit.set pointer 0)
          ((pointer + 1) % framesCount) (inspected + 1) rfl hfl (by simp [hrl])
          (Nat.mod_lt _ (by omega))
      exact ⟨r, hr, hinv, hj, by omega, by omega⟩

theorem scStep_spec (framesCount : Nat) (page : Int) (s : SCState)
    (hI : SCInv framesCount s) :
    ∃ o, scStep framesCount page s = some o ∧ SCInv framesCount o.state ∧
      StepOK page s.frames o.state.frames o.hit o.replaced := by
  obtain ⟨hlen, hrb, hptr⟩ := hI
  unfold scStep
  rcases hp : findSlot page s.frames with _ | j
  · rcases he : findSlot (-1) s.frames with _ | e
    · obtain ⟨r, hr, hinv, ⟨j, hj, hset, hget⟩, _⟩ :=
        sweep_spec framesCount page s.frames _ s.refBit s.pointer 0 rfl hlen hrb hptr
      simp only [hr]
      refine ⟨_, rfl, hinv, ?_⟩
      simp only [hset]
      exact stepOK_evict hp he hget
    · exact ⟨_, rfl, ⟨by simp [hlen], by simp [hrb], hptr⟩, stepOK_fill hp he⟩
  · exact ⟨_, rfl, ⟨hlen, by simp [hrb], hptr⟩, stepOK_hit hp⟩

theorem fifoLoop_spec (framesCount : Nat) (hfc : 1 ≤ framesCount) (pages : List Int) :
    ∃ out, fifoLoop framesCount pages = some out ∧ FIFOInv framesCount out.state ∧
      RowsOK (emptyFrames framesCount) 0 pages out.rows ∧
      out.hits = hitRows out.rows ∧ out.faults = faultRows out.rows ∧
      out.state.frames = lastFrames (emptyFrames framesCount) out.rows := by
  have h := simLoop_spec FIFOState.frames (fun _ => fifoStep framesCount)
    (fun _ s => FIFOInv framesCount s) (fun _ => True)
    (fun _ page s _ hI => fifoStep_spec framesCount page s hI) pages 0
    (fifoInit framesCount) 0 0 (fun _ _ => trivial)
    ⟨by simp [fifoInit], by simp [fifoInit]; omega⟩
  simpa [fifoLoop, emptyFrames, fifoInit] using h

theorem lruLoop_spec (framesCount : Nat) (hfc : 1 ≤ framesCount) (pages : List Int) :
    ∃ out, lruLoop framesCount pages = some out ∧ LRUInv framesCount out.state ∧
      RowsOK (emptyFrames framesCount) 0 pages out.rows ∧
      out.hits = hitRows out.rows ∧ out.faults = faultRows out.rows ∧
      out.state.frames = lastFrames (emptyFrames framesCount) out.rows := by
  have h := simLoop_spec LRUState.frames lruStep
    (fun _ s => LRUInv framesCount s) (fun _ => True)
    (fun i page s _ hI => lruStep_spec framesCount hfc i page s hI) pages 0
    (lruInit framesCount) 0 0 (fun _ _ => trivial)
    ⟨by simp [lruInit], by simp [lruInit]⟩
  simpa [lruLoop, emptyFrames, lruInit] using h

theorem optLoop_spec (ref : List Int) (framesCount : Nat) (hfc : 1 ≤ framesCount)
    (pages : List Int) :
    ∃ out, optLoop ref framesCount pages = some out ∧ OptInv framesCount out.state ∧
      RowsOK (emptyFrames framesCount) 0 pages out.rows ∧
      out.hits = hitRows out.rows ∧ out.faults = faultRows out.rows ∧
      out.state.frames = lastFrames (emptyFrames framesCount) out.rows := by
  have h := simLoop_spec OptState.frames (optStep ref)
    (fun _ s => OptInv framesCount s) (fun _ => True)
    (fun i page s _ hI => optStep_spec ref framesCount hfc i page s hI) pages 0
    (optInit framesCount) 0 0 (fun _ _ => trivial)
    (by simp [optInit, OptInv])
  simpa [optLoop, emptyFrames, optInit] using h

theorem lfuLoop_spec (framesCount : Nat) (hfc : 1 ≤ framesCount) (pages : List Int) :
    ∃ out, lfuLoop framesCount pages = some out ∧ LFUInv framesCount out.state ∧
      RowsOK (emptyFrames framesCount) 0 pages out.rows ∧
      out.hits = hitRows out.rows ∧ out.faults = faultRows out.rows ∧
      out.state.frames = lastFrames (emptyFrames framesCount) out.rows := by
  have h := simLoop_spec LFUState.frames lfuStep
    (fun _ s => LFUInv framesCount s) (fun _ => True)
    (fun i page s _ hI => lfuStep_spec framesCount hfc i page s hI) pages 0
    (lfuInit framesCount) 0 0 (fun _ _ => trivial)
    ⟨by simp [lfuInit], by simp [lfuInit], by simp [lfuInit]⟩
  simpa [lfuLoop, emptyFrames, lfuInit] using h

theorem scLoop_spec (framesCount : Nat) (hfc : 1 ≤ framesCount) (pages : List Int) :
    ∃ out, scLoop framesCount pages = some out ∧ SCInv framesCount out.state ∧
      RowsOK (emptyFrames framesCount) 0 pages out.rows ∧
      out.hits = hitRows out.rows ∧ out.faults = faultRows out.rows ∧
      out.state.frames = lastFrames (emptyFrames framesCount) out.rows := by
  have h := simLoop_spec SCState.frames (fun _ => scStep framesCount)
    (fun _ s => SCInv framesCount s) (fun _ => True)
    (fun _ page s _ hI => scStep_spec framesCount page s hI) pages 0
    (scInit framesCount) 0 0 (fun _ _ => trivial)
    ⟨by simp [scInit], by simp [scInit], by simp [scInit]; omega⟩
  simpa [scLoop, emptyFrames, scInit] using h

theorem runOK_of_loop {σ : Type} (algoName : String) (framesCount : Nat) (ref : List Int)
    (l : Option (LoopOut σ)) (out : LoopOut σ) (h : l = some out)
    (hrows : RowsOK (emptyFrames framesCount) 0 ref out.rows)
    (hh : out.hits = hitRows out.rows) (hf : out.faults = faultRows out.rows) :
    RunOK framesCount ref (l.map (summarize algoName ref.length)) :=
  ⟨summarize algoName ref.length out, by rw [h]; rfl, hrows, hh, hf⟩

theorem runFIFO_ok (ref : List Int) (framesCount : Nat) (hfc : 1 ≤ framesCount) :
    RunOK framesCount ref (runFIFO ref framesCount) := by
  obtain ⟨out, h, _, hrows, hh, hf, _⟩ := fifoLoop_spec framesCount hfc ref
  exact runOK_of_loop _ framesCount ref _ out h hrows hh hf

theorem runLRU_ok (ref : List Int) (framesCount : Nat) (hfc : 1 ≤ framesCount) :
    RunOK framesCount ref (runLRU ref framesCount) := by
  obtain ⟨out, h, _, hrows, hh, hf, _⟩ := lruLoop_spec framesCount hfc ref
  exact runOK_of_loop _ framesCount ref _ out h hrows hh hf

theorem runOptimal_ok (ref : List Int) (framesCount : Nat) (hfc : 1 ≤ framesCount) :
    RunOK framesCount ref (runOptimal ref framesCount) := by
  obtain ⟨out, h, _, hrows, hh, hf, _⟩ := optLoop_spec ref framesCount hfc ref
  exact runOK_of_loop _ framesCount ref _ out h hrows hh hf

theorem runLFU_ok (ref : List Int) (framesCount : Nat) (hfc : 1 ≤ framesCount) :
    RunOK framesCount ref (runLFU ref framesCount) := by
  obtain ⟨out, h, _, hrows, hh, hf, _⟩ := lfuLoop_spec framesCount hfc ref
  exact runOK_of_loop _ framesCount ref _ out h hrows hh hf

theorem runSecondChance_ok (ref : List Int) (framesCount : Nat) (hfc : 1 ≤ framesCount) :
    RunOK framesCount ref (runSecondChance ref framesCount) := by
  obtain ⟨out, h, _, hrows, hh, hf, _⟩ := scLoop_spec framesCount hfc ref
  exact runOK_of_loop _ framesCount ref _ out h hrows hh hf

theorem RunOK.counts {framesCount : Nat} {ref : List Int} {r : Option Run}
    (h : RunOK framesCount ref r) :
    ∃ run, r = some run ∧ run.result.hits + run.result.faults = ref.length := by
  obtain ⟨run, hr, hrows, hh, hf⟩ := h
  refine ⟨run, hr, ?_⟩
  rw [hh, hf, hitRows_add_faultRows, RowsOK_length _ _ _ _ hrows]

theorem noDupResident_empty (framesCount : Nat) : NoDupResident (emptyFrames framesCount) := by
  intro j₁ j₂ p h₁ _ hp
  have : p ∈ emptyFrames framesCount := List.getElem?_mem h₁
  simp [emptyFrames] at this
  exact absurd this.2 hp

theorem residentCount_le (frames : List Int) : residentCount frames ≤ frames.length :=
  List.length_filter_le _ _

theorem noDupResident_set {frames : List Int} {page : Int} (j : Nat)
    (hnot : page ∉ frames) (h : NoDupResident frames) : NoDupResident (frames.set j page) := by
  intro j₁ j₂ p h₁ h₂ hp
  rw [List.getElem?_set] at h₁ h₂
  by_cases e₁ : j = j₁
  · by_cases e₂ : j = j₂
    · omega
    · simp only [e₁, if_true] at h₁
      simp only [e₂, if_false] at h₂
      split at h₁
      · cases h₁
        exact absurd (List.getElem?_mem h₂) hnot
      · cases h₁
  · simp only [e₁, if_false] at h₁
    by_cases e₂ : j = j₂
    · simp only [e₂, if_true] at h₂
      split at h₂
      · cases h₂
        exact absurd (List.getElem?_mem h₁) hnot
      · cases h₂
    · simp only [e₂, if_false] at h₂
      exact h j₁ j₂ p h₁ h₂ hp

theorem stepOK_wellFormed {framesCount : Nat} {page : Int} {before after : List Int}
    {hit : Bool} {replaced : Int}
    (h : StepOK page before after hit replaced)
    (hlen : before.length = framesCount) (hnd : NoDupResident before) :
    after.length = framesCount ∧ NoDupResident after := by
  rcases h with ⟨_, _, rfl, _⟩ | ⟨_, hnot, j, _, rfl, _, _⟩
  · exact ⟨hlen, hnd⟩
  · exact ⟨by simp [hlen], noDupResident_set j hnot hnd⟩

theorem stepOK_length {framesCount : Nat} {page : Int} {before after : List Int}
    {hit : Bool} {replaced : Int} (h : StepOK page before after hit replaced)
    (hlen : before.length = framesCount) : after.length = framesCount := by
  rcases h with ⟨_, _, rfl, _⟩ | ⟨_, hnot, j, _, rfl, _, _⟩
  · exact hlen
  · simp [hlen]

theorem RowsOK_wellFormed (framesCount : Nat) :
    ∀ (pages : List Int) (rows : List StepRow) (start : List Int) (i : Nat),
      RowsOK start i pages rows → start.length = framesCount →
      NoDupResident start →
      ∀ row ∈ rows, row.frames.length = framesCount ∧ NoDupResident row.frames
  | [], [], _, _, _, _, _ => by simp
  | [], _ :: _, _, _, h, _, _ => by simp [RowsOK] at h
  | _ :: _, [], _, _, h, _, _ => by simp [RowsOK] at h
  | p :: ps, r :: rs, start, i, h, hlen, hnd => by
    simp only [RowsOK] at h
    obtain ⟨_, _, hok, hrest⟩ := h
    have hw := stepOK_wellFormed hok hlen hnd
    intro row hrow
    rcases List.mem_cons.mp hrow with rfl | hmem
    · exact hw
    · exact RowsOK_wellFormed framesCount ps rs r.frames (i + 1) hrest hw.1 hw.2 row hmem

theorem RunOK.afterEveryStep {framesCount : Nat} {ref : List Int} {r : Option Run}
    (h : RunOK framesCount ref r) :
    AfterEveryStep ref r (FramesWellFormed framesCount) := by
  obtain ⟨run, hr, hrows, _, _⟩ := h
  refine ⟨run, hr, RowsOK_length _ _ _ _ hrows, fun row hrow => ?_⟩
  obtain ⟨hlen, hnd⟩ := RowsOK_wellFormed framesCount ref run.rows _ 0 hrows
    (by simp [emptyFrames]) (noDupResident_empty framesCount) row hrow
  exact ⟨hlen, hlen ▸ residentCount_le row.frames, hnd⟩

theorem RowsOK_get :
    ∀ (pages : List Int) (rows : List StepRow) (start : List Int) (i₀ : Nat),
      RowsOK start i₀ pages rows →
      ∀ (i : Nat) (page : Int) (row : StepRow), pages[i]? = some page → rows[i]? = some row →
        row.step = i₀ + i + 1 ∧ row.page = page ∧
          StepOK page (framesBefore start rows i) row.frames row.hit row.replaced
  | [], _, _, _, _, i, page, row, hp, _ => by simp at hp
  | _ :: _, [], _, _, h, _, _, _, _, _ => by simp [RowsOK] at h
  | p :: ps, r :: rs, start, i₀, h, i, page, row, hp, hr => by
    simp only [RowsOK] at h
    obtain ⟨hstep, hpage, hok, hrest⟩ := h
    cases i with
    | zero =>
      simp at hp hr
      subst hp hr
      exact ⟨by omega, hpage, hok⟩
    | succ k =>
      simp only [List.getElem?_cons_succ] at hp hr
      obtain ⟨h1, h2, h3⟩ := RowsOK_get ps rs r.frames (i₀ + 1) hrest k page row hp hr
      refine ⟨by omega, h2, ?_⟩
      cases k with
      | zero => simpa [framesBefore] using h3
      | succ m => simpa [framesBefore] using h3

theorem RowsOK_before_length (framesCount : Nat) :
    ∀ (pages : List Int) (rows : List StepRow) (start : List Int) (i₀ : Nat),
      RowsOK start i₀ pages rows → start.length = framesCount →
      ∀ (i : Nat), i < pages.length → (framesBefore start rows i).length = framesCount
  | [], _, _, _, _, _, i, hi => by simp at hi
  | _ :: _, [], _, _, h, _, _, _ => by simp [RowsOK] at h
  | p :: ps, r :: rs, start, i₀, h, hlen, i, hi => by
    simp only [RowsOK] at h
    obtain ⟨_, _, hok, hrest⟩ := h
    cases i with
    | zero => exact hlen
    | succ k =>
      have := RowsOK_before_length framesCount ps rs r.frames (i₀ + 1) hrest
        (stepOK_length hok hlen) k (by simpa using hi)
      cases k with
      | zero => simpa [framesBefore] using this
      | succ m => simpa [framesBefore] using this

theorem RunOK.stepSemantics {framesCount : Nat} {ref : List Int} {r : Option Run}
    (h : RunOK framesCount ref r) : StepSemantics framesCount ref r := by
  obtain ⟨run, hr, hrows, hh, hf⟩ := h
  refine ⟨run, hr, RowsOK_length _ _ _ _ hrows, hh, hf, ?_⟩
  intro i page row hp hrow
  obtain ⟨_, hpage, hok⟩ := RowsOK_get ref run.rows _ 0 hrows i page row hp hrow
  have hi : i < ref.length := by
    by_contra hge
    rw [List.getElem?_eq_none (by omega)] at hp
    cases hp
  have hlen := RowsOK_before_length framesCount ref run.rows _ 0 hrows
    (by simp [emptyFrames]) i hi
  refine ⟨hpage, ?_, ?_, ?_⟩
  · rcases hok with ⟨h1, h2, _, _⟩ | ⟨h1, h2, _⟩
    · simp [h1, h2]
    · simp [h1, h2]
  · rcases hok with ⟨_, _, h3, _⟩ | ⟨h1, _, _⟩
    · exact fun _ => h3
    · intro h'; rw [h1] at h'; cases h'
  · intro hfault
    rcases hok with ⟨h1, _, _, _⟩ | ⟨_, hnot, j, hj, hset, _, _⟩
    · rw [h1] at hfault; cases hfault
    · refine ⟨⟨j, ⟨by omega, hset⟩, ?_⟩, ?_⟩
      · rintro j' ⟨hj', hset'⟩
        by_contra hne
        have h1 : (row.frames)[j']? = some page := by
          rw [hset', List.getElem?_set_self (by omega)]
        rw [hset, List.getElem?_set_ne (fun e => hne e.symm)] at h1
        exact hnot (List.getElem?_mem h1)
      · rw [hset]
        exact List.mem_set _ _ hj _

theorem simLoop_append {σ : Type} (framesOf : σ → List Int)
    (body : Nat → Int → σ → Option (Outcome σ)) (xs ys : List Int) :
    ∀ (i : Nat) (s : σ) (hits faults : Nat),
      simLoop framesOf body (xs ++ ys) i s hits faults =
        match simLoop framesOf body xs i s hits faults with
        | none => none
        | some o₁ =>
          match simLoop framesOf body ys (i + xs.length) o₁.state o₁.hits o₁.faults with
          | none => none
          | some o₂ => some ⟨o₂.state, o₂.hits, o₂.faults, o₁.rows ++ o₂.rows⟩ := by
  induction xs with
  | nil =>
    intro i s hits faults
    simp only [List.nil_append, simLoop, List.length_nil, Nat.add_zero]
    cases simLoop framesOf body ys i s hits faults <;> rfl
  | cons x xs ih =>
    intro i s hits faults
    simp only [List.cons_append, simLoop]
    cases hb : body i x s with
    | none => rfl
    | some o =>
      have e : i + (x :: xs).length = i + 1 + xs.length := by simp; omega
      simp only [List.append_eq, ih, e]
      cases simLoop framesOf body xs (i + 1) o.state (if o.hit then hits + 1 else hits)
        (if o.hit then faults else faults + 1) with
      | none => rfl
      | some o₁ =>
        simp only
        cases simLoop framesOf body ys (i + 1 + xs.length) o₁.state o₁.hits o₁.faults with
        | none => rfl
        | some o₂ => simp

theorem simLoop_rows_length {σ : Type} (framesOf : σ → List Int)
    (body : Nat → Int → σ → Option (Outcome σ)) (pages : List Int) :
    ∀ (i : Nat) (s : σ) (hits faults : Nat) (out : LoopOut σ),
      simLoop framesOf body pages i s hits faults = some out → out.rows.length = pages.length := by
  induction pages with
  | nil =>
    intro i s hits faults out h
    simp only [simLoop, Option.some.injEq] at h
    subst h
    rfl
  | cons p ps ih =>
    intro i s hits faults out h
    simp only [simLoop] at h
    cases hb : body i p s with
    | none => rw [hb] at h; cases h
    | some o =>
      rw [hb] at h
      simp only at h
      cases hr : simLoop framesOf body ps (i + 1) o.state (if o.hit then hits + 1 else hits)
        (if o.hit then faults else faults + 1) with
      | none => rw [hr] at h; cases h
      | some out' =>
        rw [hr] at h
        simp only [Option.some.injEq] at h
        subst h
        simp [ih _ _ _ _ _ hr]

/-- Row `i` of a run is printed by the loop body, run at index `i` in the
state reached after the first `i` elements of the trace. -/
theorem simLoop_row {σ : Type} (framesOf : σ → List Int)
    (body : Nat → Int → σ → Option (Outcome σ)) (ref : List Int) (s₀ : σ) (out : LoopOut σ)
    (h : simLoop framesOf body ref 0 s₀ 0 0 = some out) (i : Nat) (page : Int)
    (hi : ref[i]? = some page) :
    ∃ pre o, simLoop framesOf body (ref.take i) 0 s₀ 0 0 = some pre ∧
      body i page pre.state = some o ∧ pre.rows.length = i ∧
      out.rows[i]? = some ⟨i + 1, page, framesOf o.state, o.hit, o.replaced⟩ := by
  have hlt : i < ref.length := by
    by_contra hge
    rw [List.getElem?_eq_none (by omega)] at hi
    cases hi
  have hpage : ref[i] = page := by
    rw [List.getElem?_eq_getElem hlt] at hi
    exact Option.some.inj hi
  have hsplit : ref.take i ++ page :: ref.drop (i + 1) = ref := by
    rw [← hpage, ← List.drop_eq_getElem_cons hlt, List.take_append_drop]
  have h' := h
  rw [← hsplit, simLoop_append] at h'
  cases hpre : simLoop framesOf body (ref.take i) 0 s₀ 0 0 with
  | none => rw [hpre] at h'; cases h'
  | some pre =>
    rw [hpre] at h'
    have hlen : pre.rows.length = i := by
      rw [simLoop_rows_length _ _ _ _ _ _ _ _ hpre, List.length_take]
      omega
    have hidx : 0 + (ref.take i).length = i := by
      rw [List.length_take]; omega
    simp only [hidx, simLoop] at h'
    cases hb : body i page pre.state with
    | none => rw [hb] at h'; cases h'
    | some o =>
      rw [hb] at h'
      simp only at h'
      cases hr : simLoop framesOf body (ref.drop (i + 1)) (i + 1) o.state
        (if o.hit then pre.hits + 1 else pre.hits)
        (if o.hit then pre.faults else pre.faults + 1) with
      | none => rw [hr] at h'; cases h'
      | some rest =>
        rw [hr] at h'
        simp only [Option.some.injEq] at h'
        refine ⟨pre, o, rfl, hb, hlen, ?_⟩
        rw [← h']
        simp only
        rw [List.getElem?_append_right (by omega)]
        simp [hlen]

theorem set_eq_self_of_getElem? {l : List Int} {j : Nat} {x : Int} (h : l[j]? = some x) :
    l.set j x = l := by
  apply List.ext_getElem? 
  intro k
  rw [List.getElem?_set]
  by_cases e : j = k
  · subst e
    simp only [if_true]
    split
    · exact h.symm
    · rename_i hlt
      rw [List.getElem?_eq_none (by omega)]
  · simp [e]

theorem lruMarks_update {frames lastUsed : List Int} {i : Nat} (k : Nat) (page : Int)
    (h : LRUMarks i ⟨frames, lastUsed⟩) :
    LRUMarks (i + 1) ⟨frames.set k page, lastUsed.set k (i : Int)⟩ := by
  obtain ⟨hlt, hdist⟩ := h
  simp only at hlt hdist
  constructor
  · intro j x hx
    simp only [List.getElem?_set] at hx
    by_cases e : k = j
    · simp only [e, if_true] at hx
      split at hx
      · cases hx; push_cast; omega
      · cases hx
    · simp only [e, if_false] at hx
      have := hlt j x hx
      push_cast; omega
  · intro j₁ j₂ x h₁ h₂ o₁ o₂
    simp only [List.getElem?_set] at h₁ h₂ o₁ o₂
    by_cases e₁ : k = j₁
    · by_cases e₂ : k = j₂
      · omega
      · simp only [e₁, if_true] at h₁
        simp only [e₂, if_false] at h₂
        split at h₁
        · cases h₁
          have := hlt j₂ _ h₂
          omega
        · cases h₁
    · by_cases e₂ : k = j₂
      · simp only [e₁, if_false] at h₁
        simp only [e₂, if_true] at h₂
        split at h₂
        · cases h₂
          have := hlt j₁ _ h₁
          omega
        · cases h₂
      · simp only [e₁, if_false] at h₁ o₁
        simp only [e₂, if_false] at h₂ o₂
        exact hdist j₁ j₂ x h₁ h₂ o₁ o₂

theorem lruStep_marks (i : Nat) (page : Int) (s : LRUState) (o : Outcome LRUState)
    (h : lruStep i page s = some o) (hm : LRUMarks i s) : LRUMarks (i + 1) o.state := by
  unfold lruStep at h
  rcases hp : findSlot page s.frames with _ | j
  · rw [hp] at h
    rcases he : findSlot (-1) s.frames with _ | e
    · rw [he] at h
      simp only at h
      rcases hv : lruVictim s.lastUsed with _ | v
      · rw [hv] at h; cases h
      · rw [hv] at h
        simp only at h
        rcases hg : s.frames[v]? with _ | old
        · rw [hg] at h; cases h
        · rw [hg] at h
          simp only [Option.some.injEq] at h
          subst h
          exact lruMarks_update v page hm
    · rw [he] at h
      simp only [Option.some.injEq] at h
      subst h
      exact lruMarks_update e page hm
  · rw [hp] at h
    simp only [Option.some.injEq] at h
    subst h
    have := lruMarks_update j page hm
    rwa [set_eq_self_of_getElem? (findSlot_some hp).2] at this

theorem lruLoop_marks (framesCount : Nat) (hfc : 1 ≤ framesCount) (pages : List Int) :
    ∃ out, lruLoop framesCount pages = some out ∧ LRUInv framesCount out.state ∧
      LRUMarks pages.length out.state := by
  have h := simLoop_spec LRUState.frames lruStep
    (fun i s => LRUInv framesCount s ∧ LRUMarks i s) (fun _ => True)
    (fun i page s _ hI => by
      obtain ⟨o, ho, hinv, hok⟩ := lruStep_spec framesCount hfc i page s hI.1
      exact ⟨o, ho, ⟨hinv, lruStep_marks i page s o ho hI.2⟩, hok⟩)
    pages 0 (lruInit framesCount) 0 0 (fun _ _ => trivial)
    ⟨⟨by simp [lruInit], by simp [lruInit]⟩, by
      constructor
      · intro j x hx
        have := List.getElem?_mem hx
        simp [lruInit] at this
        omega
      · intro j₁ j₂ x h₁ _ o₁ _
        exfalso
        apply o₁
        have hlt : j₁ < framesCount := by
          by_contra hge
          rw [List.getElem?_eq_none (by simp [lruInit]; omega)] at h₁
          cases h₁
        simp [lruInit, List.getElem?_replicate, hlt]⟩
  obtain ⟨out, hout, ⟨hinv, hmarks⟩, _⟩ := h
  exact ⟨out, hout, hinv, by simpa using hmarks⟩

theorem lruScan_min (L : List Int) :
    ∀ (xs : List Int) (j lruIndex : Nat) (minLast : Int), L.drop j = xs →
      L[lruIndex]? = some minLast →
      (∀ (k : Nat) (x : Int), k < j → L[k]? = some x → minLast ≤ x) →
      ∃ m, L[lruScan xs j lruIndex minLast]? = some m ∧
        ∀ (k : Nat) (x : Int), L[k]? = some x → m ≤ x := by
  intro xs
  induction xs with
  | nil =>
    intro j lruIndex minLast hdrop hidx hmin
    refine ⟨minLast, hidx, fun k x hk => hmin k x ?_ hk⟩
    have hlen : L.length ≤ j := List.drop_eq_nil_iff.mp hdrop
    by_contra hge
    rw [List.getElem?_eq_none (by omega)] at hk
    cases hk
  | cons y ys ih =>
    intro j lruIndex minLast hdrop hidx hmin
    have hj : L[j]? = some y := by
      have := congrArg (fun l => l[0]?) hdrop
      simpa using this
    have hdrop' : L.drop (j + 1) = ys := by
      have := congrArg List.tail hdrop
      simpa using this
    simp only [lruScan]
    split
    · rename_i hlt
      apply ih (j + 1) j y hdrop' hj
      intro k x hk hx
      by_cases e : k = j
      · subst e
        rw [hj] at hx
        cases hx
        exact le_refl _
      · have := hmin k x (by omega) hx
        omega
    · rename_i hge
      apply ih (j + 1) lruIndex minLast hdrop' hidx
      intro k x hk hx
      by_cases e : k = j
      · subst e
        rw [hj] at hx
        cases hx
        omega
      · exact hmin k x (by omega) hx

theorem lruVictim_min {lastUsed : List Int} {v : Nat} (h : lruVictim lastUsed = some v) :
    ∃ m, lastUsed[v]? = some m ∧ ∀ (k : Nat) (x : Int), lastUsed[k]? = some x → m ≤ x := by
  cases lastUsed with
  | nil => simp [lruVictim] at h
  | cons y ys =>
    simp only [lruVictim, Option.some.injEq] at h
    subst h
    apply lruScan_min (y :: ys) ys 1 0 y (by simp) (by simp)
    intro k x hk hx
    have : k = 0 := by omega
    subst this
    simp at hx
    omega

/-- History rule for the loop: a relation between the state and the rows
printed so far that holds initially and is kept by every iteration holds at
the end of the loop. -/
theorem simLoop_hist {σ : Type} (framesOf : σ → List Int)
    (body : Nat → Int → σ → Option (Outcome σ)) (s₀ : σ) (H : σ → List StepRow → Prop)
    (P : Int → Prop) (h₀ : H s₀ [])
    (hstep : ∀ (i : Nat) (page : Int) (s : σ) (rows : List StepRow) (o : Outcome σ),
      P page → rows.length = i → H s rows → body i page s = some o →
      H o.state (rows ++ [⟨i + 1, page, framesOf o.state, o.hit, o.replaced⟩])) :
    ∀ (pages : List Int) (out : LoopOut σ), (∀ p ∈ pages, P p) →
      simLoop framesOf body pages 0 s₀ 0 0 = some out → H out.state out.rows := by
  intro pages
  induction pages using List.reverseRecOn with
  | nil =>
    intro out _ h
    simp only [simLoop, Option.some.injEq] at h
    subst h
    exact h₀
  | append_singleton xs p ih =>
    intro out hP h
    rw [simLoop_append] at h
    cases hpre : simLoop framesOf body xs 0 s₀ 0 0 with
    | none => rw [hpre] at h; cases h
    | some pre =>
      rw [hpre] at h
      have hH := ih pre (fun q hq => hP q (List.mem_append_left _ hq)) hpre
      have hlen := simLoop_rows_length _ _ _ _ _ _ _ _ hpre
      simp only [simLoop, Nat.zero_add] at h
      cases hb : body xs.length p pre.state with
      | none => rw [hb] at h; cases h
      | some o =>
        rw [hb] at h
        simp only [Option.some.injEq] at h
        subst h
        exact hstep xs.length p pre.state pre.rows o (hP p (by simp)) hlen hH hb

theorem findSlot_append_of_not_mem (x : Int) (l r : List Int) (h : x ∉ l) :
    findSlot x (l ++ x :: r) = some l.length := by
  induction l with
  | nil => simp [findSlot]
  | cons y ys ih =>
    have hy : ¬ y = x := fun e => h (by simp [e])
    have hys : x ∉ ys := fun hm => h (List.mem_cons_of_mem _ hm)
    simp [findSlot, hy, ih hys]

theorem set_append_length (l r : List Int) (x y : Int) :
    (l ++ x :: r).set l.length y = l ++ y :: r := by
  induction l with
  | nil => rfl
  | cons z zs ih => simp [ih]

theorem rotate_after_replace (A B : List Int) (old page : Int) :
    ((A ++ old :: B).set A.length page).drop ((A.length + 1) % (A ++ old :: B).length) ++
      ((A ++ old :: B).set A.length page).take ((A.length + 1) % (A ++ old :: B).length) =
      B ++ A ++ [page] := by
  rw [set_append_length]
  cases B with
  | nil =>
    have : (A.length + 1) % (A ++ [old]).length = 0 := by simp
    rw [this]
    simp
  | cons b bs =>
    have hmod : (A.length + 1) % (A ++ old :: b :: bs).length = A.length + 1 := by
      apply Nat.mod_eq_of_lt
      simp
    rw [hmod]
    have e : A ++ page :: b :: bs = (A ++ [page]) ++ (b :: bs) := by simp
    have hl : (A ++ [page]).length = A.length + 1 := by simp
    rw [e, ← hl, List.drop_left, List.take_left]
    simp

theorem fifoStep_hist (framesCount : Nat) (page : Int) (hpage : page ≠ -1) (s : FIFOState)
    (loaded evicted : List Int) (o : Outcome FIFOState)
    (hH : FIFOHist framesCount s loaded evicted) (ho : fifoStep framesCount page s = some o) :
    FIFOHist framesCount o.state (if o.hit then loaded else loaded ++ [page])
      (if o.replaced = -1 then evicted else evicted ++ [o.replaced]) := by
  obtain ⟨hlen, hptr, hl, m, hm, hm0⟩ := hH
  have hfc : framesCount ≠ 0 := by omega
  have hrot : ∀ x, x ∈ s.frames.drop s.pointer ++ s.frames.take s.pointer ↔ x ∈ s.frames := by
    intro x
    rw [List.mem_append, or_comm, ← List.mem_append, List.take_append_drop]
  unfold fifoStep at ho
  rcases hp : findSlot page s.frames with _ | j
  · rw [hp] at ho
    rcases he : findSlot (-1) s.frames with _ | e
    · -- replacement at the pointer
      rw [he] at ho
      have hfull : (-1 : Int) ∉ s.frames := findSlot_none.mp he
      have hm_zero : m = 0 := by
        by_contra hne
        obtain ⟨hp0, hev⟩ := hm0 (by omega)
        apply hfull
        rw [← hrot, ← List.nil_append (_ ++ _), ← hev, ← hm]
        apply List.mem_append_right
        cases m with
        | zero => omega
        | succ k => simp [List.replicate_succ]
      subst hm_zero
      have hget : s.frames[s.pointer]? = some (s.frames[s.pointer]) :=
        List.getElem?_eq_getElem (by omega)
      simp only [hget, hfc, if_false, Option.some.injEq] at ho
      subst ho
      have hold : s.frames[s.pointer] ≠ -1 := fun e => hfull (e ▸ List.getElem_mem _)
      simp only [Bool.false_eq_true, if_false, hold]
      have hsplit : s.frames = s.frames.take s.pointer ++
          s.frames[s.pointer] :: s.frames.drop (s.pointer + 1) := by
        rw [← List.drop_eq_getElem_cons, List.take_append_drop]
      have hA : (s.frames.take s.pointer).length = s.pointer := by
        rw [List.length_take]; omega
      have key := rotate_after_replace (s.frames.take s.pointer) (s.frames.drop (s.pointer + 1))
        (s.frames[s.pointer]) page
      rw [← hsplit, hA, hlen] at key
      refine ⟨by simp [hlen], Nat.mod_lt _ (by omega), ?_, 0, ?_, fun h => absurd h (by omega)⟩
      · intro p hp'
        rcases List.mem_append.mp hp' with h | h
        · exact hl p h
        · simp at h; omega
      · simp only [List.replicate_zero, List.append_nil] at hm ⊢
        rw [key, hm, List.drop_eq_getElem_cons (by omega : s.pointer < s.frames.length)]
        simp only [List.append_assoc, List.cons_append, List.singleton_append, List.nil_append]
    · -- an empty slot is filled
      rw [he] at ho
      simp only [Option.some.injEq] at ho
      subst ho
      simp only [Bool.false_eq_true, if_false, if_true]
      have hmem : (-1 : Int) ∈ s.frames := findSlot_some_mem he
      have hm_pos : 0 < m := by
        by_contra hz
        have hz' : m = 0 := by omega
        subst hz'
        simp only [List.replicate_zero, List.append_nil] at hm
        have : (-1 : Int) ∈ loaded := by
          rw [hm]
          exact List.mem_append_right _ ((hrot _).mpr hmem)
        exact hl _ this rfl
      obtain ⟨hp0, hev⟩ := hm0 hm_pos
      rw [hp0, hev] at hm
      simp only [List.drop_zero, List.take_zero, List.append_nil, List.nil_append] at hm
      obtain ⟨k, rfl⟩ : ∃ k, m = k + 1 := ⟨m - 1, by omega⟩
      rw [List.replicate_succ] at hm
      have hnot : (-1 : Int) ∉ loaded := fun h => hl _ h rfl
      have he' : e = loaded.length := by
        have := findSlot_append_of_not_mem (-1) loaded (List.replicate k (-1)) hnot
        rw [hm, he] at this
        exact Option.some.inj this
      refine ⟨by simp [hlen], hptr, ?_, k, ?_, fun _ => ⟨hp0, hev⟩⟩
      · intro p hp'
        rcases List.mem_append.mp hp' with h | h
        · exact hl p h
        · simp at h; omega
      · rw [hp0, hev, ← hm, he', set_append_length]
        simp
  · rw [hp] at ho
    simp only [Option.some.injEq] at ho
    subst ho
    simp only [if_true]
    exact ⟨hlen, hptr, hl, m, hm, hm0⟩

theorem loadedSeq_snoc (rows : List StepRow) (r : StepRow) :
    loadedSeq (rows ++ [r]) = if r.hit then loadedSeq rows else loadedSeq rows ++ [r.page] := by
  cases h : r.hit <;> simp [loadedSeq, List.filter_append, List.filter_cons, h]

theorem evictedSeq_snoc (rows : List StepRow) (r : StepRow) :
    evictedSeq (rows ++ [r]) =
      if r.replaced = -1 then evictedSeq rows else evictedSeq rows ++ [r.replaced] := by
  by_cases h : r.replaced = -1 <;> simp [evictedSeq, List.filter_append, List.filter_cons, h]

theorem fifoLoop_hist (framesCount : Nat) (hfc : 1 ≤ framesCount) (pages : List Int)
    (hpages : ∀ p ∈ pages, 0 ≤ p) (out : LoopOut FIFOState)
    (h : fifoLoop framesCount pages = some out) :
    FIFOHist framesCount out.state (loadedSeq out.rows) (evictedSeq out.rows) := by
  refine simLoop_hist FIFOState.frames (fun _ => fifoStep framesCount) (fifoInit framesCount)
    (fun s rows => FIFOHist framesCount s (loadedSeq rows) (evictedSeq rows))
    (fun p => 0 ≤ p) ?_ ?_ pages out hpages h
  · refine ⟨by simp [fifoInit], by simp [fifoInit]; omega, by simp [loadedSeq], framesCount, ?_,
      fun _ => ⟨rfl, rfl⟩⟩
    simp [fifoInit, loadedSeq, evictedSeq]
  · intro i page s rows o hp _ hH ho
    have := fifoStep_hist framesCount page (by omega) s _ _ o hH ho
    simp only [loadedSeq_snoc, evictedSeq_snoc]
    exact this

theorem minOver_le {S : Finset Int} (f : Int → Nat) {q : Int} (hq : q ∈ S) :
    minOver S f ≤ f q := by
  unfold minOver
  rw [dif_pos ⟨q, hq⟩]
  exact Finset.inf'_le f hq

theorem minOver_attained {S : Finset Int} (f : Int → Nat) (h : S.Nonempty) :
    ∃ q ∈ S, minOver S f = f q := by
  unfold minOver
  rw [dif_pos h]
  exact Finset.exists_mem_eq_inf' h f

theorem minFaults_hit (k : Nat) (p : Int) (σ : List Int) (S : Finset Int) (h : p ∈ S) :
    minFaults k (p :: σ) S = minFaults k σ S := by
  simp [minFaults, h]

theorem minFaults_fill (k : Nat) (p : Int) (σ : List Int) (S : Finset Int) (h : p ∉ S)
    (hc : S.card < k) : minFaults k (p :: σ) S = minFaults k σ (insert p S) + 1 := by
  simp [minFaults, h, hc]

theorem minFaults_full_le (k : Nat) (p : Int) (σ : List Int) (S : Finset Int) (h : p ∉ S)
    (hc : ¬ S.card < k) (q : Int) (hq : q ∈ S) :
    minFaults k (p :: σ) S ≤ minFaults k σ (insert p (S.erase q)) + 1 := by
  simp only [minFaults, h, hc, if_false]
  exact Nat.add_le_add_right (minOver_le _ hq) 1

theorem minFaults_full_attained (k : Nat) (p : Int) (σ : List Int) (S : Finset Int)
    (h : p ∉ S) (hc : ¬ S.card < k) (hne : S.Nonempty) :
    ∃ q ∈ S, minFaults k (p :: σ) S = minFaults k σ (insert p (S.erase q)) + 1 := by
  obtain ⟨q, hq, he⟩ := minOver_attained (fun q => minFaults k σ (insert p (S.erase q))) hne
  exact ⟨q, hq, by simp only [minFaults, h, hc, if_false]; rw [he]⟩

theorem reuse_cons (q p : Int) (σ : List Int) :
    reuse q (p :: σ) = if p = q then 0 else reuse q σ + 1 := by
  unfold reuse
  by_cases h : p = q
  · simp [findSlot, h]
  · simp only [findSlot, h, if_false]
    cases findSlot q σ <;> simp

theorem reuse_le_length (q : Int) (σ : List Int) : reuse q σ ≤ σ.length := by
  induction σ with
  | nil => simp [reuse, findSlot]
  | cons p σ ih =>
    rw [reuse_cons]
    split
    · simp
    · simp; exact ih

theorem insert_erase_insert (R : Finset Int) (p x q : Int) (hqx : q ≠ x) :
    insert p ((insert x R).erase q) = insert x (insert p (R.erase q)) := by
  rw [Finset.erase_insert_of_ne (fun e => hqx e.symm), Finset.Insert.comm]

theorem insert_eq_insert_erase (R : Finset Int) (p q : Int) (hq : q ∈ R) :
    insert p R = insert q (insert p (R.erase q)) := by
  rw [Finset.Insert.comm, Finset.insert_erase hq]

theorem card_insert_erase (R : Finset Int) (p q : Int) (hq : q ∈ R) (hp : p ∉ R) :
    (insert p (R.erase q)).card = R.card := by
  rw [Finset.card_insert_of_not_mem (fun h => hp (Finset.mem_of_mem_erase h)),
    Finset.card_erase_of_mem hq]
  have : 0 < R.card := Finset.card_pos.mpr ⟨q, hq⟩
  omega

/-- Two full resident sets that differ in one page are at most one fault apart. -/
theorem minFaults_swap_le_succ (k : Nat) :
    ∀ (σ : List Int) (R : Finset Int) (a b : Int), a ∉ R → b ∉ R → R.card + 1 = k →
      minFaults k σ (insert a R) ≤ minFaults k σ (insert b R) + 1 := by
  intro σ
  induction σ with
  | nil => intro R a b _ _ _; simp [minFaults]
  | cons p σ ih =>
    intro R a b ha hb hk
    by_cases hab : a = b
    · subst hab; omega
    have hcA : ¬ (insert a R).card < k := by
      rw [Finset.card_insert_of_not_mem ha]; omega
    have hcB : ¬ (insert b R).card < k := by
      rw [Finset.card_insert_of_not_mem hb]; omega
    by_cases hpR : p ∈ R
    · rw [minFaults_hit _ _ _ _ (Finset.mem_insert_of_mem hpR),
        minFaults_hit _ _ _ _ (Finset.mem_insert_of_mem hpR)]
      exact ih R a b ha hb hk
    by_cases hpa : p = a
    · subst hpa
      rw [minFaults_hit _ _ _ _ (Finset.mem_insert_self _ _)]
      have hpB : p ∉ insert b R := by simp [hab, hpR]
      obtain ⟨q, hq, he⟩ :=
        minFaults_full_attained k p σ (insert b R) hpB hcB ⟨b, Finset.mem_insert_self _ _⟩
      rw [he]
      rcases Finset.mem_insert.mp hq with rfl | hqR
      · rw [Finset.erase_insert hb]; omega
      · have hqb : q ≠ b := fun e => hb (e ▸ hqR)
        have hqp : q ≠ p := fun e => hpR (e ▸ hqR)
        rw [insert_erase_insert R p b q hqb, insert_eq_insert_erase R p q hqR]
        have := ih (insert p (R.erase q)) q b (by simp [hqp]) (by simp [Ne.symm hab, hb])
          (by rw [card_insert_erase R p q hqR hpR]; exact hk)
        omega
    by_cases hpb : p = b
    · subst hpb
      rw [minFaults_hit _ _ _ _ (Finset.mem_insert_self _ _)]
      have hpA : p ∉ insert a R := by simp [Ne.symm hab, hpR]
      have := minFaults_full_le k p σ (insert a R) hpA hcA a (Finset.mem_insert_self _ _)
      rw [Finset.erase_insert ha] at this
      exact this
    · have hpA : p ∉ insert a R := by simp [hpa, hpR]
      have hpB : p ∉ insert b R := by simp [hpb, hpR]
      obtain ⟨q, hq, he⟩ :=
        minFaults_full_attained k p σ (insert b R) hpB hcB ⟨b, Finset.mem_insert_self _ _⟩
      rw [he]
      rcases Finset.mem_insert.mp hq with rfl | hqR
      · have := minFaults_full_le k p σ (insert a R) hpA hcA a (Finset.mem_insert_self _ _)
        rw [Finset.erase_insert ha] at this
        rw [Finset.erase_insert hb]
        omega
      · have hqb : q ≠ b := fun e => hb (e ▸ hqR)
        have hqa : q ≠ a := fun e => ha (e ▸ hqR)
        have := minFaults_full_le k p σ (insert a R) hpA hcA q (Finset.mem_insert_of_mem hqR)
        rw [insert_erase_insert R p a q hqa] at this
        rw [insert_erase_insert R p b q hqb]
        have h2 := ih (insert p (R.erase q)) a b
          (by simp [Ne.symm hpa, ha]) (by simp [Ne.symm hpb, hb])
          (by rw [card_insert_erase R p q hqR hpR]; exact hk)
        omega

/-- Of two full resident sets that differ in one page, the one holding the
page that is used sooner needs no more faults. -/
theorem minFaults_sooner_le (k : Nat) :
    ∀ (σ : List Int) (R : Finset Int) (a b : Int), a ∉ R → b ∉ R → R.card + 1 = k →
      reuse a σ ≤ reuse b σ → minFaults k σ (insert a R) ≤ minFaults k σ (insert b R) := by
  intro σ
  induction σ with
  | nil => intro R a b _ _ _ _; simp [minFaults]
  | cons p σ ih =>
    intro R a b ha hb hk hreuse
    by_cases hab : a = b
    · subst hab; exact le_refl _
    have hcA : ¬ (insert a R).card < k := by
      rw [Finset.card_insert_of_not_mem ha]; omega
    have hcB : ¬ (insert b R).card < k := by
      rw [Finset.card_insert_of_not_mem hb]; omega
    rw [reuse_cons, reuse_cons] at hreuse
    by_cases hpa : p = a
    · subst hpa
      rw [minFaults_hit _ _ _ _ (Finset.mem_insert_self _ _)]
      have hpR : p ∉ R := ha
      have hpB : p ∉ insert b R := by simp [hab, hpR]
      obtain ⟨q, hq, he⟩ :=
        minFaults_full_attained k p σ (insert b R) hpB hcB ⟨b, Finset.mem_insert_self _ _⟩
      rw [he]
      rcases Finset.mem_insert.mp hq with rfl | hqR
      · rw [Finset.erase_insert hb]; omega
      · have hqb : q ≠ b := fun e => hb (e ▸ hqR)
        have hqp : q ≠ p := fun e => hpR (e ▸ hqR)
        rw [insert_erase_insert R p b q hqb, insert_eq_insert_erase R p q hqR]
        exact minFaults_swap_le_succ k σ (insert p (R.erase q)) q b (by simp [hqp])
          (by simp [Ne.symm hab, hb]) (by rw [card_insert_erase R p q hqR hpR]; exact hk)
    by_cases hpb : p = b
    · subst hpb
      simp [hpa] at hreuse
    simp only [hpa, hpb, if_false] at hreuse
    by_cases hpR : p ∈ R
    · rw [minFaults_hit _ _ _ _ (Finset.mem_insert_of_mem hpR),
        minFaults_hit _ _ _ _ (Finset.mem_insert_of_mem hpR)]
      exact ih R a b ha hb hk (by omega)
    · have hpA : p ∉ insert a R := by simp [hpa, hpR]
      have hpB : p ∉ insert b R := by simp [hpb, hpR]
      obtain ⟨q, hq, he⟩ :=
        minFaults_full_attained k p σ (insert b R) hpB hcB ⟨b, Finset.mem_insert_self _ _⟩
      rw [he]
      rcases Finset.mem_insert.mp hq with rfl | hqR
      · have := minFaults_full_le k p σ (insert a R) hpA hcA a (Finset.mem_insert_self _ _)
        rw [Finset.erase_insert ha] at this
        rw [Finset.erase_insert hb]
        exact this
      · have hqb : q ≠ b := fun e => hb (e ▸ hqR)
        have hqa : q ≠ a := fun e => ha (e ▸ hqR)
        have := minFaults_full_le k p σ (insert a R) hpA hcA q (Finset.mem_insert_of_mem hqR)
        rw [insert_erase_insert R p a q hqa] at this
        rw [insert_erase_insert R p b q hqb]
        have h2 := ih (insert p (R.erase q)) a b
          (by simp [Ne.symm hpa, ha]) (by simp [Ne.symm hpb, hb])
          (by rw [card_insert_erase R p q hqR hpR]; exact hk) (by omega)
        omega

/-- Belady's rule: when a full resident set misses the page `p`, giving up a
resident page whose next use is farthest away attains the least number of
faults. -/
theorem minFaults_farthest (k : Nat) (p : Int) (σ : List Int) (S : Finset Int) (far : Int)
    (hp : p ∉ S) (hk : S.card = k) (hfar : far ∈ S)
    (hmax : ∀ q ∈ S, reuse q σ ≤ reuse far σ) :
    minFaults k (p :: σ) S = minFaults k σ (insert p (S.erase far)) + 1 := by
  have hc : ¬ S.card < k := by omega
  apply le_antisymm (minFaults_full_le k p σ S hp hc far hfar)
  obtain ⟨q, hq, he⟩ := minFaults_full_attained k p σ S hp hc ⟨far, hfar⟩
  rw [he]
  by_cases hqf : q = far
  · subst hqf; exact le_refl _
  · have hR : ∀ x, x ∉ insert p ((S.erase far).erase q) ↔ (x ≠ p ∧ (x = far ∨ x = q ∨ x ∉ S)) := by
      intro x
      simp only [Finset.mem_insert, Finset.mem_erase]
      tauto
    have hqp : q ≠ p := fun e => hp (e ▸ hq)
    have hfp : far ≠ p := fun e => hp (e ▸ hfar)
    have e1 : insert p (S.erase far) = insert q (insert p ((S.erase far).erase q)) := by
      rw [Finset.Insert.comm, Finset.insert_erase (Finset.mem_erase.mpr ⟨hqf, hq⟩)]
    have e2 : insert p (S.erase q) = insert far (insert p ((S.erase far).erase q)) := by
      rw [Finset.Insert.comm, Finset.erase_right_comm,
        Finset.insert_erase (Finset.mem_erase.mpr ⟨fun e => hqf e.symm, hfar⟩)]
    rw [e1, e2]
    have hcard : (insert p ((S.erase far).erase q)).card + 1 = k := by
      rw [Finset.card_insert_of_not_mem (by simp [hp]),
        Finset.card_erase_of_mem (Finset.mem_erase.mpr ⟨hqf, hq⟩),
        Finset.card_erase_of_mem hfar]
      have : 1 < S.card := Finset.one_lt_card.mpr ⟨q, hq, far, hfar, hqf⟩
      omega
    have := minFaults_sooner_le k σ (insert p ((S.erase far).erase q)) q far
      ((hR q).mpr ⟨hqp, Or.inr (Or.inl rfl)⟩) ((hR far).mpr ⟨hfp, Or.inl rfl⟩) hcard (hmax q hq)
    omega

theorem mem_resident {frames : List Int} {x : Int} :
    x ∈ resident frames ↔ x ≠ -1 ∧ x ∈ frames := by
  simp [resident]

theorem resident_set {frames : List Int} {j : Nat} {p q : Int} (hnd : NoDupResident frames)
    (hq : frames[j]? = some q) (hp : p ≠ -1) :
    resident (frames.set j p) = insert p ((resident frames).erase q) := by
  have hj : j < frames.length := by
    by_contra hge
    rw [List.getElem?_eq_none (by omega)] at hq
    cases hq
  ext x
  simp only [mem_resident, Finset.mem_insert, Finset.mem_erase, List.mem_iff_getElem?,
    List.getElem?_set]
  constructor
  · rintro ⟨hx, i, hi⟩
    by_cases e : j = i
    · simp only [e, if_true] at hi
      split at hi
      · left; exact (Option.some.inj hi).symm
      · cases hi
    · simp only [e, if_false] at hi
      right
      refine ⟨?_, hx, i, hi⟩
      intro exq
      subst exq
      exact e (hnd j i x hq hi hx)
  · rintro (rfl | ⟨hxq, hx, i, hi⟩)
    · exact ⟨hp, j, by simp [hj]⟩
    · refine ⟨hx, i, ?_⟩
      have e : j ≠ i := by
        intro e
        subst e
        rw [hq] at hi
        exact hxq (Option.some.inj hi).symm
      simp [e, hi]

theorem resident_card_lt {frames : List Int} (h : (-1 : Int) ∈ frames) :
    (resident frames).card < frames.length := by
  unfold resident
  rw [Finset.card_erase_of_mem (List.mem_toFinset.mpr h)]
  have h1 := List.toFinset_card_le frames
  have h2 : 0 < frames.toFinset.card := Finset.card_pos.mpr ⟨_, List.mem_toFinset.mpr h⟩
  omega

theorem resident_card_full {frames : List Int} (h : (-1 : Int) ∉ frames)
    (hnd : NoDupResident frames) : (resident frames).card = frames.length := by
  unfold resident
  rw [Finset.erase_eq_of_not_mem (fun hm => h (List.mem_toFinset.mp hm))]
  apply List.toFinset_card_of_nodup
  rw [List.nodup_iff_getElem?_ne_getElem?]
  intro i j hij hj e
  have hi : frames[i]? = some (frames[i]) := List.getElem?_eq_getElem (by omega)
  have hj' : frames[j]? = some (frames[i]) := by rw [← e, hi]
  have hne : frames[i] ≠ -1 := fun e' => h (e' ▸ List.getElem_mem _)
  have := hnd i j _ hi hj' hne
  omega

/-- One step of a simulator costs at least what the best choice costs. -/
theorem minFaults_step_le (k : Nat) (p : Int) (σ : List Int) (before after : List Int)
    (hit : Bool) (replaced : Int) (hp : p ≠ -1) (hlen : before.length = k)
    (hnd : NoDupResident before) (hok : StepOK p before after hit replaced) :
    minFaults k (p :: σ) (resident before) ≤
      minFaults k σ (resident after) + (if hit then 0 else 1) := by
  rcases hok with ⟨hhit, hmem, rfl, _⟩ | ⟨hhit, hnot, j, hj, rfl, hget, hrep⟩
  · rw [hhit, minFaults_hit _ _ _ _ (mem_resident.mpr ⟨hp, hmem⟩)]
    simp
  · rw [hhit, resident_set hnd hget hp]
    have hpS : p ∉ resident before := fun h => hnot (mem_resident.mp h).2
    simp only [Bool.false_eq_true, if_false]
    by_cases hempty : (-1 : Int) ∈ before
    · have hr := hrep hempty
      subst hr
      have hc : (resident before).card < k := hlen ▸ resident_card_lt hempty
      rw [minFaults_fill _ _ _ _ hpS hc,
        Finset.erase_eq_of_not_mem (fun h => (mem_resident.mp h).1 rfl)]
    · have hc : ¬ (resident before).card < k := by
        rw [resident_card_full hempty hnd]; omega
      have hrne : replaced ≠ -1 := fun e => hempty (e ▸ List.getElem?_mem hget)
      exact minFaults_full_le k p σ _ hpS hc replaced
        (mem_resident.mpr ⟨hrne, List.getElem?_mem hget⟩)

/-- Every run whose rows are linked by `StepOK` has at least `minFaults` fault rows. -/
theorem minFaults_le_faultRows (k : Nat) :
    ∀ (pages : List Int) (rows : List StepRow) (start : List Int) (i : Nat),
      RowsOK start i pages rows → (∀ p ∈ pages, p ≠ -1) → start.length = k →
      NoDupResident start → minFaults k pages (resident start) ≤ faultRows rows
  | [], _, _, _, _, _, _, _ => by simp [minFaults]
  | _ :: _, [], _, _, h, _, _, _ => by simp [RowsOK] at h
  | p :: ps, r :: rs, start, i, h, hp, hlen, hnd => by
    simp only [RowsOK] at h
    obtain ⟨_, _, hok, hrest⟩ := h
    have hw := stepOK_wellFormed hok hlen hnd
    have ih := minFaults_le_faultRows k ps rs r.frames (i + 1) hrest
      (fun q hq => hp q (List.mem_cons_of_mem _ hq)) hw.1 hw.2
    have hstep := minFaults_step_le k p ps start r.frames r.hit r.replaced
      (hp p (List.mem_cons_self _ _)) hlen hnd hok
    cases hh : r.hit
    · simp only [hh, Bool.false_eq_true, if_false] at hstep
      simp only [faultRows, List.filter_cons, hh, Bool.not_false, if_true,
        List.length_cons] at ih ⊢
      omega
    · simp only [hh, if_true] at hstep
      simp only [faultRows, List.filter_cons, hh, Bool.not_true, Bool.false_eq_true,
        if_false] at ih ⊢
      omega

theorem reuse_of_findSlot_some {q : Int} {σ : List Int} {d : Nat} (h : findSlot q σ = some d) :
    reuse q σ = d := by
  simp [reuse, h]

theorem reuse_of_findSlot_none {q : Int} {σ : List Int} (h : findSlot q σ = none) :
    reuse q σ = σ.length := by
  simp [reuse, h]

/-- The scan of `runOptimal` returns a slot whose page is used farthest in
the future (or never again) among the pages of all slots. -/
theorem optScan_farthest (ref : List Int) (i : Nat) (F : List Int) :
    ∀ (l : List Int) (j : Nat) (idx : Option Nat) (far : Int), F.drop j = l →
      ((idx = none ∧ far = -1 ∧ j = 0) ∨
        ∃ v q d, idx = some v ∧ F[v]? = some q ∧ findSlot q (ref.drop (i + 1)) = some d ∧
          far = ((d + (i + 1) : Nat) : Int) ∧
          ∀ (k : Nat) (x : Int), k < j → F[k]? = some x → reuse x (ref.drop (i + 1)) ≤ d) →
      ∀ v, optScan ref i l j idx far = some v →
        ∃ q, F[v]? = some q ∧ ∀ x ∈ F, reuse x (ref.drop (i + 1)) ≤ reuse q (ref.drop (i + 1)) := by
  intro l
  induction l with
  | nil =>
    intro j idx far hdrop hinv v hv
    simp only [optScan] at hv
    rcases hinv with ⟨hnone, _, _⟩ | ⟨v', q, d, hidx, hq, hd, _, hmax⟩
    · rw [hnone] at hv; cases hv
    · rw [hidx] at hv
      cases hv
      refine ⟨q, hq, fun x hx => ?_⟩
      obtain ⟨k, hk⟩ := List.mem_iff_getElem?.mp hx
      have hlen : F.length ≤ j := List.drop_eq_nil_iff.mp hdrop
      have hkj : k < j := by
        by_contra hge
        rw [List.getElem?_eq_none (by omega)] at hk
        cases hk
      rw [reuse_of_findSlot_some hd]
      exact hmax k x hkj hk
  | cons y ys ih =>
    intro j idx far hdrop hinv v hv
    have hj : F[j]? = some y := by
      have := congrArg (fun l => l[0]?) hdrop
      simpa using this
    have hdrop' : F.drop (j + 1) = ys := by
      have := congrArg List.tail hdrop
      simpa using this
    simp only [optScan, nextUse] at hv
    rcases hf : findSlot y (ref.drop (i + 1)) with _ | d'
    · rw [hf] at hv
      simp only [Option.map_none', Option.some.injEq] at hv
      subst hv
      refine ⟨y, hj, fun x _ => ?_⟩
      rw [reuse_of_findSlot_none hf]
      exact reuse_le_length x _
    · rw [hf] at hv
      simp only [Option.map_some'] at hv
      split at hv
      · rename_i hgt
        apply ih (j + 1) (some j) _ hdrop' _ v hv
        right
        refine ⟨j, y, d', rfl, hj, hf, rfl, ?_⟩
        intro k x hk hx
        by_cases e : k = j
        · subst e
          rw [hj] at hx
          cases hx
          rw [reuse_of_findSlot_some hf]
        · rcases hinv with ⟨_, _, hj0⟩ | ⟨_, _, d, _, _, _, hfar, hmax⟩
          · omega
          · have := hmax k x (by omega) hx
            rw [hfar] at hgt
            push_cast at hgt
            omega
      · rename_i hle
        apply ih (j + 1) idx far hdrop' _ v hv
        rcases hinv with ⟨_, hfar, _⟩ | ⟨v', q, d, hidx, hq, hd, hfar, hmax⟩
        · rw [hfar] at hle
          push_cast at hle
          omega
        · right
          refine ⟨v', q, d, hidx, hq, hd, hfar, ?_⟩
          intro k x hk hx
          by_cases e : k = j
          · subst e
            rw [hj] at hx
            cases hx
            rw [reuse_of_findSlot_some hf]
            rw [hfar] at hle
            push_cast at hle
            omega
          · exact hmax k x (by omega) hx

/-- One step of `runOptimal` costs exactly what the best choice costs. -/
theorem optStep_cost (ref : List Int) (k : Nat) (hk : 1 ≤ k) (i : Nat) (p : Int)
    (s : OptState) (hp : p ≠ -1) (hlen : s.frames.length = k)
    (hnd : NoDupResident s.frames) :
    ∃ o, optStep ref i p s = some o ∧ o.state.frames.length = k ∧
      NoDupResident o.state.frames ∧
      minFaults k (p :: ref.drop (i + 1)) (resident s.frames) =
        minFaults k (ref.drop (i + 1)) (resident o.state.frames) + (if o.hit then 0 else 1) := by
  unfold optStep
  rcases hfp : findSlot p s.frames with _ | j
  · have hnot : p ∉ s.frames := findSlot_none.mp hfp
    have hpS : p ∉ resident s.frames := fun h => hnot (mem_resident.mp h).2
    rcases he : findSlot (-1) s.frames with _ | e
    · have hfull : (-1 : Int) ∉ s.frames := findSlot_none.mp he
      obtain ⟨v, hv, hvlt⟩ := optVictim_lt ref i s.frames (by omega)
      have hget : s.frames[v]? = some (s.frames[v]) := List.getElem?_eq_getElem (by omega)
      simp only [hv, hget]
      refine ⟨_, rfl, by simp [hlen], noDupResident_set v hnot hnd, ?_⟩
      obtain ⟨q, hq, hmax⟩ :=
        optScan_farthest ref i s.frames s.frames 0 none (-1) rfl (Or.inl ⟨rfl, rfl, rfl⟩) v hv
      rw [hget] at hq
      cases hq
      simp only [Bool.false_eq_true, if_false]
      rw [resident_set hnd hget hp]
      have hqne : s.frames[v] ≠ -1 := fun e' => hfull (e' ▸ List.getElem_mem _)
      exact minFaults_farthest k p _ _ _ hpS (by rw [resident_card_full hfull hnd, hlen])
        (mem_resident.mpr ⟨hqne, List.getElem_mem _⟩)
        (fun x hx => hmax x (mem_resident.mp hx).2)
    · obtain ⟨hej, hege⟩ := findSlot_some he
      refine ⟨_, rfl, by simp [hlen], noDupResident_set e hnot hnd, ?_⟩
      simp only [Bool.false_eq_true, if_false]
      rw [resident_set hnd hege hp,
        Finset.erase_eq_of_not_mem (fun h => (mem_resident.mp h).1 rfl)]
      exact minFaults_fill _ _ _ _ hpS (hlen ▸ resident_card_lt (findSlot_some_mem he))
  · refine ⟨_, rfl, hlen, hnd, ?_⟩
    simp only [if_true, Nat.add_zero]
    exact minFaults_hit _ _ _ _ (mem_resident.mpr ⟨hp, findSlot_some_mem hfp⟩)

/-- The loop of `runOptimal` makes exactly `minFaults` faults on the rest of the trace. -/
theorem optLoop_cost (ref : List Int) (k : Nat) (hk : 1 ≤ k) :
    ∀ (pages : List Int) (i : Nat) (s : OptState) (hits faults : Nat), ref.drop i = pages →
      (∀ p ∈ pages, p ≠ -1) → s.frames.length = k → NoDupResident s.frames →
      ∃ out, simLoop OptState.frames (optStep ref) pages i s hits faults = some out ∧
        out.faults = faults + minFaults k pages (resident s.frames) := by
  intro pages
  induction pages with
  | nil =>
    intro i s hits faults _ _ _ _
    exact ⟨_, rfl, by simp [minFaults]⟩
  | cons p ps ih =>
    intro i s hits faults hdrop hp hlen hnd
    have hdrop' : ref.drop (i + 1) = ps := by
      have := congrArg List.tail hdrop
      simpa using this
    obtain ⟨o, ho, hlen', hnd', hcost⟩ :=
      optStep_cost ref k hk i p s (hp p (List.mem_cons_self _ _)) hlen hnd
    rw [hdrop'] at hcost
    obtain ⟨out, hout, hfaults⟩ := ih (i + 1) o.state (if o.hit then hits + 1 else hits)
      (if o.hit then faults else faults + 1) hdrop'
      (fun q hq => hp q (List.mem_cons_of_mem _ hq)) hlen' hnd'
    refine ⟨⟨out.state, out.hits, out.faults,
      ⟨i + 1, p, o.state.frames, o.hit, o.replaced⟩ :: out.rows⟩,
      by simp only [simLoop, ho, hout], ?_⟩
    simp only [hfaults, hcost]
    cases o.hit
    · simp; omega
    · simp

theorem RunOK.minFaults_le {framesCount : Nat} {ref : List Int} {r : Option Run}
    (h : RunOK framesCount ref r) (hp : ∀ p ∈ ref, p ≠ -1) :
    ∃ run, r = some run ∧
      minFaults framesCount ref (resident (emptyFrames framesCount)) ≤ run.result.faults := by
  obtain ⟨run, hr, hrows, _, hf⟩ := h
  refine ⟨run, hr, ?_⟩
  rw [hf]
  exact minFaults_le_faultRows framesCount ref run.rows _ 0 hrows hp (by simp [emptyFrames])
    (noDupResident_empty framesCount)

theorem runOptimal_faults (ref : List Int) (framesCount : Nat) (hfc : 1 ≤ framesCount)
    (hp : ∀ p ∈ ref, p ≠ -1) :
    ∃ run, runOptimal ref framesCount = some run ∧
      run.result.faults = minFaults framesCount ref (resident (emptyFrames framesCount)) := by
  obtain ⟨out, hout, hf⟩ := optLoop_cost ref framesCount hfc ref 0 (optInit framesCount) 0 0
    rfl hp (by simp [optInit]) (noDupResident_empty framesCount)
  refine ⟨summarize "Optimal" ref.length out, by simp [runOptimal, optLoop, hout], ?_⟩
  show out.faults = _
  rw [hf]
  simp [optInit, emptyFrames]

/-- A row shows a replaced page exactly when its step is a fault that found every slot
occupied. -/
theorem RunOK.replaced_iff {framesCount : Nat} {ref : List Int} {r : Option Run} {run : Run}
    (h : RunOK framesCount ref r) (hr : r = some run) (i : Nat) (row : StepRow)
    (hrow : run.rows[i]? = some row) :
    row.replaced ≠ -1 ↔
      (row.hit = false ∧ (-1 : Int) ∉ framesBefore (emptyFrames framesCount) run.rows i) := by
  obtain ⟨run', hr', hrows, _, _⟩ := h
  have : run' = run := Option.some.inj (hr'.symm.trans hr)
  subst this
  have hi : i < ref.length := by
    rw [← RowsOK_length _ _ _ _ hrows]
    by_contra hge
    rw [List.getElem?_eq_none (by omega)] at hrow
    cases hrow
  obtain ⟨_, _, hok⟩ := RowsOK_get ref run'.rows _ 0 hrows i (ref[i]) row
    (List.getElem?_eq_getElem hi) hrow
  rcases hok with ⟨hhit, _, _, hrep⟩ | ⟨hhit, _, j, _, _, hget, hrep⟩
  · simp [hhit, hrep]
  · constructor
    · intro hne
      exact ⟨hhit, fun hm => hne (hrep hm)⟩
    · rintro ⟨_, hfull⟩ e
      exact hfull (e ▸ List.getElem?_mem hget)

theorem findSlot_first {x : Int} {l : List Int} {j : Nat} (h : findSlot x l = some j) :
    ∀ j', j' < j → l[j']? ≠ some x := by
  induction l generalizing j with
  | nil => simp [findSlot] at h
  | cons y ys ih =>
    by_cases hy : y = x
    · simp [findSlot, hy] at h
      subst h
      intro j' hj'
      omega
    · simp [findSlot, hy] at h
      obtain ⟨a, ha, rfl⟩ := h
      intro j' hj'
      cases j' with
      | zero => simpa using hy
      | succ m =>
        simp only [List.getElem?_cons_succ]
        exact ih ha m (by omega)

theorem take_succ_of_getElem? {ref : List Int} {i : Nat} {page : Int}
    (h : ref[i]? = some page) : ref.take (i + 1) = ref.take i ++ [page] := by
  rw [List.take_succ, h]
  rfl

/-- The loop over the first `i + 1` elements of the trace is the loop over the
first `i` elements followed by one run of the body. -/
theorem simLoop_take_succ {σ : Type} (framesOf : σ → List Int)
    (body : Nat → Int → σ → Option (Outcome σ)) (ref : List Int) (s₀ : σ) (i : Nat)
    (page : Int) (hi : ref[i]? = some page) :
    simLoop framesOf body (ref.take (i + 1)) 0 s₀ 0 0 =
      match simLoop framesOf body (ref.take i) 0 s₀ 0 0 with
      | none => none
      | some pre =>
        match body i page pre.state with
        | none => none
        | some o =>
          some ⟨o.state, if o.hit then pre.hits + 1 else pre.hits,
            if o.hit then pre.faults else pre.faults + 1,
            pre.rows ++ [⟨i + 1, page, framesOf o.state, o.hit, o.replaced⟩]⟩ := by
  have hlt : i < ref.length := by
    by_contra hge
    rw [List.getElem?_eq_none (by omega)] at hi
    cases hi
  have hlen : 0 + (ref.take i).length = i := by
    rw [List.length_take]; omega
  rw [take_succ_of_getElem? hi, simLoop_append]
  cases simLoop framesOf body (ref.take i) 0 s₀ 0 0 with
  | none => rfl
  | some pre =>
    simp only [hlen, simLoop]
    cases body i page pre.state with
    | none => rfl
    | some o => rfl

/-- Invariant rule along the trace: a property of the state that holds
initially and is kept by the body run on `ref[i]` at index `i` holds in the
state reached after the first `n` elements. -/
theorem simLoop_inv_ref {σ : Type} (framesOf : σ → List Int)
    (body : Nat → Int → σ → Option (Outcome σ)) (ref : List Int) (s₀ : σ)
    (Inv : Nat → σ → Prop) (h₀ : Inv 0 s₀)
    (hstep : ∀ (i : Nat) (page : Int) (s : σ) (o : Outcome σ), ref[i]? = some page →
      Inv i s → body i page s = some o → Inv (i + 1) o.state) :
    ∀ (n : Nat) (out : LoopOut σ), n ≤ ref.length →
      simLoop framesOf body (ref.take n) 0 s₀ 0 0 = some out → Inv n out.state := by
  intro n
  induction n with
  | zero =>
    intro out _ h
    simp only [List.take_zero, simLoop, Option.some.injEq] at h
    subst h
    exact h₀
  | succ n ih =>
    intro out hn h
    have hi : ref[n]? = some (ref[n]) := List.getElem?_eq_getElem (by omega)
    rw [simLoop_take_succ framesOf body ref s₀ n _ hi] at h
    cases hpre : simLoop framesOf body (ref.take n) 0 s₀ 0 0 with
    | none => rw [hpre] at h; cases h
    | some pre =>
      rw [hpre] at h
      simp only at h
      cases hb : body n (ref[n]) pre.state with
      | none => rw [hb] at h; cases h
      | some o =>
        rw [hb] at h
        simp only [Option.some.injEq] at h
        subst h
        exact hstep n _ pre.state o hi (ih pre (by omega) hpre) hb

theorem nextUse_eq_none {ref : List Int} {i : Nat} {q : Int} :
    nextUse ref i q = none ↔ q ∉ ref.drop (i + 1) := by
  unfold nextUse
  rw [Option.map_eq_none', findSlot_none]

theorem nextUse_eq_some {ref : List Int} {i : Nat} {q : Int} {k : Nat}
    (h : nextUse ref i q = some k) : IsNextUse ref i q k := by
  unfold nextUse at h
  rw [Option.map_eq_some'] at h
  obtain ⟨d, hd, rfl⟩ := h
  obtain ⟨_, hget⟩ := findSlot_some hd
  refine ⟨by omega, ?_, ?_⟩
  · rw [List.getElem?_drop] at hget
    rw [← hget]
    congr 1
    omega
  · intro k' h1 h2 e
    have := findSlot_first hd (k' - (i + 1)) (by omega)
    apply this
    rw [List.getElem?_drop, ← e]
    congr 1
    omega

theorem isNextUse_unique {ref : List Int} {i : Nat} {q : Int} {k₁ k₂ : Nat}
    (h₁ : IsNextUse ref i q k₁) (h₂ : IsNextUse ref i q k₂) : k₁ = k₂ := by
  obtain ⟨a1, b1, c1⟩ := h₁
  obtain ⟨a2, b2, c2⟩ := h₂
  by_contra hne
  rcases Nat.lt_or_gt_of_ne hne with h | h
  · exact c2 k₁ a1 h b1
  · exact c1 k₂ a2 h b2

/-- What the scan of `runOptimal` returns: either a slot whose page is not
used again, no slot before it holding such a page, or, every page being used
again, a slot whose page has the greatest next use. -/
theorem optScan_spec (ref : List Int) (i : Nat) (F : List Int) :
    ∀ (l : List Int) (j : Nat) (idx : Option Nat) (far : Int), F.drop j = l →
      (∀ (k : Nat) (q : Int), k < j → F[k]? = some q → nextUse ref i q ≠ none) →
      ((idx = none ∧ far = -1 ∧ j = 0) ∨
        ∃ v old kv, idx = some v ∧ F[v]? = some old ∧ nextUse ref i old = some kv ∧
          far = (kv : Int) ∧
          ∀ (k : Nat) (q : Int), k < j → F[k]? = some q →
            ∃ kq, nextUse ref i q = some kq ∧ kq ≤ kv) →
      ∀ v, optScan ref i l j idx far = some v →
        ∃ old, F[v]? = some old ∧
          ((nextUse ref i old = none ∧
              ∀ (k : Nat) (q : Int), k < v → F[k]? = some q → nextUse ref i q ≠ none) ∨
            ∃ kv, nextUse ref i old = some kv ∧
              ∀ (k : Nat) (q : Int), F[k]? = some q →
                ∃ kq, nextUse ref i q = some kq ∧ kq ≤ kv) := by
  intro l
  induction l with
  | nil =>
    intro j idx far hdrop _ hinv v hv
    simp only [optScan] at hv
    rcases hinv with ⟨hnone, _, _⟩ | ⟨v', old, kv, hidx, hold, hkv, _, hmax⟩
    · rw [hnone] at hv; cases hv
    · rw [hidx] at hv
      cases hv
      refine ⟨old, hold, Or.inr ⟨kv, hkv, fun k q hq => ?_⟩⟩
      have hlen : F.length ≤ j := List.drop_eq_nil_iff.mp hdrop
      have hkj : k < j := by
        by_contra hge
        rw [List.getElem?_eq_none (by omega)] at hq
        cases hq
      exact hmax k q hkj hq
  | cons y ys ih =>
    intro j idx far hdrop hused hinv v hv
    have hj : F[j]? = some y := by
      have := congrArg (fun l => l[0]?) hdrop
      simpa using this
    have hdrop' : F.drop (j + 1) = ys := by
      have := congrArg List.tail hdrop
      simpa using this
    simp only [optScan] at hv
    rcases hn : nextUse ref i y with _ | ky
    · rw [hn] at hv
      simp only [Option.some.injEq] at hv
      subst hv
      exact ⟨y, hj, Or.inl ⟨hn, hused⟩⟩
    · rw [hn] at hv
      simp only at hv
      have hused' : ∀ (k : Nat) (q : Int), k < j + 1 → F[k]? = some q →
          nextUse ref i q ≠ none := by
        intro k q hk hq
        by_cases e : k = j
        · subst e
          rw [hj] at hq
          cases hq
          rw [hn]
          simp
        · exact hused k q (by omega) hq
      split at hv
      · rename_i hgt
        apply ih (j + 1) (some j) _ hdrop' hused' _ v hv
        right
        refine ⟨j, y, ky, rfl, hj, hn, rfl, ?_⟩
        intro k q hk hq
        by_cases e : k = j
        · subst e
          rw [hj] at hq
          cases hq
          exact ⟨ky, hn, le_refl _⟩
        · rcases hinv with ⟨_, _, hj0⟩ | ⟨_, _, kv, _, _, _, hfar, hmax⟩
          · omega
          · obtain ⟨kq, h1, h2⟩ := hmax k q (by omega) hq
            refine ⟨kq, h1, ?_⟩
            rw [hfar] at hgt
            omega
      · rename_i hle
        apply ih (j + 1) idx far hdrop' hused' _ v hv
        rcases hinv with ⟨_, hfar, _⟩ | ⟨v', old, kv, hidx, hold, hkv, hfar, hmax⟩
        · rw [hfar] at hle
          omega
        · right
          refine ⟨v', old, kv, hidx, hold, hkv, hfar, ?_⟩
          intro k q hk hq
          by_cases e : k = j
          · subst e
            rw [hj] at hq
            cases hq
            refine ⟨ky, hn, ?_⟩
            rw [hfar] at hle
            omega
          · exact hmax k q (by omega) hq

theorem optLoop_wellFormed (ref : List Int) (framesCount : Nat) (hfc : 1 ≤ framesCount)
    (n : Nat) (hn : n ≤ ref.length) :
    ∃ out, optLoop ref framesCount (ref.take n) = some out ∧
      out.state.frames.length = framesCount ∧ NoDupResident out.state.frames := by
  obtain ⟨out, hout, _⟩ := optLoop_spec ref framesCount hfc (ref.take n)
  refine ⟨out, hout, ?_⟩
  exact simLoop_inv_ref OptState.frames (optStep ref) ref (optInit framesCount)
    (fun _ s => s.frames.length = framesCount ∧ NoDupResident s.frames)
    ⟨by simp [optInit], noDupResident_empty framesCount⟩
    (fun i page s o _ hI ho => by
      obtain ⟨o', ho', _, hok⟩ := optStep_spec ref framesCount hfc i page s hI.1
      have : o' = o := Option.some.inj (ho'.symm.trans ho)
      subst this
      exact stepOK_wellFormed hok hI.1 hI.2)
    n out hn hout

theorem lfuScan_min (Z : List (Int × Int)) :
    ∀ (l : List (Int × Int)) (j idx : Nat) (bf bt : Int), Z.drop j = l →
      Z[idx]? = some (bf, bt) →
      (∀ (k : Nat) (f t : Int), k < j → Z[k]? = some (f, t) → LfuLe bf bt f t) →
      ∃ f t, Z[lfuScan l j idx bf bt]? = some (f, t) ∧
        ∀ (k : Nat) (f' t' : Int), Z[k]? = some (f', t') → LfuLe f t f' t' := by
  intro l
  induction l with
  | nil =>
    intro j idx bf bt hdrop hidx hmin
    refine ⟨bf, bt, hidx, fun k f' t' hk => hmin k f' t' ?_ hk⟩
    have hlen : Z.length ≤ j := List.drop_eq_nil_iff.mp hdrop
    by_contra hge
    rw [List.getElem?_eq_none (by omega)] at hk
    cases hk
  | cons y ys ih =>
    intro j idx bf bt hdrop hidx hmin
    obtain ⟨f, t⟩ := y
    have hj : Z[j]? = some (f, t) := by
      have := congrArg (fun l => l[0]?) hdrop
      simpa using this
    have hdrop' : Z.drop (j + 1) = ys := by
      have := congrArg List.tail hdrop
      simpa using this
    have hnew : (f < bf ∨ (f = bf ∧ t < bt)) →
        ∀ (k : Nat) (f' t' : Int), k < j + 1 → Z[k]? = some (f', t') → LfuLe f t f' t' := by
      intro hlt k f' t' hk hx
      by_cases e : k = j
      · subst e
        rw [hj] at hx
        cases hx
        exact Or.inr ⟨rfl, le_refl _⟩
      · have := hmin k f' t' (by omega) hx
        unfold LfuLe at this ⊢
        omega
    have hold : ¬ (f < bf ∨ (f = bf ∧ t < bt)) →
        ∀ (k : Nat) (f' t' : Int), k < j + 1 → Z[k]? = some (f', t') → LfuLe bf bt f' t' := by
      intro hge k f' t' hk hx
      by_cases e : k = j
      · subst e
        rw [hj] at hx
        cases hx
        unfold LfuLe
        omega
      · exact hmin k f' t' (by omega) hx
    simp only [lfuScan]
    split
    · rename_i h1
      exact ih (j + 1) j f t hdrop' hj (hnew (Or.inl h1))
    · rename_i h1
      split
      · rename_i h2
        split
        · rename_i h3
          exact ih (j + 1) j f t hdrop' hj (hnew (Or.inr ⟨h2, h3⟩))
        · rename_i h3
          exact ih (j + 1) idx bf bt hdrop' hidx (hold (by omega))
      · rename_i h2
        exact ih (j + 1) idx bf bt hdrop' hidx (hold (by omega))

/-- The slot chosen by the LFU scan has the least frequency and, among the
slots of that frequency, the least load step. -/
theorem lfuVictim_min (freq loadTime : List Int) (h : 0 < freq.length)
    (hl : loadTime.length = freq.length) :
    ∃ f t, freq[lfuVictim freq loadTime]? = some f ∧
      loadTime[lfuVictim freq loadTime]? = some t ∧
      ∀ (k : Nat) (f' t' : Int), freq[k]? = some f' → loadTime[k]? = some t' →
        LfuLe f t f' t' := by
  have hz : ∀ (k : Nat) (f' t' : Int), (freq.zip loadTime)[k]? = some (f', t') ↔
      (freq[k]? = some f' ∧ loadTime[k]? = some t') := by
    intro k f' t'
    rw [List.getElem?_zip_eq_some]
  unfold lfuVictim
  rcases hzip : freq.zip loadTime with _ | ⟨⟨f0, t0⟩, rest⟩
  · have : (freq.zip loadTime).length = freq.length := by simp [hl]
    rw [hzip] at this
    simp at this
    omega
  · simp only
    obtain ⟨f, t, hget, hmin⟩ := lfuScan_min (freq.zip loadTime) rest 1 0 f0 t0
      (by rw [hzip]; rfl) (by rw [hzip]; simp)
      (fun k f' t' hk hx => by
        have : k = 0 := by omega
        subst this
        rw [hzip] at hx
        simp at hx
        obtain ⟨rfl, rfl⟩ := hx
        exact Or.inr ⟨rfl, le_refl _⟩)
    exact ⟨f, t, ((hz _ f t).mp hget).1, ((hz _ f t).mp hget).2,
      fun k f' t' h1 h2 => hmin k f' t' ((hz k f' t').mpr ⟨h1, h2⟩)⟩

theorem mod_wrap {fc x : Nat} (h : x < 2 * fc) :
    x % fc = if x < fc then x else x - fc := by
  split
  · rename_i hlt
    exact Nat.mod_eq_of_lt hlt
  · rename_i hge
    rw [Nat.mod_eq_sub_mod (by omega), Nat.mod_eq_of_lt (by omega)]

/-- The sweep passes over `d` slots whose bit is set: it clears them and goes
on from the slot at circular distance `d` from the pointer. -/
theorem sweep_skip (framesCount : Nat) (page : Int) (frames : List Int) :
    ∀ (d : Nat) (refBit : List Int) (p inspected : Nat), d ≤ framesCount → p < framesCount →
      refBit.length = framesCount →
      (∀ e, e < d → ∃ b, refBit[(p + e) % framesCount]? = some b ∧ b ≠ 0) →
      ∃ rb, rb.length = framesCount ∧
        (∀ j, j < framesCount → (∃ e, e < d ∧ j = (p + e) % framesCount) → rb[j]? = some 0) ∧
        (∀ j, j < framesCount → (¬ ∃ e, e < d ∧ j = (p + e) % framesCount) →
          rb[j]? = refBit[j]?) ∧
        sweep framesCount page frames refBit p inspected =
          sweep framesCount page frames rb ((p + d) % framesCount) (inspected + d) := by
  intro d
  induction d with
  | zero =>
    intro refBit p inspected _ hp hlen _
    refine ⟨refBit, hlen, ?_, fun _ _ _ => rfl, ?_⟩
    · rintro j _ ⟨e, he, _⟩
      omega
    · simp [Nat.mod_eq_of_lt hp]
  | succ d ih =>
    intro refBit p inspected hd hp hlen hset
    have hfc : framesCount ≠ 0 := by omega
    obtain ⟨b, hb, hb0⟩ := hset 0 (by omega)
    simp only [Nat.add_zero, Nat.mod_eq_of_lt hp] at hb
    have hp' : (p + 1) % framesCount < framesCount := Nat.mod_lt _ (by omega)
    obtain ⟨rb, hrbl, hrb0, hrbk, hsw⟩ := ih (refBit.set p 0) ((p + 1) % framesCount)
      (inspected + 1) (by omega) hp' (by simp [hlen]) (by
        intro e he
        obtain ⟨b', hb', hb'0⟩ := hset (e + 1) (by omega)
        have hidx : ((p + 1) % framesCount + e) % framesCount = (p + (e + 1)) % framesCount := by
          rw [Nat.mod_add_mod]
          congr 1
          omega
        refine ⟨b', ?_, hb'0⟩
        rw [hidx, List.getElem?_set_ne, hb']
        rw [mod_wrap (by omega : p + (e + 1) < 2 * framesCount)]
        split <;> omega)
    refine ⟨rb, hrbl, ?_, ?_, ?_⟩
    · rintro j hj ⟨e, he, hje⟩
      by_cases hjp : j = p
      · by_cases hin : ∃ e', e' < d ∧ j = ((p + 1) % framesCount + e') % framesCount
        · exact hrb0 j hj hin
        · rw [hrbk j hj hin, hjp, List.getElem?_set_self (by omega)]
      · apply hrb0 j hj
        cases e with
        | zero =>
          simp only [Nat.add_zero, Nat.mod_eq_of_lt hp] at hje
          exact absurd hje hjp
        | succ e' =>
          refine ⟨e', by omega, ?_⟩
          rw [Nat.mod_add_mod, hje]
          congr 1
          omega
    · intro j hj hnin
      have hjp : j ≠ p := by
        intro e
        apply hnin
        exact ⟨0, by omega, by simp [e, Nat.mod_eq_of_lt hp]⟩
      have hnin' : ¬ ∃ e', e' < d ∧ j = ((p + 1) % framesCount + e') % framesCount := by
        rintro ⟨e', he', hje'⟩
        apply hnin
        refine ⟨e' + 1, by omega, ?_⟩
        rw [hje', Nat.mod_add_mod]
        congr 1
        omega
      rw [hrbk j hj hnin', List.getElem?_set_ne (fun e => hjp e.symm)]
    · rw [sweep_eq]
      simp only [hb, hb0, hfc, if_false]
      rw [hsw]
      have h1 : ((p + 1) % framesCount + d) % framesCount = (p + (d + 1)) % framesCount := by
        rw [Nat.mod_add_mod]
        congr 1
        omega
      have h2 : inspected + 1 + d = inspected + (d + 1) := by omega
      rw [h1, h2]

/-- The outcome of the sweep: with `d` the circular distance from the pointer
to the first slot whose bit is 0 (`d = framesCount` when every bit is set),
the victim is the slot at distance `d`. -/
theorem sweep_victim (framesCount : Nat) (page : Int) (frames refBit : List Int)
    (p d : Nat) (hfc : 1 ≤ framesCount) (hlen : frames.length = framesCount)
    (hrb : refBit.length = framesCount) (hp : p < framesCount) (hd : d ≤ framesCount)
    (hset : ∀ e, e < d → ∃ b, refBit[(p + e) % framesCount]? = some b ∧ b ≠ 0)
    (hzero : d < framesCount → refBit[(p + d) % framesCount]? = some 0) :
    ∃ r, sweep framesCount page frames refBit p 0 = some r ∧ r.inspected = d + 1 ∧
      frames[(p + d) % framesCount]? = some r.replaced ∧
      r.state.frames = frames.set ((p + d) % framesCount) page ∧
      r.state.pointer = ((p + d) % framesCount + 1) % framesCount ∧
      r.state.refBit[(p + d) % framesCount]? = some 1 ∧
      (∀ j, j < framesCount → j ≠ (p + d) % framesCount →
        (∃ e, e < d ∧ j = (p + e) % framesCount) → r.state.refBit[j]? = some 0) ∧
      (∀ j, j < framesCount → j ≠ (p + d) % framesCount →
        (¬ ∃ e, e < d ∧ j = (p + e) % framesCount) → r.state.refBit[j]? = refBit[j]?) := by
  have hfc0 : framesCount ≠ 0 := by omega
  obtain ⟨rb, hrbl, hrb0, hrbk, hsw⟩ :=
    sweep_skip framesCount page frames d refBit p 0 hd hp hrb hset
  have hv : (p + d) % framesCount < framesCount := Nat.mod_lt _ (by omega)
  have hbit : rb[(p + d) % framesCount]? = some 0 := by
    by_cases hin : ∃ e, e < d ∧ (p + d) % framesCount = (p + e) % framesCount
    · exact hrb0 _ hv hin
    · rw [hrbk _ hv hin]
      apply hzero
      by_contra hge
      have hdfc : d = framesCount := by omega
      apply hin
      refine ⟨0, by omega, ?_⟩
      rw [hdfc]
      simp
  have hf : frames[(p + d) % framesCount]? = some (frames[(p + d) % framesCount]) :=
    List.getElem?_eq_getElem (by omega)
  rw [hsw, sweep_eq]
  simp only [hbit, hf, hfc0, if_true, if_false, Nat.zero_add]
  refine ⟨_, rfl, rfl, rfl, rfl, rfl, ?_, ?_, ?_⟩
  · simp only
    rw [List.getElem?_set_self (by omega)]
  · intro j hj hjv hin
    simp only
    rw [List.getElem?_set_ne (fun e => hjv e.symm)]
    exact hrb0 j hj hin
  · intro j hj hjv hnin
    simp only
    rw [List.getElem?_set_ne (fun e => hjv e.symm)]
    exact hrbk j hj hnin

theorem sweep_distance (framesCount : Nat) (refBit : List Int) (p : Nat)
    (hfc : 1 ≤ framesCount) (hrb : refBit.length = framesCount) :
    ∃ d, d ≤ framesCount ∧
      (∀ e, e < d → ∃ b, refBit[(p + e) % framesCount]? = some b ∧ b ≠ 0) ∧
      (d < framesCount → refBit[(p + d) % framesCount]? = some 0) := by
  have hin : ∀ e, refBit[(p + e) % framesCount]? = some (refBit.getD ((p + e) % framesCount) 0) := by
    intro e
    have : (p + e) % framesCount < refBit.length := hrb ▸ Nat.mod_lt _ (by omega)
    rw [List.getElem?_eq_getElem this, List.getD_eq_getElem _ _ this]
  by_cases h : ∃ d, d < framesCount ∧ refBit[(p + d) % framesCount]? = some 0
  · refine ⟨Nat.find h, le_of_lt (Nat.find_spec h).1, ?_, fun _ => (Nat.find_spec h).2⟩
    intro e he
    refine ⟨_, hin e, ?_⟩
    intro hz
    have hmin := Nat.find_min h he
    apply hmin
    refine ⟨lt_trans he (Nat.find_spec h).1, ?_⟩
    rw [hin e, hz]
  · refine ⟨framesCount, le_refl _, ?_, fun hlt => absurd hlt (by omega)⟩
    intro e he
    refine ⟨_, hin e, ?_⟩
    intro hz
    apply h
    exact ⟨e, he, by rw [hin e, hz]⟩

theorem lastAccess_isLastAccess {ref : List Int} {n : Nat} {p : Int} {k : Nat}
    (h : lastAccess ref n p = some k) : IsLastAccess ref n p k := by
  induction n with
  | zero => simp [lastAccess] at h
  | succ n ih =>
    simp only [lastAccess] at h
    split at h
    · rename_i hn
      cases h
      exact ⟨by omega, hn, fun k' h1 h2 => by omega⟩
    · rename_i hn
      obtain ⟨h1, h2, h3⟩ := ih h
      refine ⟨by omega, h2, fun k' hk1 hk2 => ?_⟩
      by_cases e : k' = n
      · subst e; exact hn
      · exact h3 k' hk1 (by omega)

theorem isLastAccess_unique {ref : List Int} {n : Nat} {p : Int} {k₁ k₂ : Nat}
    (h₁ : IsLastAccess ref n p k₁) (h₂ : IsLastAccess ref n p k₂) : k₁ = k₂ := by
  obtain ⟨a1, b1, c1⟩ := h₁
  obtain ⟨a2, b2, c2⟩ := h₂
  by_contra hne
  rcases Nat.lt_or_gt_of_ne hne with h | h
  · exact c1 k₂ h a2 b2
  · exact c2 k₁ h a1 b1

theorem lruAccess_update {ref : List Int} {n : Nat} {frames lastUsed : List Int} {k : Nat}
    {page : Int} (hn : ref[n]? = some page) (hk : k < lastUsed.length)
    (hother : ∀ (j : Nat), j ≠ k → frames[j]? ≠ some page)
    (h : LRUAccess ref n ⟨frames, lastUsed⟩) :
    LRUAccess ref (n + 1) ⟨frames.set k page, lastUsed.set k (n : Int)⟩ := by
  intro j p hj hp
  simp only [List.getElem?_set] at hj ⊢
  by_cases e : k = j
  · subst e
    simp only [if_true] at hj ⊢
    split at hj
    · cases hj
      exact ⟨n, by simp [lastAccess, hn], by simp [hk]⟩
    · cases hj
  · simp only [e, if_false] at hj ⊢
    obtain ⟨k', h1, h2⟩ := h j p hj hp
    refine ⟨k', ?_, h2⟩
    have hne : ref[n]? ≠ some p := by
      rw [hn]
      intro e'
      cases e'
      exact hother j (fun e'' => e e''.symm) hj
    simp [lastAccess, hne, h1]

theorem lruStep_good (ref : List Int) (framesCount : Nat) (hfc : 1 ≤ framesCount) (n : Nat)
    (page : Int) (hpage : page ≠ -1) (hn : ref[n]? = some page) (s : LRUState)
    (o : Outcome LRUState) (hg : LRUGood ref framesCount n s) (ho : lruStep n page s = some o) :
    LRUGood ref framesCount (n + 1) o.state := by
  obtain ⟨hinv, hnd, hmarks, hacc⟩ := hg
  obtain ⟨o', ho', hinv', hok⟩ := lruStep_spec framesCount hfc n page s hinv
  have : o' = o := Option.some.inj (ho'.symm.trans ho)
  subst this
  refine ⟨hinv', (stepOK_wellFormed hok hinv.1 hnd).2, lruStep_marks n page s o' ho hmarks, ?_⟩
  obtain ⟨hlen, hlu⟩ := hinv
  unfold lruStep at ho
  rcases hp : findSlot page s.frames with _ | j
  · have hnot : page ∉ s.frames := findSlot_none.mp hp
    have hother : ∀ (k j : Nat), j ≠ k → s.frames[j]? ≠ some page :=
      fun _ j _ hj => hnot (List.getElem?_mem hj)
    rw [hp] at ho
    rcases he : findSlot (-1) s.frames with _ | e
    · rw [he] at ho
      simp only at ho
      rcases hv : lruVictim s.lastUsed with _ | v
      · rw [hv] at ho; cases ho
      · rw [hv] at ho
        simp only at ho
        rcases hg : s.frames[v]? with _ | old
        · rw [hg] at ho; cases ho
        · rw [hg] at ho
          simp only [Option.some.injEq] at ho
          subst ho
          have hvlt : v < s.frames.length := by
            by_contra hge
            rw [List.getElem?_eq_none (by omega)] at hg
            cases hg
          exact lruAccess_update hn (by omega) (hother v) hacc
    · rw [he] at ho
      simp only [Option.some.injEq] at ho
      subst ho
      exact lruAccess_update hn (by have := (findSlot_some he).1; omega) (hother e) hacc
  · rw [hp] at ho
    simp only [Option.some.injEq] at ho
    subst ho
    obtain ⟨hj, hjget⟩ := findSlot_some hp
    have := @lruAccess_update ref n s.frames s.lastUsed j page hn
      (by omega) (fun j' hne hj' => hne (hnd j' j page hj' hjget hpage)) hacc
    rwa [set_eq_self_of_getElem? hjget] at this

theorem lruLoop_good (ref : List Int) (framesCount : Nat) (hfc : 1 ≤ framesCount)
    (hpages : ∀ p ∈ ref, 0 ≤ p) (n : Nat) (hn : n ≤ ref.length) :
    ∃ out, lruLoop framesCount (ref.take n) = some out ∧
      LRUGood ref framesCount n out.state := by
  obtain ⟨out, hout, _⟩ := lruLoop_spec framesCount hfc (ref.take n)
  refine ⟨out, hout, ?_⟩
  refine simLoop_inv_ref LRUState.frames lruStep ref (lruInit framesCount)
    (fun i s => LRUGood ref framesCount i s) ?_ ?_ n out hn hout
  · have hrep : ∀ (j : Nat) (x : Int), (List.replicate framesCount (-1 : Int))[j]? = some x →
        x = -1 := by
      intro j x hx
      have := List.getElem?_mem hx
      simp at this
      exact this.2
    refine ⟨⟨by simp [lruInit], by simp [lruInit]⟩, noDupResident_empty framesCount, ⟨?_, ?_⟩, ?_⟩
    · intro j x hx
      have := hrep j x hx
      omega
    · intro j₁ j₂ x h₁ _ o₁ _
      exfalso
      apply o₁
      have hlt : j₁ < framesCount := by
        by_contra hge
        rw [List.getElem?_eq_none (by simp [lruInit]; omega)] at h₁
        cases h₁
      simp [lruInit, List.getElem?_replicate, hlt]
    · intro j p hj hp
      exact absurd (hrep j p hj) hp
  · intro i page s o hi hI ho
    have hmem : page ∈ ref := List.getElem?_mem hi
    have := hpages page hmem
    exact lruStep_good ref framesCount hfc i page (by omega) hi s o hI ho

/-- When all slots are occupied, the slot chosen by `runLRU` carries a marker
strictly less than the marker of every other slot. -/
theorem lruVictim_strict {n : Nat} {s : LRUState} {v : Nat}
    (hmarks : LRUMarks n s) (hfull : (-1 : Int) ∉ s.frames)
    (hv : lruVictim s.lastUsed = some v) :
    ∃ m, s.lastUsed[v]? = some m ∧
      ∀ (j : Nat) (x : Int), j ≠ v → s.lastUsed[j]? = some x → m < x := by
  obtain ⟨m, hm, hmin⟩ := lruVictim_min hv
  refine ⟨m, hm, fun j x hj hx => ?_⟩
  have hle := hmin j x hx
  have hne : m ≠ x := by
    intro e
    subst e
    have hocc : ∀ k : Nat, s.frames[k]? ≠ some (-1) :=
      fun k hk => hfull (List.getElem?_mem hk)
    exact hj (hmarks.2 j v m hx hm (hocc j) (hocc v))
  omega

theorem drop_succ_of_drop_cons {ref : List Int} {i : Nat} {p : Int} {ps : List Int}
    (h : ref.drop i = p :: ps) : ref[i]? = some p ∧ ref.drop (i + 1) = ps := by
  constructor
  · have := congrArg (fun l => l[0]?) h
    simpa using this
  · have := congrArg List.tail h
    simpa using this

/-- Two loops over the same trace whose bodies, run in related states, print
the same row and lead to related states print the same rows and count the
same hits and faults. -/
theorem simLoop_same_rows {σ₁ σ₂ : Type} (f₁ : σ₁ → List Int)
    (b₁ : Nat → Int → σ₁ → Option (Outcome σ₁)) (f₂ : σ₂ → List Int)
    (b₂ : Nat → Int → σ₂ → Option (Outcome σ₂)) (ref : List Int)
    (R : Nat → σ₁ → σ₂ → Prop)
    (hstep : ∀ (i : Nat) (page : Int) (s₁ : σ₁) (s₂ : σ₂), ref[i]? = some page → R i s₁ s₂ →
      ∃ o₁ o₂, b₁ i page s₁ = some o₁ ∧ b₂ i page s₂ = some o₂ ∧
        R (i + 1) o₁.state o₂.state ∧ f₁ o₁.state = f₂ o₂.state ∧ o₁.hit = o₂.hit ∧
        o₁.replaced = o₂.replaced) :
    ∀ (pages : List Int) (i : Nat) (s₁ : σ₁) (s₂ : σ₂) (hits faults : Nat),
      ref.drop i = pages → R i s₁ s₂ →
      ∃ out₁ out₂, simLoop f₁ b₁ pages i s₁ hits faults = some out₁ ∧
        simLoop f₂ b₂ pages i s₂ hits faults = some out₂ ∧ out₁.rows = out₂.rows ∧
        out₁.hits = out₂.hits ∧ out₁.faults = out₂.faults := by
  intro pages
  induction pages with
  | nil =>
    intro i s₁ s₂ hits faults _ _
    exact ⟨_, _, rfl, rfl, rfl, rfl, rfl⟩
  | cons p ps ih =>
    intro i s₁ s₂ hits faults hdrop hR
    obtain ⟨hi, hdrop'⟩ := drop_succ_of_drop_cons hdrop
    obtain ⟨o₁, o₂, h₁, h₂, hR', hf, hh, hr⟩ := hstep i p s₁ s₂ hi hR
    obtain ⟨out₁, out₂, hl₁, hl₂, hrows, hhits, hfaults⟩ :=
      ih (i + 1) o₁.state o₂.state (if o₁.hit then hits + 1 else hits)
        (if o₁.hit then faults else faults + 1) hdrop' hR'
    rw [hh] at hl₂
    refine ⟨⟨out₁.state, out₁.hits, out₁.faults,
        ⟨i + 1, p, f₁ o₁.state, o₁.hit, o₁.replaced⟩ :: out₁.rows⟩,
      ⟨out₂.state, out₂.hits, out₂.faults,
        ⟨i + 1, p, f₂ o₂.state, o₂.hit, o₂.replaced⟩ :: out₂.rows⟩, ?_, ?_, ?_, hhits, hfaults⟩
    · simp only [simLoop, h₁, hl₁]
    · simp only [simLoop, h₂, hl₂]
    · simp only [hf, hh, hr, hrows]

/-- Two loops over the same trace such that, in related states, a hit of the
first is a hit of the second: the second makes no more faults than the first. -/
theorem simLoop_faults_le {σ₁ σ₂ : Type} (f₁ : σ₁ → List Int)
    (b₁ : Nat → Int → σ₁ → Option (Outcome σ₁)) (f₂ : σ₂ → List Int)
    (b₂ : Nat → Int → σ₂ → Option (Outcome σ₂)) (ref : List Int)
    (R : Nat → σ₁ → σ₂ → Prop)
    (hstep : ∀ (i : Nat) (page : Int) (s₁ : σ₁) (s₂ : σ₂), ref[i]? = some page → R i s₁ s₂ →
      ∃ o₁ o₂, b₁ i page s₁ = some o₁ ∧ b₂ i page s₂ = some o₂ ∧
        R (i + 1) o₁.state o₂.state ∧ (o₁.hit = true → o₂.hit = true)) :
    ∀ (pages : List Int) (i : Nat) (s₁ : σ₁) (s₂ : σ₂) (hits₁ faults₁ hits₂ faults₂ : Nat),
      ref.drop i = pages → R i s₁ s₂ →
      ∃ out₁ out₂, simLoop f₁ b₁ pages i s₁ hits₁ faults₁ = some out₁ ∧
        simLoop f₂ b₂ pages i s₂ hits₂ faults₂ = some out₂ ∧
        out₂.faults + faults₁ ≤ out₁.faults + faults₂ := by
  intro pages
  induction pages with
  | nil =>
    intro i s₁ s₂ hits₁ faults₁ hits₂ faults₂ _ _
    exact ⟨_, _, rfl, rfl, by simp only; omega⟩
  | cons p ps ih =>
    intro i s₁ s₂ hits₁ faults₁ hits₂ faults₂ hdrop hR
    obtain ⟨hi, hdrop'⟩ := drop_succ_of_drop_cons hdrop
    obtain ⟨o₁, o₂, h₁, h₂, hR', hh⟩ := hstep i p s₁ s₂ hi hR
    obtain ⟨out₁, out₂, hl₁, hl₂, hle⟩ :=
      ih (i + 1) o₁.state o₂.state (if o₁.hit then hits₁ + 1 else hits₁)
        (if o₁.hit then faults₁ else faults₁ + 1) (if o₂.hit then hits₂ + 1 else hits₂)
        (if o₂.hit then faults₂ else faults₂ + 1) hdrop' hR'
    refine ⟨⟨out₁.state, out₁.hits, out₁.faults,
        ⟨i + 1, p, f₁ o₁.state, o₁.hit, o₁.replaced⟩ :: out₁.rows⟩,
      ⟨out₂.state, out₂.hits, out₂.faults,
        ⟨i + 1, p, f₂ o₂.state, o₂.hit, o₂.replaced⟩ :: out₂.rows⟩, ?_, ?_, ?_⟩
    · simp only [simLoop, h₁, hl₁]
    · simp only [simLoop, h₂, hl₂]
    · simp only
      cases h1 : o₁.hit
      · cases h2 : o₂.hit <;> simp only [h1, h2, Bool.false_eq_true, if_false, if_true] at hle <;>
          omega
      · have h2 := hh h1
        simp only [h1, h2, if_true] at hle
        omega

theorem not_mem_take_of_nodup {ref : List Int} (hnd : ref.Nodup) {n : Nat} {page : Int}
    (hn : ref[n]? = some page) : page ∉ ref.take n := by
  intro hmem
  obtain ⟨k, hk⟩ := List.mem_iff_getElem?.mp hmem
  have hkn : k < n := by
    by_contra hge
    rw [List.getElem?_eq_none (by rw [List.length_take]; omega)] at hk
    cases hk
  rw [List.getElem?_take_of_lt hkn] at hk
  have hlt : n < ref.length := by
    by_contra hge
    rw [List.getElem?_eq_none (by omega)] at hn
    cases hn
  rw [List.getElem?_eq_getElem hlt] at hn
  rw [List.getElem?_eq_getElem (by omega)] at hk
  have h1 : ref[k] = ref[n] := by
    rw [Option.some.inj hk, Option.some.inj hn]
  have := (List.Nodup.getElem_inj_iff hnd).mp h1
  omega

theorem fifoClock_step (ref : List Int) (framesCount : Nat) (hfc : 1 ≤ framesCount)
    (hnd : ref.Nodup) (n : Nat) (page : Int) (hpage : page ≠ -1) (hn : ref[n]? = some page)
    (sf : FIFOState) (sc : SCState) (hR : FifoClock ref framesCount n sf sc) :
    ∃ o₁ o₂, fifoStep framesCount page sf = some o₁ ∧ scStep framesCount page sc = some o₂ ∧
      FifoClock ref framesCount (n + 1) o₁.state o₂.state ∧
      o₁.state.frames = o₂.state.frames ∧ o₁.hit = o₂.hit ∧ o₁.replaced = o₂.replaced := by
  obtain ⟨ff, fp⟩ := sf
  obtain ⟨frames, refBit, pointer⟩ := sc
  obtain ⟨hfr, hptr, hlen, hrb, hp, hmem, hbits⟩ := hR
  simp only at hfr hptr hlen hrb hp hmem
  subst hfr hptr
  have hfc0 : framesCount ≠ 0 := by omega
  have hnot : page ∉ ff := by
    intro hm
    rcases hmem page hm with h | h
    · exact hpage h
    · exact not_mem_take_of_nodup hnd hn h
  have hmem' : ∀ (k : Nat), ∀ x ∈ ff.set k page, x = -1 ∨ x ∈ ref.take (n + 1) := by
    intro k x hx
    rw [take_succ_of_getElem? hn]
    rcases List.mem_or_eq_of_mem_set hx with h | h
    · rcases hmem x h with h' | h'
      · exact Or.inl h'
      · exact Or.inr (List.mem_append_left _ h')
    · exact Or.inr (by simp [h])
  unfold fifoStep scStep
  simp only [findSlot_none.mpr hnot]
  rcases he : findSlot (-1) ff with _ | e
  · -- all slots are occupied
    have hfull : (-1 : Int) ∉ ff := findSlot_none.mp he
    have hfull' : ∀ (k : Nat), (-1 : Int) ∉ ff.set k page := by
      intro k hx
      rcases List.mem_or_eq_of_mem_set hx with h | h
      · exact hfull h
      · exact hpage h.symm
    obtain ⟨old, hget⟩ : ∃ old, ff[fp]? = some old :=
      ⟨_, List.getElem?_eq_getElem (by omega)⟩
    simp only [hget, hfc0, if_false]
    have hrlen : ∀ r, sweep framesCount page ff refBit fp 0 = some r →
        r.state.refBit.length = framesCount := by
      intro r hr
      obtain ⟨r', hr', ⟨_, hl2, _⟩, _⟩ :=
        sweep_spec framesCount page ff _ refBit fp 0 rfl hlen hrb hp
      rw [hr] at hr'
      cases hr'
      exact hl2
    have hjlt : ∀ (k j : Nat) (q : Int), (ff.set k page)[j]? = some q → j < framesCount := by
      intro k j q hj
      by_contra hge
      rw [List.getElem?_eq_none (by simp [hlen]; omega)] at hj
      cases hj
    rcases hbits with ⟨hp0, hall⟩ | ⟨_, hphase⟩
    · -- every bit is set: the sweep comes back to the pointer
      simp only at hp0 hall
      subst hp0
      have hset : ∀ e, e < framesCount →
          ∃ b, refBit[(0 + e) % framesCount]? = some b ∧ b ≠ 0 := by
        intro e he'
        rw [Nat.zero_add, Nat.mod_eq_of_lt he']
        have hq : ff[e]? = some (ff[e]) := List.getElem?_eq_getElem (by omega)
        exact hall e _ hq (fun h => hfull (h ▸ List.getElem_mem _))
      obtain ⟨r, hr, _, hrep, hfrm, hpt, hbit, hcl, _⟩ :=
        sweep_victim framesCount page ff refBit 0 framesCount hfc hlen hrb
          hp (le_refl _) hset (fun h => absurd h (by omega))
      have hv : (0 + framesCount) % framesCount = 0 := by simp
      rw [hv] at hrep hfrm hpt hbit hcl
      rw [hget] at hrep
      rw [hr]
      refine ⟨⟨⟨ff.set 0 page, (0 + 1) % framesCount⟩, false, old⟩,
        ⟨r.state, false, r.replaced⟩, rfl, rfl,
        ⟨hfrm.symm, hpt.symm, by simp [hfrm, hlen], hrlen r hr,
          by rw [hpt]; exact Nat.mod_lt _ (by omega), by rw [hfrm]; exact hmem' 0, ?_⟩,
        hfrm.symm, rfl, Option.some.inj hrep⟩
      by_cases h1 : framesCount = 1
      · left
        refine ⟨by rw [hpt, h1], fun j q hj _ => ?_⟩
        rw [hfrm] at hj
        have hj0 : j = 0 := by
          have := hjlt 0 j q hj
          omega
        subst hj0
        exact ⟨1, hbit, by decide⟩
      · right
        have hpt1 : r.state.pointer = 1 := by
          rw [hpt]; exact Nat.mod_eq_of_lt (by omega)
        refine ⟨by rw [hfrm]; exact hfull' 0, fun j hj =>
          ⟨fun (hlt : j < r.state.pointer) => ?_, fun (hge : r.state.pointer ≤ j) => ?_⟩⟩
        · have hj0 : j = 0 := by omega
          subst hj0
          exact ⟨1, hbit, by decide⟩
        · exact hcl j hj (by omega) ⟨j, hj, by rw [Nat.zero_add, Nat.mod_eq_of_lt hj]⟩
    · -- the bit at the pointer is clear: the sweep stops at once
      simp only at hphase
      have hz : refBit[fp]? = some 0 := (hphase fp hp).2 (le_refl _)
      have hv : (fp + 0) % framesCount = fp := by
        rw [Nat.add_zero, Nat.mod_eq_of_lt hp]
      obtain ⟨r, hr, _, hrep, hfrm, hpt, hbit, _, hkeep⟩ :=
        sweep_victim framesCount page ff refBit fp 0 hfc hlen hrb
          hp (by omega) (fun e he' => absurd he' (by omega)) (fun _ => by rw [hv]; exact hz)
      rw [hv] at hrep hfrm hpt hbit hkeep
      rw [hget] at hrep
      rw [hr]
      have hkeep' : ∀ j, j < framesCount → j ≠ fp → r.state.refBit[j]? = refBit[j]? :=
        fun j hj hne => hkeep j hj hne (fun ⟨e, he', _⟩ => by omega)
      refine ⟨⟨⟨ff.set fp page, (fp + 1) % framesCount⟩, false, old⟩,
        ⟨r.state, false, r.replaced⟩, rfl, rfl,
        ⟨hfrm.symm, hpt.symm, by simp [hfrm, hlen], hrlen r hr,
          by rw [hpt]; exact Nat.mod_lt _ (by omega), by rw [hfrm]; exact hmem' _, ?_⟩,
        hfrm.symm, rfl, Option.some.inj hrep⟩
      by_cases hwrap : fp + 1 = framesCount
      · left
        have hpt0 : r.state.pointer = 0 := by
          rw [hpt, hwrap]; simp
        refine ⟨hpt0, fun j q hj _ => ?_⟩
        rw [hfrm] at hj
        have hjlt' := hjlt fp j q hj
        by_cases hjp : j = fp
        · subst hjp
          exact ⟨1, hbit, by decide⟩
        · rw [hkeep' j hjlt' hjp]
          exact (hphase j hjlt').1 (by omega)
      · right
        have hpt1 : r.state.pointer = fp + 1 := by
          rw [hpt]; exact Nat.mod_eq_of_lt (by omega)
        refine ⟨by rw [hfrm]; exact hfull' _, fun j hj =>
          ⟨fun (hlt : j < r.state.pointer) => ?_, fun (hge : r.state.pointer ≤ j) => ?_⟩⟩
        · by_cases hjp : j = fp
          · subst hjp
            exact ⟨1, hbit, by decide⟩
          · rw [hkeep' j hj hjp]
            exact (hphase j hj).1 (by omega)
        · rw [hkeep' j hj (by omega)]
          exact (hphase j hj).2 (by omega)
  · -- an empty slot is filled
    have hempty : (-1 : Int) ∈ ff := findSlot_some_mem he
    obtain ⟨helt, _⟩ := findSlot_some he
    refine ⟨⟨⟨ff.set e page, fp⟩, false, -1⟩, ⟨⟨ff.set e page, refBit.set e 1, fp⟩, false, -1⟩,
      rfl, rfl, ⟨rfl, rfl, by simp [hlen], by simp [hrb], hp, hmem' e, ?_⟩, rfl, rfl, rfl⟩
    rcases hbits with ⟨hp0, hall⟩ | ⟨hfull, _⟩
    · left
      refine ⟨hp0, fun j q hj hq => ?_⟩
      simp only [List.getElem?_set] at hj ⊢
      by_cases hje : e = j
      · simp only [hje, if_true]
        have : j < refBit.length := by omega
        simp [this]
      · simp only [hje, if_false] at hj ⊢
        exact hall j q hj hq
    · exact absurd hempty hfull

theorem resident_emptyFrames (framesCount : Nat) : resident (emptyFrames framesCount) = ∅ := by
  ext x
  simp only [mem_resident, emptyFrames, List.mem_replicate, Finset.not_mem_empty, iff_false]
  tauto

theorem RowsOK_no_eviction (k : Nat) :
    ∀ (pages : List Int) (rows : List StepRow) (start : List Int) (i₀ : Nat),
      RowsOK start i₀ pages rows → (∀ p ∈ pages, p ≠ -1) → start.length = k →
      NoDupResident start → (resident start ∪ pages.toFinset).card ≤ k →
      faultRows rows = (pages.toFinset \ resident start).card ∧
        (∀ r ∈ rows, r.replaced = -1) ∧
        (∀ (i : Nat) (page : Int) (row : StepRow), pages[i]? = some page →
          rows[i]? = some row →
          (row.hit = false ↔ (page ∉ resident start ∧ page ∉ pages.take i)))
  | [], [], _, _, _, _, _, _, _ => by simp [faultRows]
  | [], _ :: _, _, _, h, _, _, _, _ => by simp [RowsOK] at h
  | _ :: _, [], _, _, h, _, _, _, _ => by simp [RowsOK] at h
  | p :: ps, r :: rs, start, i₀, h, hp, hlen, hnd, hcard => by
    simp only [RowsOK] at h
    obtain ⟨_, _, hok, hrest⟩ := h
    have hpne : p ≠ -1 := hp p (List.mem_cons_self _ _)
    have hps : ∀ q ∈ ps, q ≠ -1 := fun q hq => hp q (List.mem_cons_of_mem _ hq)
    have hw := stepOK_wellFormed hok hlen hnd
    rw [List.toFinset_cons] at hcard ⊢
    rcases hok with ⟨hhit, hmem, hfr, hrep⟩ | ⟨hhit, hnot, j, hj, hfr, hget, hrep⟩
    · -- hit
      have hpS : p ∈ resident start := mem_resident.mpr ⟨hpne, hmem⟩
      have hcard' : (resident r.frames ∪ ps.toFinset).card ≤ k := by
        rw [hfr]
        refine le_trans (Finset.card_le_card ?_) hcard
        exact Finset.union_subset_union (le_refl _) (Finset.subset_insert _ _)
      obtain ⟨hf, hr, hrow⟩ := RowsOK_no_eviction k ps rs r.frames (i₀ + 1) hrest hps hw.1 hw.2 hcard'
      rw [hfr] at hf hrow
      refine ⟨?_, ?_, ?_⟩
      · rw [Finset.insert_sdiff_of_mem _ hpS, ← hf]
        simp [faultRows, List.filter_cons, hhit]
      · intro row hrow'
        rcases List.mem_cons.mp hrow' with rfl | hm
        · exact hrep
        · exact hr row hm
      · intro i page row hpg hrw
        cases i with
        | zero =>
          simp only [List.getElem?_cons_zero, Option.some.injEq] at hpg hrw
          subst hpg hrw
          simp [hhit, hpS]
        | succ i =>
          simp only [List.getElem?_cons_succ] at hpg hrw
          rw [hrow i page row hpg hrw]
          simp only [List.take_succ_cons, List.mem_cons, not_or]
          constructor
          · rintro ⟨h1, h2⟩
            exact ⟨h1, fun e => h1 (e ▸ hpS), h2⟩
          · rintro ⟨h1, _, h2⟩
            exact ⟨h1, h2⟩
    · -- fault
      have hpS : p ∉ resident start := fun hm => hnot (mem_resident.mp hm).2
      have hempty : (-1 : Int) ∈ start := by
        by_contra hfull
        have hc := resident_card_full hfull hnd
        have hsub : insert p (resident start) ⊆ resident start ∪ insert p ps.toFinset := by
          intro x hx
          rcases Finset.mem_insert.mp hx with rfl | hx
          · exact Finset.mem_union_right _ (Finset.mem_insert_self _ _)
          · exact Finset.mem_union_left _ hx
        have := Finset.card_le_card hsub
        rw [Finset.card_insert_of_not_mem hpS] at this
        omega
      have hrep' := hrep hempty
      have hres : resident r.frames = insert p (resident start) := by
        rw [hfr, resident_set hnd hget hpne, hrep',
          Finset.erase_eq_of_not_mem (fun hm => (mem_resident.mp hm).1 rfl)]
      have hcard' : (resident r.frames ∪ ps.toFinset).card ≤ k := by
        rw [hres, Finset.insert_union, ← Finset.union_insert]
        exact hcard
      obtain ⟨hf, hr, hrow⟩ := RowsOK_no_eviction k ps rs r.frames (i₀ + 1) hrest hps hw.1 hw.2 hcard'
      rw [hres] at hf hrow
      refine ⟨?_, ?_, ?_⟩
      · have hset : insert p ps.toFinset \ resident start =
            insert p (ps.toFinset \ insert p (resident start)) := by
          ext x
          simp only [Finset.mem_sdiff, Finset.mem_insert, not_or]
          constructor
          · rintro ⟨h1 | h1, h2⟩
            · exact Or.inl h1
            · by_cases e : x = p
              · exact Or.inl e
              · exact Or.inr ⟨h1, e, h2⟩
          · rintro (h1 | ⟨h1, _, h3⟩)
            · subst h1
              exact ⟨Or.inl rfl, hpS⟩
            · exact ⟨Or.inr h1, h3⟩
        rw [hset, Finset.card_insert_of_not_mem (by simp), ← hf]
        simp [faultRows, List.filter_cons, hhit]
      · intro row hrow'
        rcases List.mem_cons.mp hrow' with rfl | hm
        · exact hrep'
        · exact hr row hm
      · intro i page row hpg hrw
        cases i with
        | zero =>
          simp only [List.getElem?_cons_zero, Option.some.injEq] at hpg hrw
          subst hpg hrw
          simp [hhit, hpS]
        | succ i =>
          simp only [List.getElem?_cons_succ] at hpg hrw
          rw [hrow i page row hpg hrw]
          simp only [List.take_succ_cons, List.mem_cons, Finset.mem_insert, not_or]
          tauto

theorem RunOK.servedWithoutEviction {framesCount : Nat} {ref : List Int} {r : Option Run}
    (h : RunOK framesCount ref r) (hp : ∀ p ∈ ref, p ≠ -1)
    (hfew : ref.toFinset.card ≤ framesCount) : ServedWithoutEviction framesCount ref r := by
  obtain ⟨run, hr, hrows, hh, hf⟩ := h
  obtain ⟨hfaults, hrep, hrow⟩ := RowsOK_no_eviction framesCount ref run.rows _ 0 hrows hp
    (by simp [emptyFrames]) (noDupResident_empty framesCount)
    (by rw [resident_emptyFrames]; simpa using hfew)
  rw [resident_emptyFrames] at hfaults hrow
  refine ⟨run, hr, by rw [hf, hfaults]; simp, hrep, ?_, ?_⟩
  · intro i row hrw hhit
    by_contra hfull
    have := ((RunOK.replaced_iff ⟨run, hr, hrows, hh, hf⟩ hr i row hrw).mpr ⟨hhit, hfull⟩)
    exact this (hrep row (List.getElem?_mem hrw))
  · intro i page row hpg hrw
    rw [hrow i page row hpg hrw]
    simp

/-- One step of `runLRU` in terms of resident sets: a hit changes nothing; a
fault adds the page, in place of the resident page whose last access is the
earliest when all slots are occupied. -/
theorem lruStep_sets (ref : List Int) (k : Nat) (hk : 1 ≤ k) (n : Nat) (p : Int)
    (hp : p ≠ -1) (hn : ref[n]? = some p) (s : LRUState) (hg : LRUGood ref k n s) :
    ∃ o, lruStep n p s = some o ∧ LRUGood ref k (n + 1) o.state ∧
      ((-1 : Int) ∉ s.frames → (-1 : Int) ∉ o.state.frames) ∧
      (p ∈ resident s.frames → o.hit = true ∧ o.state.frames = s.frames) ∧
      (p ∉ resident s.frames → o.hit = false ∧
        (((-1 : Int) ∈ s.frames ∧ resident o.state.frames = insert p (resident s.frames)) ∨
          ((-1 : Int) ∉ s.frames ∧ ∃ old kold, old ∈ resident s.frames ∧
            resident o.state.frames = insert p ((resident s.frames).erase old) ∧
            lastAccess ref n old = some kold ∧
            ∀ y ∈ resident s.frames, y ≠ old →
              ∃ ky, lastAccess ref n y = some ky ∧ kold < ky))) := by
  obtain ⟨hinv, hnd, hmarks, hacc⟩ := hg
  obtain ⟨o, ho, _, hok⟩ := lruStep_spec k hk n p s hinv
  have hgood := lruStep_good ref k hk n p hp hn s o ⟨hinv, hnd, hmarks, hacc⟩ ho
  refine ⟨o, ho, hgood, ?_, ?_, ?_⟩
  · intro hfull hm
    rcases hok with ⟨_, _, hfr, _⟩ | ⟨_, _, j, _, hfr, _, _⟩
    · rw [hfr] at hm; exact hfull hm
    · rw [hfr] at hm
      rcases List.mem_or_eq_of_mem_set hm with h | h
      · exact hfull h
      · exact hp h.symm
  · intro hmem
    rcases hok with ⟨hhit, _, hfr, _⟩ | ⟨_, hnot, _⟩
    · exact ⟨hhit, hfr⟩
    · exact absurd (mem_resident.mp hmem).2 hnot
  · intro hnmem
    have hnot : p ∉ s.frames := fun h => hnmem (mem_resident.mpr ⟨hp, h⟩)
    rcases hok with ⟨_, hmem, _, _⟩ | ⟨hhit, _, j, hj, hfr, hget, hrep⟩
    · exact absurd hmem hnot
    · refine ⟨hhit, ?_⟩
      by_cases hempty : (-1 : Int) ∈ s.frames
      · left
        refine ⟨hempty, ?_⟩
        rw [hfr, resident_set hnd hget hp, hrep hempty,
          Finset.erase_eq_of_not_mem (fun hm => (mem_resident.mp hm).1 rfl)]
      · right
        refine ⟨hempty, ?_⟩
        obtain ⟨hlen, hlu⟩ := hinv
        obtain ⟨v, hv, hvlt⟩ := lruVictim_lt s.lastUsed (by omega)
        obtain ⟨m, hm, hstrict⟩ := lruVictim_strict hmarks hempty hv
        obtain ⟨old, hgetv⟩ : ∃ old, s.frames[v]? = some old :=
          ⟨_, List.getElem?_eq_getElem (by omega)⟩
        have ho' : o = ⟨⟨s.frames.set v p, s.lastUsed.set v n⟩, false, old⟩ := by
          have hb := ho
          unfold lruStep at hb
          rw [findSlot_none.mpr hnot, findSlot_none.mpr hempty] at hb
          simp only [hv, hgetv, Option.some.injEq] at hb
          exact hb.symm
        have hocc : ∀ (j : Nat) (q : Int), s.frames[j]? = some q → q ≠ -1 :=
          fun j q hq e => hempty (e ▸ List.getElem?_mem hq)
        obtain ⟨kold, hkold, hluv⟩ := hacc v old hgetv (hocc v old hgetv)
        rw [hm] at hluv
        cases hluv
        refine ⟨old, kold, mem_resident.mpr ⟨hocc v old hgetv, List.getElem?_mem hgetv⟩, ?_,
          hkold, ?_⟩
        · rw [ho']
          exact resident_set hnd hgetv hp
        · intro y hy hyold
          obtain ⟨jy, hjy⟩ := List.mem_iff_getElem?.mp (mem_resident.mp hy).2
          obtain ⟨ky, hky, hluy⟩ := hacc jy y hjy (mem_resident.mp hy).1
          have hjv : jy ≠ v := by
            intro e
            subst e
            rw [hgetv] at hjy
            exact hyold (Option.some.inj hjy).symm
          have := hstrict jy _ hjv hluy
          exact ⟨ky, hky, by omega⟩

theorem lruIncl_step (ref : List Int) (k : Nat) (hk : 1 ≤ k) (n : Nat) (p : Int)
    (hp : p ≠ -1) (hn : ref[n]? = some p) (s₁ s₂ : LRUState)
    (hR : LRUIncl ref k n s₁ s₂) :
    ∃ o₁ o₂, lruStep n p s₁ = some o₁ ∧ lruStep n p s₂ = some o₂ ∧
      LRUIncl ref k (n + 1) o₁.state o₂.state ∧ (o₁.hit = true → o₂.hit = true) := by
  obtain ⟨hg₁, hg₂, hsub, heq⟩ := hR
  obtain ⟨o₁, ho₁, hg₁', hfull₁, hhit₁, hfault₁⟩ := lruStep_sets ref k hk n p hp hn s₁ hg₁
  obtain ⟨o₂, ho₂, hg₂', hfull₂, hhit₂, hfault₂⟩ :=
    lruStep_sets ref (k + 1) (by omega) n p hp hn s₂ hg₂
  refine ⟨o₁, o₂, ho₁, ho₂, ?_, ?_⟩
  · refine ⟨hg₁', hg₂', ?_⟩
    by_cases h₁ : p ∈ resident s₁.frames
    · -- hit with `k` frames, hence with `k + 1` frames
      obtain ⟨_, hf₁⟩ := hhit₁ h₁
      obtain ⟨_, hf₂⟩ := hhit₂ (hsub h₁)
      rw [hf₁, hf₂]
      exact ⟨hsub, heq⟩
    · obtain ⟨_, hcase₁⟩ := hfault₁ h₁
      by_cases h₂ : p ∈ resident s₂.frames
      · -- fault with `k` frames, hit with `k + 1` frames
        obtain ⟨_, hf₂⟩ := hhit₂ h₂
        rw [hf₂]
        rcases hcase₁ with ⟨hempty, _⟩ | ⟨hfull, old, _, _, hres, _, _⟩
        · rw [heq hempty] at h₁
          exact absurd h₂ h₁
        · refine ⟨?_, fun hm => absurd hm (hfull₁ hfull)⟩
          rw [hres]
          intro x hx
          rcases Finset.mem_insert.mp hx with rfl | hx
          · exact h₂
          · exact hsub (Finset.mem_of_mem_erase hx)
      · -- fault with both
        obtain ⟨_, hcase₂⟩ := hfault₂ h₂
        rcases hcase₁ with ⟨hempty₁, hres₁⟩ | ⟨hfull₁', old₁, k₁, hold₁, hres₁, hk₁, hlru₁⟩
        · have hE := heq hempty₁
          rcases hcase₂ with ⟨_, hres₂⟩ | ⟨hfull₂', _⟩
          · rw [hres₁, hres₂, hE]
            exact ⟨le_refl _, fun _ => rfl⟩
          · exfalso
            have c₁ := resident_card_lt hempty₁
            have c₂ := resident_card_full hfull₂' hg₂.2.1
            rw [hE, c₂, hg₁.1.1, hg₂.1.1] at c₁
            omega
        · refine ⟨?_, fun hm => absurd hm (hfull₁ hfull₁')⟩
          rcases hcase₂ with ⟨_, hres₂⟩ | ⟨_, old₂, k₂, hold₂, hres₂, hk₂, hlru₂⟩
          · rw [hres₁, hres₂]
            intro x hx
            rcases Finset.mem_insert.mp hx with rfl | hx
            · exact Finset.mem_insert_self _ _
            · exact Finset.mem_insert_of_mem (hsub (Finset.mem_of_mem_erase hx))
          · rw [hres₁, hres₂]
            intro x hx
            rcases Finset.mem_insert.mp hx with rfl | hx
            · exact Finset.mem_insert_self _ _
            · obtain ⟨hxold, hxR⟩ := Finset.mem_erase.mp hx
              refine Finset.mem_insert_of_mem (Finset.mem_erase.mpr ⟨?_, hsub hxR⟩)
              intro e
              subst e
              -- `x` would be the least recently used page of both resident sets
              obtain ⟨ky, hky, hlt₁⟩ := hlru₁ x hxR hxold
              obtain ⟨ky', hky', hlt₂⟩ := hlru₂ old₁ (hsub hold₁) (fun e => hxold e.symm)
              rw [hk₂] at hky
              rw [hk₁] at hky'
              cases hky
              cases hky'
              omega
  · intro h
    by_cases h₁ : p ∈ resident s₁.frames
    · exact (hhit₂ (hsub h₁)).1
    · rw [(hfault₁ h₁).1] at h
      cases h

/-! ## The claims -/

/-- C1: for each of the five simulators, every trace and every `framesCount ≥ 1`, the call
returns and the returned `hits` and `faults` add up to the length of the trace. -/
theorem hits_add_faults_eq_length (ref : List Int) (framesCount : Nat) (hfc : 1 ≤ framesCount) :
    CountsEveryAccess ref (runFIFO ref framesCount) ∧
    CountsEveryAccess ref (runLRU ref framesCount) ∧
    CountsEveryAccess ref (runOptimal ref framesCount) ∧
    CountsEveryAccess ref (runLFU ref framesCount) ∧
    CountsEveryAccess ref (runSecondChance ref framesCount) :=
  ⟨(runFIFO_ok ref framesCount hfc).counts, (runLRU_ok ref framesCount hfc).counts,
    (runOptimal_ok ref framesCount hfc).counts, (runLFU_ok ref framesCount hfc).counts,
    (runSecondChance_ok ref framesCount hfc).counts⟩

theorem hits_add_faults_eq_length_witness :
    1 ≤ 3 ∧
    CountsEveryAccess [1, 2, 3, 1, 2, 4, 5, 1] (runFIFO [1, 2, 3, 1, 2, 4, 5, 1] 3) ∧
    CountsEveryAccess [1, 2, 3, 1, 2, 4, 5, 1] (runLRU [1, 2, 3, 1, 2, 4, 5, 1] 3) ∧
    CountsEveryAccess [1, 2, 3, 1, 2, 4, 5, 1] (runOptimal [1, 2, 3, 1, 2, 4, 5, 1] 3) ∧
    CountsEveryAccess [1, 2, 3, 1, 2, 4, 5, 1] (runLFU [1, 2, 3, 1, 2, 4, 5, 1] 3) ∧
    CountsEveryAccess [1, 2, 3, 1, 2, 4, 5, 1] (runSecondChance [1, 2, 3, 1, 2, 4, 5, 1] 3) :=
  ⟨by decide, hits_add_faults_eq_length [1, 2, 3, 1, 2, 4, 5, 1] 3 (by decide)⟩

/-- C2: for each of the five simulators, every trace of non-negative pages and every
`framesCount ≥ 1`, the call returns one row per trace element and after every step the
frame vector has exactly `framesCount` slots, at most `framesCount` pages are resident and
no page is held by two different slots. -/
theorem frames_wellFormed_after_every_step (ref : List Int) (framesCount : Nat)
    (hfc : 1 ≤ framesCount) (_hpages : ∀ p ∈ ref, 0 ≤ p) :
    AfterEveryStep ref (runFIFO ref framesCount) (FramesWellFormed framesCount) ∧
    AfterEveryStep ref (runLRU ref framesCount) (FramesWellFormed framesCount) ∧
    AfterEveryStep ref (runOptimal ref framesCount) (FramesWellFormed framesCount) ∧
    AfterEveryStep ref (runLFU ref framesCount) (FramesWellFormed framesCount) ∧
    AfterEveryStep ref (runSecondChance ref framesCount) (FramesWellFormed framesCount) :=
  ⟨(runFIFO_ok ref framesCount hfc).afterEveryStep,
    (runLRU_ok ref framesCount hfc).afterEveryStep,
    (runOptimal_ok ref framesCount hfc).afterEveryStep,
    (runLFU_ok ref framesCount hfc).afterEveryStep,
    (runSecondChance_ok ref framesCount hfc).afterEveryStep⟩

theorem frames_wellFormed_after_every_step_witness :
    (1 ≤ 2 ∧ ∀ p ∈ [7, 0, 7, 3, 0], (0 : Int) ≤ p) ∧
    AfterEveryStep [7, 0, 7, 3, 0] (runFIFO [7, 0, 7, 3, 0] 2) (FramesWellFormed 2) ∧
    AfterEveryStep [7, 0, 7, 3, 0] (runLRU [7, 0, 7, 3, 0] 2) (FramesWellFormed 2) ∧
    AfterEveryStep [7, 0, 7, 3, 0] (runOptimal [7, 0, 7, 3, 0] 2) (FramesWellFormed 2) ∧
    AfterEveryStep [7, 0, 7, 3, 0] (runLFU [7, 0, 7, 3, 0] 2) (FramesWellFormed 2) ∧
    AfterEveryStep [7, 0, 7, 3, 0] (runSecondChance [7, 0, 7, 3, 0] 2) (FramesWellFormed 2) :=
  ⟨⟨by decide, by decide⟩,
    frames_wellFormed_after_every_step [7, 0, 7, 3, 0] 2 (by decide) (by decide)⟩

/-- C3: for every trace of non-negative pages and every `framesCount ≥ 1`, all five
simulators return, and the fault count returned by `runOptimal` is less than or equal to
the fault count returned by each of `runFIFO`, `runLRU`, `runLFU` and `runSecondChance` on
the same trace and frame count. -/
theorem optimal_faults_le_every_policy (ref : List Int) (framesCount : Nat)
    (hfc : 1 ≤ framesCount) (hpages : ∀ p ∈ ref, 0 ≤ p) :
    ∃ ro rf rl ru rs, runOptimal ref framesCount = some ro ∧
      runFIFO ref framesCount = some rf ∧ runLRU ref framesCount = some rl ∧
      runLFU ref framesCount = some ru ∧ runSecondChance ref framesCount = some rs ∧
      ro.result.faults ≤ rf.result.faults ∧ ro.result.faults ≤ rl.result.faults ∧
      ro.result.faults ≤ ru.result.faults ∧ ro.result.faults ≤ rs.result.faults := by
  have hp : ∀ p ∈ ref, p ≠ -1 := fun p hmem => by have := hpages p hmem; omega
  obtain ⟨ro, hro, hfo⟩ := runOptimal_faults ref framesCount hfc hp
  obtain ⟨rf, hrf, hf⟩ := (runFIFO_ok ref framesCount hfc).minFaults_le hp
  obtain ⟨rl, hrl, hl⟩ := (runLRU_ok ref framesCount hfc).minFaults_le hp
  obtain ⟨ru, hru, hu⟩ := (runLFU_ok ref framesCount hfc).minFaults_le hp
  obtain ⟨rs, hrs, hs⟩ := (runSecondChance_ok ref framesCount hfc).minFaults_le hp
  exact ⟨ro, rf, rl, ru, rs, hro, hrf, hrl, hru, hrs, hfo ▸ hf, hfo ▸ hl, hfo ▸ hu, hfo ▸ hs⟩

theorem optimal_faults_le_every_policy_witness :
    (1 ≤ 3 ∧ ∀ p ∈ [1, 2, 3, 4, 1, 2, 5], (0 : Int) ≤ p) ∧
    ∃ ro rf rl ru rs, runOptimal [1, 2, 3, 4, 1, 2, 5] 3 = some ro ∧
      runFIFO [1, 2, 3, 4, 1, 2, 5] 3 = some rf ∧ runLRU [1, 2, 3, 4, 1, 2, 5] 3 = some rl ∧
      runLFU [1, 2, 3, 4, 1, 2, 5] 3 = some ru ∧
      runSecondChance [1, 2, 3, 4, 1, 2, 5] 3 = some rs ∧
      ro.result.faults ≤ rf.result.faults ∧ ro.result.faults ≤ rl.result.faults ∧
      ro.result.faults ≤ ru.result.faults ∧ ro.result.faults ≤ rs.result.faults :=
  ⟨⟨by decide, by decide⟩,
    optimal_faults_le_every_policy [1, 2, 3, 4, 1, 2, 5] 3 (by decide) (by decide)⟩

/-- C4: for each of the five simulators, every trace of non-negative pages and every
`framesCount ≥ 1`: step `i` is counted as a hit exactly when `ref[i]` is held by some slot
before the step, and then the frames are unchanged by the step; otherwise it is counted as
a fault, exactly one slot is overwritten with `ref[i]`, and `ref[i]` is resident after the
step. -/
theorem hit_iff_resident_and_fault_overwrites_one_slot (ref : List Int) (framesCount : Nat)
    (hfc : 1 ≤ framesCount) (_hpages : ∀ p ∈ ref, 0 ≤ p) :
    StepSemantics framesCount ref (runFIFO ref framesCount) ∧
    StepSemantics framesCount ref (runLRU ref framesCount) ∧
    StepSemantics framesCount ref (runOptimal ref framesCount) ∧
    StepSemantics framesCount ref (runLFU ref framesCount) ∧
    StepSemantics framesCount ref (runSecondChance ref framesCount) :=
  ⟨(runFIFO_ok ref framesCount hfc).stepSemantics,
    (runLRU_ok ref framesCount hfc).stepSemantics,
    (runOptimal_ok ref framesCount hfc).stepSemantics,
    (runLFU_ok ref framesCount hfc).stepSemantics,
    (runSecondChance_ok ref framesCount hfc).stepSemantics⟩

theorem hit_iff_resident_and_fault_overwrites_one_slot_witness :
    (1 ≤ 2 ∧ ∀ p ∈ [4, 9, 4, 1, 9], (0 : Int) ≤ p) ∧
    StepSemantics 2 [4, 9, 4, 1, 9] (runFIFO [4, 9, 4, 1, 9] 2) ∧
    StepSemantics 2 [4, 9, 4, 1, 9] (runLRU [4, 9, 4, 1, 9] 2) ∧
    StepSemantics 2 [4, 9, 4, 1, 9] (runOptimal [4, 9, 4, 1, 9] 2) ∧
    StepSemantics 2 [4, 9, 4, 1, 9] (runLFU [4, 9, 4, 1, 9] 2) ∧
    StepSemantics 2 [4, 9, 4, 1, 9] (runSecondChance [4, 9, 4, 1, 9] 2) :=
  ⟨⟨by decide, by decide⟩,
    hit_iff_resident_and_fault_overwrites_one_slot [4, 9, 4, 1, 9] 2 (by decide) (by decide)⟩

/-- C5: in `runLRU`, for every trace of non-negative pages and every `framesCount ≥ 1`, at
every fault at which all slots are occupied, the slot chosen for eviction carries a
last-referenced marker that is strictly less than the marker of every other slot (the
markers being read in the state before the step, before the marker is reset), and row `i`
records the replacement of that slot. -/
theorem lru_evicted_marker_strictly_least (ref : List Int) (framesCount : Nat)
    (hfc : 1 ≤ framesCount) (_hpages : ∀ p ∈ ref, 0 ≤ p) :
    ∃ run, runLRU ref framesCount = some run ∧
      ∀ (i : Nat) (page : Int), ref[i]? = some page →
        ∃ s, lruStateBefore ref framesCount i = some s ∧
          (page ∉ s.frames → (-1 : Int) ∉ s.frames →
            ∃ v m old, v < framesCount ∧ lruVictim s.lastUsed = some v ∧
              s.lastUsed[v]? = some m ∧ s.frames[v]? = some old ∧
              run.rows[i]? = some ⟨i + 1, page, s.frames.set v page, false, old⟩ ∧
              ∀ (j : Nat) (x : Int), j ≠ v → s.lastUsed[j]? = some x → m < x) := by
  obtain ⟨out, hout, _⟩ := lruLoop_spec framesCount hfc ref
  refine ⟨summarize "LRU" ref.length out, by simp [runLRU, hout], ?_⟩
  intro i page hi
  obtain ⟨pre, o, hpre, hbody, _, hrow⟩ :=
    simLoop_row LRUState.frames lruStep ref (lruInit framesCount) out hout i page hi
  obtain ⟨pre', hpre', hinv, hmarks⟩ := lruLoop_marks framesCount hfc (ref.take i)
  have hpp : pre' = pre := by
    have : some pre' = some pre := by rw [← hpre', ← hpre]; rfl
    exact Option.some.inj this
  subst hpp
  refine ⟨pre'.state, by simp [lruStateBefore, hpre'], ?_⟩
  intro hnot hfull
  obtain ⟨hlen, hlu⟩ := hinv
  obtain ⟨v, hv, hvlt⟩ := lruVictim_lt pre'.state.lastUsed (by omega)
  obtain ⟨m, hm, hmin⟩ := lruVictim_min hv
  have hget : pre'.state.frames[v]? = some (pre'.state.frames[v]) :=
    List.getElem?_eq_getElem (by omega)
  have ho : o = ⟨⟨pre'.state.frames.set v page, pre'.state.lastUsed.set v i⟩, false,
      pre'.state.frames[v]⟩ := by
    have hb := hbody
    unfold lruStep at hb
    rw [findSlot_none.mpr hnot, findSlot_none.mpr hfull] at hb
    simp only [hv, hget, Option.some.injEq] at hb
    exact hb.symm
  refine ⟨v, m, pre'.state.frames[v], by omega, hv, hm, hget, ?_, ?_⟩
  · rw [show (summarize "LRU" ref.length out).rows = out.rows from rfl, hrow, ho]
  · intro j x hj hx
    have hle := hmin j x hx
    have hne : m ≠ x := by
      intro e
      subst e
      have hocc : ∀ k : Nat, pre'.state.frames[k]? ≠ some (-1) :=
        fun k hk => hfull (List.getElem?_mem hk)
      exact hj (hmarks.2 j v m hx hm (hocc j) (hocc v))
    omega

theorem lru_evicted_marker_strictly_least_witness :
    (1 ≤ 2 ∧ ∀ p ∈ [1, 2, 1, 3], (0 : Int) ≤ p) ∧
    ∃ run, runLRU [1, 2, 1, 3] 2 = some run ∧
      ∀ (i : Nat) (page : Int), [1, 2, 1, 3][i]? = some page →
        ∃ s, lruStateBefore [1, 2, 1, 3] 2 i = some s ∧
          (page ∉ s.frames → (-1 : Int) ∉ s.frames →
            ∃ v m old, v < 2 ∧ lruVictim s.lastUsed = some v ∧
              s.lastUsed[v]? = some m ∧ s.frames[v]? = some old ∧
              run.rows[i]? = some ⟨i + 1, page, s.frames.set v page, false, old⟩ ∧
              ∀ (j : Nat) (x : Int), j ≠ v → s.lastUsed[j]? = some x → m < x) :=
  ⟨⟨by decide, by decide⟩,
    lru_evicted_marker_strictly_least [1, 2, 1, 3] 2 (by decide) (by decide)⟩

/-- C6: in `runFIFO`, for every trace of non-negative pages and every `framesCount ≥ 1`,
the pages are evicted in the order in which they were loaded: the sequence of evicted
pages is a prefix of the sequence of pages loaded on faults.  The evicted pages are the
entries other than `-1` of the column `Replaced`; a row has such an entry exactly when its
step is a fault that found every slot occupied. -/
theorem fifo_evicts_in_load_order (ref : List Int) (framesCount : Nat)
    (hfc : 1 ≤ framesCount) (hpages : ∀ p ∈ ref, 0 ≤ p) :
    ∃ run, runFIFO ref framesCount = some run ∧
      (∀ (i : Nat) (row : StepRow), run.rows[i]? = some row →
        (row.replaced ≠ -1 ↔
          (row.hit = false ∧
            (-1 : Int) ∉ framesBefore (emptyFrames framesCount) run.rows i))) ∧
      evictedSeq run.rows <+: loadedSeq run.rows := by
  obtain ⟨out, hout, _⟩ := fifoLoop_spec framesCount hfc ref
  have hrun : runFIFO ref framesCount = some (summarize "FIFO" ref.length out) := by
    simp [runFIFO, hout]
  refine ⟨summarize "FIFO" ref.length out, hrun,
    fun i row hrow => (runFIFO_ok ref framesCount hfc).replaced_iff hrun i row hrow, ?_⟩
  obtain ⟨_, _, _, m, hm, hm0⟩ := fifoLoop_hist framesCount hfc ref hpages out hout
  show evictedSeq out.rows <+: loadedSeq out.rows
  cases m with
  | zero =>
    simp only [List.replicate_zero, List.append_nil] at hm
    exact ⟨_, hm.symm⟩
  | succ k =>
    rw [(hm0 (by omega)).2]
    exact List.nil_prefix

theorem fifo_evicts_in_load_order_witness :
    (1 ≤ 2 ∧ ∀ p ∈ [1, 2, 1, 3, 4, 1], (0 : Int) ≤ p) ∧
    ∃ run, runFIFO [1, 2, 1, 3, 4, 1] 2 = some run ∧
      (∀ (i : Nat) (row : StepRow), run.rows[i]? = some row →
        (row.replaced ≠ -1 ↔
          (row.hit = false ∧ (-1 : Int) ∉ framesBefore (emptyFrames 2) run.rows i))) ∧
      evictedSeq run.rows <+: loadedSeq run.rows :=
  ⟨⟨by decide, by decide⟩, fifo_evicts_in_load_order [1, 2, 1, 3, 4, 1] 2 (by decide) (by decide)⟩

/-- C7: in `runSecondChance`, for every `framesCount ≥ 1` and every reachable state in which
all slots are occupied, the replacement sweep terminates and reads the reference bit of at
most `2 * framesCount` slots before it selects its victim. -/
theorem sweep_inspects_at_most_twice_framesCount (framesCount : Nat) (pages : List Int)
    (s : SCState) (page : Int) (hfc : 1 ≤ framesCount)
    (hreach : scStateAfter framesCount pages = some s) (_hfull : (-1 : Int) ∉ s.frames) :
    ∃ r, sweep framesCount page s.frames s.refBit s.pointer 0 = some r ∧
      r.inspected ≤ 2 * framesCount := by
  obtain ⟨out, hout, ⟨hlen, hrb, hptr⟩, _⟩ := scLoop_spec framesCount hfc pages
  have hs : out.state = s := by
    simp only [scStateAfter, hout, Option.map_some', Option.some.injEq] at hreach
    exact hreach
  subst hs
  obtain ⟨r, hr, _, _, _, hhi⟩ :=
    sweep_spec framesCount page out.state.frames _ out.state.refBit out.state.pointer 0 rfl
      hlen hrb hptr
  refine ⟨r, hr, ?_⟩
  have := setBits_le_length out.state.refBit
  omega

theorem sweep_inspects_at_most_twice_framesCount_witness :
    (1 ≤ 3 ∧ scStateAfter 3 [1, 2, 3] = some ⟨[1, 2, 3], [1, 1, 1], 0⟩ ∧
      (-1 : Int) ∉ [1, 2, 3]) ∧
    ∃ r, sweep 3 4 [1, 2, 3] [1, 1, 1] 0 0 = some r ∧ r.inspected ≤ 2 * 3 :=
  ⟨⟨by decide, by decide, by decide⟩,
    sweep_inspects_at_most_twice_framesCount 3 [1, 2, 3] ⟨[1, 2, 3], [1, 1, 1], 0⟩ 4
      (by decide) (by decide) (by decide)⟩

/-- C8 (what the code does): on the empty trace every simulator returns `hits = 0` and
`faults = 0`, but both ratios are the quotient `0.0 / 0`, a division by zero whose value
is not a number, not `0`. -/
theorem empty_trace_ratios_divide_by_zero (framesCount : Nat) :
    runFIFO [] framesCount = some ⟨[], ⟨"FIFO", 0, 0, none, none⟩⟩ ∧
    runLRU [] framesCount = some ⟨[], ⟨"LRU", 0, 0, none, none⟩⟩ ∧
    runOptimal [] framesCount = some ⟨[], ⟨"Optimal", 0, 0, none, none⟩⟩ ∧
    runLFU [] framesCount = some ⟨[], ⟨"LFU", 0, 0, none, none⟩⟩ ∧
    runSecondChance [] framesCount = some ⟨[], ⟨"Second Chance", 0, 0, none, none⟩⟩ :=
  ⟨rfl, rfl, rfl, rfl, rfl⟩

/-- C9 (what the code does): with `framesCount = 0` and the one-element trace `[1]`, every
simulator runs into undefined behaviour while it processes the first element: it reads
slot 0 (slot `-1` in `runOptimal`) of an empty vector.  No simulator rejects the
configuration and none records the access as a fault. -/
theorem zero_frames_undefined :
    runFIFO [1] 0 = none ∧ runLRU [1] 0 = none ∧ runOptimal [1] 0 = none ∧
    runLFU [1] 0 = none ∧ runSecondChance [1] 0 = none := by
  refine ⟨rfl, rfl, rfl, rfl, ?_⟩
  simp [runSecondChance, scLoop, simLoop, scStep, scInit, findSlot, sweep_eq]

/-- C10: on the trace `[1,2,3,4,1,2,5]` with 3 frames, `runFIFO` and `runLRU` each return
`hits = 0` and `faults = 7`; the accesses 1, 2, 3 fill the empty slots and the accesses
4, 1, 2, 5 replace the pages 1, 2, 3, 4 in that order. -/
theorem fifo_lru_example_seven_faults :
    (runFIFO [1, 2, 3, 4, 1, 2, 5] 3).map
        (fun r => (r.result.hits, r.result.faults, r.rows.map (fun x => (x.frames, x.replaced)))) =
      some (0, 7, [([1, -1, -1], -1), ([1, 2, -1], -1), ([1, 2, 3], -1), ([4, 2, 3], 1),
        ([4, 1, 3], 2), ([4, 1, 2], 3), ([5, 1, 2], 4)]) ∧
    (runLRU [1, 2, 3, 4, 1, 2, 5] 3).map
        (fun r => (r.result.hits, r.result.faults, r.rows.map (fun x => (x.frames, x.replaced)))) =
      some (0, 7, [([1, -1, -1], -1), ([1, 2, -1], -1), ([1, 2, 3], -1), ([4, 2, 3], 1),
        ([4, 1, 3], 2), ([4, 1, 2], 3), ([5, 1, 2], 4)]) := by
  constructor <;> decide

/-- C11 (as stated, refuted): on the trace `[1,2,3,4,1,2,5]` with 3 frames `runOptimal`
does not return `hits = 0` and `faults = 7`. -/
theorem optimal_example_not_seven_faults :
    ¬ ((runOptimal [1, 2, 3, 4, 1, 2, 5] 3).map (fun r => (r.result.hits, r.result.faults)) =
      some (0, 7)) := by
  decide

/-- C11 (amended): on the trace `[1,2,3,4,1,2,5]` with 3 frames `runOptimal` returns
`hits = 2` and `faults = 5`: the access 4 replaces page 3, which is never used again, so
the accesses 1 and 2 that follow are hits; `runFIFO` and `runLRU` make 7 faults on this
trace, so the policies do not tie. -/
theorem optimal_example_five_faults :
    (runOptimal [1, 2, 3, 4, 1, 2, 5] 3).map
        (fun r => (r.result.hits, r.result.faults,
          r.rows.map (fun x => (x.frames, x.hit, x.replaced)))) =
      some (2, 5, [([1, -1, -1], false, -1), ([1, 2, -1], false, -1), ([1, 2, 3], false, -1),
        ([1, 2, 4], false, 3), ([1, 2, 4], true, -1), ([1, 2, 4], true, -1),
        ([5, 2, 4], false, 1)]) ∧
    (runFIFO [1, 2, 3, 4, 1, 2, 5] 3).map (fun r => r.result.faults) = some 7 ∧
    (runLRU [1, 2, 3, 4, 1, 2, 5] 3).map (fun r => r.result.faults) = some 7 := by
  exact ⟨rfl, by decide, by decide⟩

/-- C12 (as stated, refuted): on the trace `[1,2,3,1,2,4,5,1]` with 3 frames `runLRU` does
not return `faults = 5` and `hits = 3`. -/
theorem lru_example_not_five_faults :
    ¬ ((runLRU [1, 2, 3, 1, 2, 4, 5, 1] 3).map (fun r => (r.result.hits, r.result.faults)) =
      some (3, 5)) := by
  decide

/-- C12 (amended): on the trace `[1,2,3,1,2,4,5,1]` with 3 frames `runLRU` returns
`faults = 6` and `hits = 2`: the accesses 4 and 5 replace the pages 3 and 1, so the last
access to 1 is a fault. -/
theorem lru_example_six_faults :
    (runLRU [1, 2, 3, 1, 2, 4, 5, 1] 3).map
        (fun r => (r.result.hits, r.result.faults,
          r.rows.map (fun x => (x.frames, x.hit, x.replaced)))) =
      some (2, 6, [([1, -1, -1], false, -1), ([1, 2, -1], false, -1), ([1, 2, 3], false, -1),
        ([1, 2, 3], true, -1), ([1, 2, 3], true, -1), ([1, 2, 4], false, 3),
        ([5, 2, 4], false, 1), ([5, 1, 4], false, 2)]) := by
  rfl

/-- C13: on the trace `[1,2,3,1,2,4,5,1]` with 3 frames `runFIFO` returns `faults = 6` and
`hits = 2`, and `runOptimal` returns `faults = 5` and `hits = 3`, so at most 5 faults. -/
theorem fifo_optimal_example_reuse :
    (runFIFO [1, 2, 3, 1, 2, 4, 5, 1] 3).map (fun r => (r.result.hits, r.result.faults)) =
      some (2, 6) ∧
    (runOptimal [1, 2, 3, 1, 2, 4, 5, 1] 3).map (fun r => (r.result.hits, r.result.faults)) =
      some (3, 5) ∧
    (∃ run, runOptimal [1, 2, 3, 1, 2, 4, 5, 1] 3 = some run ∧ run.result.faults ≤ 5) := by
  refine ⟨by decide, by decide, ?_⟩
  have h2 : (runOptimal [1, 2, 3, 1, 2, 4, 5, 1] 3).map (fun r => r.result.faults) = some 5 := by
    decide
  cases h : runOptimal [1, 2, 3, 1, 2, 4, 5, 1] 3 with
  | none => rw [h] at h2; cases h2
  | some run =>
    refine ⟨run, rfl, ?_⟩
    rw [h] at h2
    simp only [Option.map_some', Option.some.injEq] at h2
    omega

/-- C14: in `runOptimal`, for every trace of non-negative pages and every `framesCount ≥ 1`,
at every fault at step `i` with all slots occupied: if some resident page does not occur
in `ref[i+1..]`, the victim is the lowest-index slot holding such a page; otherwise the
victim is the slot whose page has the greatest next occurrence index in `ref[i+1..]`
among all slots.  Row `i` records the replacement of that slot. -/
theorem optimal_victim_rule (ref : List Int) (framesCount : Nat)
    (hfc : 1 ≤ framesCount) (_hpages : ∀ p ∈ ref, 0 ≤ p) :
    ∃ run, runOptimal ref framesCount = some run ∧
      ∀ (i : Nat) (page : Int), ref[i]? = some page →
        ∃ s, optStateBefore ref framesCount i = some s ∧
          (page ∉ s.frames → (-1 : Int) ∉ s.frames →
            ∃ v old, v < framesCount ∧ s.frames[v]? = some old ∧
              run.rows[i]? = some ⟨i + 1, page, s.frames.set v page, false, old⟩ ∧
              ((∃ (j : Nat) (q : Int), s.frames[j]? = some q ∧ q ∉ ref.drop (i + 1)) →
                old ∉ ref.drop (i + 1) ∧
                ∀ (j : Nat) (q : Int), j < v → s.frames[j]? = some q → q ∈ ref.drop (i + 1)) ∧
              ((∀ (j : Nat) (q : Int), s.frames[j]? = some q → q ∈ ref.drop (i + 1)) →
                ∃ kv, IsNextUse ref i old kv ∧
                  ∀ (j : Nat) (q : Int) (kq : Nat), j ≠ v → s.frames[j]? = some q →
                    IsNextUse ref i q kq → kq < kv)) := by
  obtain ⟨out, hout, _⟩ := optLoop_spec ref framesCount hfc ref
  refine ⟨summarize "Optimal" ref.length out, by simp [runOptimal, hout], ?_⟩
  intro i page hi
  have hlt : i < ref.length := by
    by_contra hge
    rw [List.getElem?_eq_none (by omega)] at hi
    cases hi
  obtain ⟨pre, o, hpre, hbody, _, hrow⟩ :=
    simLoop_row OptState.frames (optStep ref) ref (optInit framesCount) out hout i page hi
  obtain ⟨pre', hpre', hlen, hnd⟩ := optLoop_wellFormed ref framesCount hfc i (by omega)
  have hpp : pre' = pre := by
    have : some pre' = some pre := by rw [← hpre', ← hpre]; rfl
    exact Option.some.inj this
  subst hpp
  refine ⟨pre'.state, by simp [optStateBefore, hpre'], ?_⟩
  intro hnot hfull
  obtain ⟨v, hv, hvlt⟩ := optVictim_lt ref i pre'.state.frames (by omega)
  have hget : pre'.state.frames[v]? = some (pre'.state.frames[v]) :=
    List.getElem?_eq_getElem (by omega)
  have ho : o = ⟨⟨pre'.state.frames.set v page⟩, false, pre'.state.frames[v]⟩ := by
    have hb := hbody
    unfold optStep at hb
    rw [findSlot_none.mpr hnot, findSlot_none.mpr hfull] at hb
    simp only [hv, hget, Option.some.injEq] at hb
    exact hb.symm
  obtain ⟨old, hold, hspec⟩ := optScan_spec ref i pre'.state.frames pre'.state.frames 0 none (-1)
    rfl (fun k q hk => absurd hk (by omega)) (Or.inl ⟨rfl, rfl, rfl⟩) v hv
  rw [hget] at hold
  cases hold
  refine ⟨v, pre'.state.frames[v], by omega, hget, ?_, ?_, ?_⟩
  · rw [show (summarize "Optimal" ref.length out).rows = out.rows from rfl, hrow, ho]
  · rintro ⟨j, q, hq, hqn⟩
    rcases hspec with ⟨hnone, hbefore⟩ | ⟨kv, _, hall⟩
    · refine ⟨nextUse_eq_none.mp hnone, fun j' q' hj' hq' => ?_⟩
      by_contra hn
      exact hbefore j' q' hj' hq' (nextUse_eq_none.mpr hn)
    · obtain ⟨kq, hkq, _⟩ := hall j q hq
      rw [nextUse_eq_none.mpr hqn] at hkq
      cases hkq
  · intro hall
    rcases hspec with ⟨hnone, _⟩ | ⟨kv, hkv, hmax⟩
    · exact absurd (hall v _ hget) (nextUse_eq_none.mp hnone)
    · refine ⟨kv, nextUse_eq_some hkv, fun j q kq hj hq hkq => ?_⟩
      obtain ⟨kq', hkq', hle⟩ := hmax j q hq
      have hk : kq = kq' := isNextUse_unique hkq (nextUse_eq_some hkq')
      subst hk
      have hne : kq ≠ kv := by
        intro e
        subst e
        have h1 := hkq.2.1
        have h2 := (nextUse_eq_some hkv).2.1
        rw [h1] at h2
        have hq' : q = pre'.state.frames[v] := Option.some.inj h2
        have hqne : q ≠ -1 := fun e' => hfull (e' ▸ List.getElem?_mem hq)
        exact hj (hnd j v q hq (hq' ▸ hget) hqne)
      omega

theorem optimal_victim_rule_witness :
    (1 ≤ 2 ∧ ∀ p ∈ [1, 2, 3, 1], (0 : Int) ≤ p) ∧
    ∃ run, runOptimal [1, 2, 3, 1] 2 = some run ∧
      ∀ (i : Nat) (page : Int), [1, 2, 3, 1][i]? = some page →
        ∃ s, optStateBefore [1, 2, 3, 1] 2 i = some s ∧
          (page ∉ s.frames → (-1 : Int) ∉ s.frames →
            ∃ v old, v < 2 ∧ s.frames[v]? = some old ∧
              run.rows[i]? = some ⟨i + 1, page, s.frames.set v page, false, old⟩ ∧
              ((∃ (j : Nat) (q : Int), s.frames[j]? = some q ∧ q ∉ [1, 2, 3, 1].drop (i + 1)) →
                old ∉ [1, 2, 3, 1].drop (i + 1) ∧
                ∀ (j : Nat) (q : Int), j < v → s.frames[j]? = some q →
                  q ∈ [1, 2, 3, 1].drop (i + 1)) ∧
              ((∀ (j : Nat) (q : Int), s.frames[j]? = some q → q ∈ [1, 2, 3, 1].drop (i + 1)) →
                ∃ kv, IsNextUse [1, 2, 3, 1] i old kv ∧
                  ∀ (j : Nat) (q : Int) (kq : Nat), j ≠ v → s.frames[j]? = some q →
                    IsNextUse [1, 2, 3, 1] i q kq → kq < kv)) :=
  ⟨⟨by decide, by decide⟩, optimal_victim_rule [1, 2, 3, 1] 2 (by decide) (by decide)⟩

/-- C15: in `runLFU`, for every trace of non-negative pages and every `framesCount ≥ 1`, at
every fault with all slots occupied the victim slot has the minimum frequency counter
among all slots and, among the slots with that minimum frequency, the smallest load step;
after the eviction that slot holds the new page, its frequency is 1 and its load step is
the current step index. -/
theorem lfu_victim_rule (ref : List Int) (framesCount : Nat)
    (hfc : 1 ≤ framesCount) (_hpages : ∀ p ∈ ref, 0 ≤ p) :
    ∃ run, runLFU ref framesCount = some run ∧
      ∀ (i : Nat) (page : Int), ref[i]? = some page →
        ∃ s, lfuStateBefore ref framesCount i = some s ∧
          (page ∉ s.frames → (-1 : Int) ∉ s.frames →
            ∃ v fv tv old s', v < framesCount ∧ lfuVictim s.freq s.loadTime = v ∧
              s.freq[v]? = some fv ∧ s.loadTime[v]? = some tv ∧ s.frames[v]? = some old ∧
              run.rows[i]? = some ⟨i + 1, page, s.frames.set v page, false, old⟩ ∧
              (∀ (j : Nat) (f : Int), s.freq[j]? = some f → fv ≤ f) ∧
              (∀ (j : Nat) (t : Int), s.freq[j]? = some fv → s.loadTime[j]? = some t →
                tv ≤ t) ∧
              lfuStateBefore ref framesCount (i + 1) = some s' ∧
              s'.frames = s.frames.set v page ∧ s'.freq[v]? = some 1 ∧
              s'.loadTime[v]? = some (i : Int)) := by
  obtain ⟨out, hout, _⟩ := lfuLoop_spec framesCount hfc ref
  refine ⟨summarize "LFU" ref.length out, by simp [runLFU, hout], ?_⟩
  intro i page hi
  obtain ⟨pre, o, hpre, hbody, _, hrow⟩ :=
    simLoop_row LFUState.frames lfuStep ref (lfuInit framesCount) out hout i page hi
  obtain ⟨pre', hpre', ⟨hlen, hfr, hlt⟩, _⟩ := lfuLoop_spec framesCount hfc (ref.take i)
  have hpp : pre' = pre := by
    have : some pre' = some pre := by rw [← hpre', ← hpre]; rfl
    exact Option.some.inj this
  subst hpp
  refine ⟨pre'.state, by simp [lfuStateBefore, hpre'], ?_⟩
  intro hnot hfull
  have hvlt := lfuVictim_lt pre'.state.freq pre'.state.loadTime (by omega) (by omega)
  obtain ⟨fv, tv, hfv, htv, hmin⟩ :=
    lfuVictim_min pre'.state.freq pre'.state.loadTime (by omega) (by omega)
  have hget : pre'.state.frames[lfuVictim pre'.state.freq pre'.state.loadTime]? =
      some (pre'.state.frames[lfuVictim pre'.state.freq pre'.state.loadTime]) :=
    List.getElem?_eq_getElem (by omega)
  have ho : o = ⟨⟨pre'.state.frames.set (lfuVictim pre'.state.freq pre'.state.loadTime) page,
      pre'.state.freq.set (lfuVictim pre'.state.freq pre'.state.loadTime) 1,
      pre'.state.loadTime.set (lfuVictim pre'.state.freq pre'.state.loadTime) i⟩, false,
      pre'.state.frames[lfuVictim pre'.state.freq pre'.state.loadTime]⟩ := by
    have hb := hbody
    unfold lfuStep at hb
    rw [findSlot_none.mpr hnot, findSlot_none.mpr hfull] at hb
    simp only [hget, Option.some.injEq] at hb
    exact hb.symm
  have hnext : lfuLoop framesCount (ref.take (i + 1)) = some
      ⟨o.state, if o.hit then pre'.hits + 1 else pre'.hits,
        if o.hit then pre'.faults else pre'.faults + 1,
        pre'.rows ++ [⟨i + 1, page, o.state.frames, o.hit, o.replaced⟩]⟩ := by
    unfold lfuLoop at hpre' ⊢
    rw [simLoop_take_succ LFUState.frames lfuStep ref (lfuInit framesCount) i page hi, hpre']
    simp only [hbody]
  refine ⟨lfuVictim pre'.state.freq pre'.state.loadTime, fv, tv, _, o.state, by omega, rfl,
    hfv, htv, hget, ?_, ?_, ?_, by simp [lfuStateBefore, hnext], ?_, ?_, ?_⟩
  · rw [show (summarize "LFU" ref.length out).rows = out.rows from rfl, hrow, ho]
  · intro j f hf
    have hj : j < framesCount := by
      by_contra hge
      rw [List.getElem?_eq_none (by omega)] at hf
      cases hf
    have := hmin j f _ hf (List.getElem?_eq_getElem (by omega : j < pre'.state.loadTime.length))
    unfold LfuLe at this
    omega
  · intro j t hf ht
    have := hmin j fv t hf ht
    unfold LfuLe at this
    omega
  · rw [ho]
  · rw [ho]
    simp only
    rw [List.getElem?_set_self (by omega)]
  · rw [ho]
    simp only
    rw [List.getElem?_set_self (by omega)]

theorem lfu_victim_rule_witness :
    (1 ≤ 2 ∧ ∀ p ∈ [1, 2, 1, 3], (0 : Int) ≤ p) ∧
    ∃ run, runLFU [1, 2, 1, 3] 2 = some run ∧
      ∀ (i : Nat) (page : Int), [1, 2, 1, 3][i]? = some page →
        ∃ s, lfuStateBefore [1, 2, 1, 3] 2 i = some s ∧
          (page ∉ s.frames → (-1 : Int) ∉ s.frames →
            ∃ v fv tv old s', v < 2 ∧ lfuVictim s.freq s.loadTime = v ∧
              s.freq[v]? = some fv ∧ s.loadTime[v]? = some tv ∧ s.frames[v]? = some old ∧
              run.rows[i]? = some ⟨i + 1, page, s.frames.set v page, false, old⟩ ∧
              (∀ (j : Nat) (f : Int), s.freq[j]? = some f → fv ≤ f) ∧
              (∀ (j : Nat) (t : Int), s.freq[j]? = some fv → s.loadTime[j]? = some t →
                tv ≤ t) ∧
              lfuStateBefore [1, 2, 1, 3] 2 (i + 1) = some s' ∧
              s'.frames = s.frames.set v page ∧ s'.freq[v]? = some 1 ∧
              s'.loadTime[v]? = some (i : Int)) :=
  ⟨⟨by decide, by decide⟩, lfu_victim_rule [1, 2, 1, 3] 2 (by decide) (by decide)⟩

/-- C16: in `runSecondChance`, for every `framesCount ≥ 1`, on a fault with all slots
occupied, pointer `p` and reference bits `b`: with `d` the circular distance from `p` to
the first slot whose bit is 0 (`d = framesCount` when every bit is set), the victim is the
slot `v = (p + d) mod framesCount`, which is slot `p` itself when every bit is set; every
slot inspected before the victim ends with bit 0, the victim ends holding the new page
with bit 1, the slots that are not inspected keep their bits, all slots other than the
victim keep their pages, and the pointer ends at `(v + 1) mod framesCount`. -/
theorem second_chance_sweep_rule (framesCount : Nat) (page : Int) (s : SCState)
    (hfc : 1 ≤ framesCount) (hlen : s.frames.length = framesCount)
    (hrb : s.refBit.length = framesCount) (hptr : s.pointer < framesCount)
    (hnot : page ∉ s.frames) (hfull : (-1 : Int) ∉ s.frames) :
    ∃ o d v, scStep framesCount page s = some o ∧ o.hit = false ∧
      d ≤ framesCount ∧ v = (s.pointer + d) % framesCount ∧
      (∀ e, e < d → ∃ b, s.refBit[(s.pointer + e) % framesCount]? = some b ∧ b ≠ 0) ∧
      (d < framesCount → s.refBit[v]? = some 0) ∧
      (d = framesCount → v = s.pointer) ∧
      s.frames[v]? = some o.replaced ∧
      o.state.frames = s.frames.set v page ∧
      o.state.refBit[v]? = some 1 ∧
      (∀ j, j < framesCount → j ≠ v →
        (∃ e, e < d ∧ j = (s.pointer + e) % framesCount) → o.state.refBit[j]? = some 0) ∧
      (∀ j, j < framesCount → j ≠ v →
        (¬ ∃ e, e < d ∧ j = (s.pointer + e) % framesCount) →
          o.state.refBit[j]? = s.refBit[j]?) ∧
      o.state.pointer = (v + 1) % framesCount := by
  obtain ⟨d, hd, hset, hzero⟩ := sweep_distance framesCount s.refBit s.pointer hfc hrb
  obtain ⟨r, hr, _, hrep, hfr, hp, hbit, hcl, hkeep⟩ :=
    sweep_victim framesCount page s.frames s.refBit s.pointer d hfc hlen hrb hptr hd hset hzero
  refine ⟨⟨r.state, false, r.replaced⟩, d, (s.pointer + d) % framesCount, ?_, rfl, hd, rfl,
    hset, hzero, ?_, hrep, hfr, hbit, hcl, hkeep, hp⟩
  · unfold scStep
    rw [findSlot_none.mpr hnot, findSlot_none.mpr hfull]
    simp only [hr]
  · intro hdfc
    rw [hdfc]
    simp [Nat.mod_eq_of_lt hptr]

theorem second_chance_sweep_rule_witness :
    (1 ≤ 3 ∧ ([5, 6, 7] : List Int).length = 3 ∧ ([1, 1, 0] : List Int).length = 3 ∧
      1 < 3 ∧ (8 : Int) ∉ [5, 6, 7] ∧ (-1 : Int) ∉ [5, 6, 7]) ∧
    ∃ o d v, scStep 3 8 ⟨[5, 6, 7], [1, 1, 0], 1⟩ = some o ∧ o.hit = false ∧
      d ≤ 3 ∧ v = (1 + d) % 3 ∧
      (∀ e, e < d → ∃ b, ([1, 1, 0] : List Int)[(1 + e) % 3]? = some b ∧ b ≠ 0) ∧
      (d < 3 → ([1, 1, 0] : List Int)[v]? = some 0) ∧
      (d = 3 → v = 1) ∧
      ([5, 6, 7] : List Int)[v]? = some o.replaced ∧
      o.state.frames = ([5, 6, 7] : List Int).set v 8 ∧
      o.state.refBit[v]? = some 1 ∧
      (∀ j, j < 3 → j ≠ v →
        (∃ e, e < d ∧ j = (1 + e) % 3) → o.state.refBit[j]? = some 0) ∧
      (∀ j, j < 3 → j ≠ v →
        (¬ ∃ e, e < d ∧ j = (1 + e) % 3) →
          o.state.refBit[j]? = ([1, 1, 0] : List Int)[j]?) ∧
      o.state.pointer = (v + 1) % 3 :=
  ⟨⟨by decide, by decide, by decide, by decide, by decide, by decide⟩,
    second_chance_sweep_rule 3 8 ⟨[5, 6, 7], [1, 1, 0], 1⟩ (by decide) (by decide) (by decide)
      (by decide) (by decide) (by decide)⟩

/-- C17: in `runLRU`, for every trace of non-negative pages and every `framesCount ≥ 1`,
after step `i` the marker `lastUsed[j]` of every occupied slot `j` is the largest index
`k ≤ i` with `ref[k] = frames[j]`; hence, at every fault with all slots occupied, the page
that is evicted is the resident page whose most recent access is the earliest. -/
theorem lru_marker_is_last_access (ref : List Int) (framesCount : Nat)
    (hfc : 1 ≤ framesCount) (hpages : ∀ p ∈ ref, 0 ≤ p) :
    ∃ run, runLRU ref framesCount = some run ∧
      (∀ (i : Nat), i < ref.length →
        ∃ s, lruStateBefore ref framesCount (i + 1) = some s ∧
          ∀ (j : Nat) (p : Int), s.frames[j]? = some p → p ≠ -1 →
            ∃ k : Nat, s.lastUsed[j]? = some (k : Int) ∧ IsLastAccess ref (i + 1) p k) ∧
      (∀ (i : Nat) (page : Int), ref[i]? = some page →
        ∃ s, lruStateBefore ref framesCount i = some s ∧
          (page ∉ s.frames → (-1 : Int) ∉ s.frames →
            ∃ v old kv, s.frames[v]? = some old ∧
              run.rows[i]? = some ⟨i + 1, page, s.frames.set v page, false, old⟩ ∧
              IsLastAccess ref i old kv ∧
              ∀ (j : Nat) (q : Int) (kq : Nat), j ≠ v → s.frames[j]? = some q →
                IsLastAccess ref i q kq → kv < kq)) := by
  obtain ⟨out, hout, _⟩ := lruLoop_spec framesCount hfc ref
  refine ⟨summarize "LRU" ref.length out, by simp [runLRU, hout], ?_, ?_⟩
  · intro i hi
    obtain ⟨pre, hpre, _, _, _, hacc⟩ := lruLoop_good ref framesCount hfc hpages (i + 1) (by omega)
    refine ⟨pre.state, by simp [lruStateBefore, hpre], fun j p hj hp => ?_⟩
    obtain ⟨k, hk, hlu⟩ := hacc j p hj hp
    exact ⟨k, hlu, lastAccess_isLastAccess hk⟩
  · intro i page hi
    have hlt : i < ref.length := by
      by_contra hge
      rw [List.getElem?_eq_none (by omega)] at hi
      cases hi
    obtain ⟨pre, o, hpre, hbody, _, hrow⟩ :=
      simLoop_row LRUState.frames lruStep ref (lruInit framesCount) out hout i page hi
    obtain ⟨pre', hpre', ⟨hlen, hlu⟩, hnd, hmarks, hacc⟩ :=
      lruLoop_good ref framesCount hfc hpages i (by omega)
    have hpp : pre' = pre := by
      have : some pre' = some pre := by rw [← hpre', ← hpre]; rfl
      exact Option.some.inj this
    subst hpp
    refine ⟨pre'.state, by simp [lruStateBefore, hpre'], ?_⟩
    intro hnot hfull
    obtain ⟨v, hv, hvlt⟩ := lruVictim_lt pre'.state.lastUsed (by omega)
    obtain ⟨m, hm, hstrict⟩ := lruVictim_strict hmarks hfull hv
    have hget : pre'.state.frames[v]? = some (pre'.state.frames[v]) :=
      List.getElem?_eq_getElem (by omega)
    have ho : o = ⟨⟨pre'.state.frames.set v page, pre'.state.lastUsed.set v i⟩, false,
        pre'.state.frames[v]⟩ := by
      have hb := hbody
      unfold lruStep at hb
      rw [findSlot_none.mpr hnot, findSlot_none.mpr hfull] at hb
      simp only [hv, hget, Option.some.injEq] at hb
      exact hb.symm
    have hocc : ∀ (j : Nat) (q : Int), pre'.state.frames[j]? = some q → q ≠ -1 :=
      fun j q hq e => hfull (e ▸ List.getElem?_mem hq)
    obtain ⟨kv, hkv, hluv⟩ := hacc v _ hget (hocc v _ hget)
    refine ⟨v, pre'.state.frames[v], kv, hget, ?_, lastAccess_isLastAccess hkv, ?_⟩
    · rw [show (summarize "LRU" ref.length out).rows = out.rows from rfl, hrow, ho]
    · intro j q kq hj hq hkq
      obtain ⟨kq', hkq', hluq⟩ := hacc j q hq (hocc j q hq)
      have e : kq = kq' := isLastAccess_unique hkq (lastAccess_isLastAccess hkq')
      subst e
      rw [hm] at hluv
      cases hluv
      have := hstrict j _ hj hluq
      omega

theorem lru_marker_is_last_access_witness :
    (1 ≤ 2 ∧ ∀ p ∈ [1, 2, 1, 3], (0 : Int) ≤ p) ∧
    ∃ run, runLRU [1, 2, 1, 3] 2 = some run ∧
      (∀ (i : Nat), i < [1, 2, 1, 3].length →
        ∃ s, lruStateBefore [1, 2, 1, 3] 2 (i + 1) = some s ∧
          ∀ (j : Nat) (p : Int), s.frames[j]? = some p → p ≠ -1 →
            ∃ k : Nat, s.lastUsed[j]? = some (k : Int) ∧ IsLastAccess [1, 2, 1, 3] (i + 1) p k) ∧
      (∀ (i : Nat) (page : Int), [1, 2, 1, 3][i]? = some page →
        ∃ s, lruStateBefore [1, 2, 1, 3] 2 i = some s ∧
          (page ∉ s.frames → (-1 : Int) ∉ s.frames →
            ∃ v old kv, s.frames[v]? = some old ∧
              run.rows[i]? = some ⟨i + 1, page, s.frames.set v page, false, old⟩ ∧
              IsLastAccess [1, 2, 1, 3] i old kv ∧
              ∀ (j : Nat) (q : Int) (kq : Nat), j ≠ v → s.frames[j]? = some q →
                IsLastAccess [1, 2, 1, 3] i q kq → kv < kq)) :=
  ⟨⟨by decide, by decide⟩, lru_marker_is_last_access [1, 2, 1, 3] 2 (by decide) (by decide)⟩

/-- C18: for every trace of pairwise distinct non-negative pages and every
`framesCount ≥ 1`, `runSecondChance` and `runFIFO` produce the same step trace (the same
rows: step number, page, frame snapshot, hit flag and replaced page at every step) and the
same hit and fault counts. -/
theorem second_chance_eq_fifo_on_distinct (ref : List Int) (framesCount : Nat)
    (hfc : 1 ≤ framesCount) (hpages : ∀ p ∈ ref, 0 ≤ p) (hdistinct : ref.Nodup) :
    ∃ rf rs, runFIFO ref framesCount = some rf ∧ runSecondChance ref framesCount = some rs ∧
      rs.rows = rf.rows ∧ rs.result.hits = rf.result.hits ∧
      rs.result.faults = rf.result.faults := by
  obtain ⟨out₁, out₂, h₁, h₂, hrows, hhits, hfaults⟩ :=
    simLoop_same_rows FIFOState.frames (fun _ => fifoStep framesCount) SCState.frames
      (fun _ => scStep framesCount) ref (FifoClock ref framesCount)
      (fun i page sf sc hi hR =>
        fifoClock_step ref framesCount hfc hdistinct i page
          (by have := hpages page (List.getElem?_mem hi); omega) hi sf sc hR)
      ref 0 (fifoInit framesCount) (scInit framesCount) 0 0 rfl
      ⟨rfl, rfl, by simp [scInit], by simp [scInit], by simp [scInit]; omega,
        by simp [scInit],
        Or.inl ⟨rfl, fun j q hj hq => by
          have := List.getElem?_mem hj
          simp [scInit] at this
          exact absurd this.2 hq⟩⟩
  refine ⟨summarize "FIFO" ref.length out₁, summarize "Second Chance" ref.length out₂,
    by simp [runFIFO, fifoLoop, h₁], by simp [runSecondChance, scLoop, h₂],
    hrows.symm, hhits.symm, hfaults.symm⟩

theorem second_chance_eq_fifo_on_distinct_witness :
    (1 ≤ 2 ∧ (∀ p ∈ [3, 1, 4, 5, 9], (0 : Int) ≤ p) ∧ ([3, 1, 4, 5, 9] : List Int).Nodup) ∧
    ∃ rf rs, runFIFO [3, 1, 4, 5, 9] 2 = some rf ∧ runSecondChance [3, 1, 4, 5, 9] 2 = some rs ∧
      rs.rows = rf.rows ∧ rs.result.hits = rf.result.hits ∧
      rs.result.faults = rf.result.faults :=
  ⟨⟨by decide, by decide, by decide⟩,
    second_chance_eq_fifo_on_distinct [3, 1, 4, 5, 9] 2 (by decide) (by decide) (by decide)⟩

/-- C19: for every `framesCount ≥ 1` and every trace of non-negative pages that contains
at most `framesCount` distinct pages, each of the five simulators never evicts a page
(no row shows a replaced page and every fault fills an empty slot) and returns as many
faults as there are distinct pages in the trace: only the first access to a page is a
fault. -/
theorem few_pages_never_evict (ref : List Int) (framesCount : Nat) (hfc : 1 ≤ framesCount)
    (hpages : ∀ p ∈ ref, 0 ≤ p) (hfew : ref.toFinset.card ≤ framesCount) :
    ServedWithoutEviction framesCount ref (runFIFO ref framesCount) ∧
    ServedWithoutEviction framesCount ref (runLRU ref framesCount) ∧
    ServedWithoutEviction framesCount ref (runOptimal ref framesCount) ∧
    ServedWithoutEviction framesCount ref (runLFU ref framesCount) ∧
    ServedWithoutEviction framesCount ref (runSecondChance ref framesCount) := by
  have hp : ∀ p ∈ ref, p ≠ -1 := fun p hmem => by have := hpages p hmem; omega
  exact ⟨(runFIFO_ok ref framesCount hfc).servedWithoutEviction hp hfew,
    (runLRU_ok ref framesCount hfc).servedWithoutEviction hp hfew,
    (runOptimal_ok ref framesCount hfc).servedWithoutEviction hp hfew,
    (runLFU_ok ref framesCount hfc).servedWithoutEviction hp hfew,
    (runSecondChance_ok ref framesCount hfc).servedWithoutEviction hp hfew⟩

theorem few_pages_never_evict_witness :
    (1 ≤ 3 ∧ (∀ p ∈ [2, 7, 2, 2, 5, 7], (0 : Int) ≤ p) ∧
      ([2, 7, 2, 2, 5, 7] : List Int).toFinset.card ≤ 3) ∧
    ServedWithoutEviction 3 [2, 7, 2, 2, 5, 7] (runFIFO [2, 7, 2, 2, 5, 7] 3) ∧
    ServedWithoutEviction 3 [2, 7, 2, 2, 5, 7] (runLRU [2, 7, 2, 2, 5, 7] 3) ∧
    ServedWithoutEviction 3 [2, 7, 2, 2, 5, 7] (runOptimal [2, 7, 2, 2, 5, 7] 3) ∧
    ServedWithoutEviction 3 [2, 7, 2, 2, 5, 7] (runLFU [2, 7, 2, 2, 5, 7] 3) ∧
    ServedWithoutEviction 3 [2, 7, 2, 2, 5, 7] (runSecondChance [2, 7, 2, 2, 5, 7] 3) :=
  ⟨⟨by decide, by decide, by decide⟩,
    few_pages_never_evict [2, 7, 2, 2, 5, 7] 3 (by decide) (by decide) (by decide)⟩

/-- C20: `runLRU` has no Belady anomaly: for every trace of non-negative pages and every
`framesCount ≥ 1`, both calls return and the fault count of `runLRU` with `framesCount + 1`
frames is less than or equal to its fault count with `framesCount` frames. -/
theorem lru_faults_antitone_in_frames (ref : List Int) (framesCount : Nat)
    (hfc : 1 ≤ framesCount) (hpages : ∀ p ∈ ref, 0 ≤ p) :
    ∃ small large, runLRU ref framesCount = some small ∧
      runLRU ref (framesCount + 1) = some large ∧
      large.result.faults ≤ small.result.faults := by
  obtain ⟨g₀, hg₀, hgood₀⟩ := lruLoop_good ref framesCount hfc hpages 0 (by omega)
  obtain ⟨g₁, hg₁, hgood₁⟩ := lruLoop_good ref (framesCount + 1) (by omega) hpages 0 (by omega)
  simp only [List.take_zero, lruLoop, simLoop, Option.some.injEq] at hg₀ hg₁
  subst hg₀ hg₁
  obtain ⟨out₁, out₂, h₁, h₂, hle⟩ :=
    simLoop_faults_le LRUState.frames lruStep LRUState.frames lruStep ref
      (LRUIncl ref framesCount)
      (fun i page s₁ s₂ hi hR =>
        lruIncl_step ref framesCount hfc i page
          (by have := hpages page (List.getElem?_mem hi); omega) hi s₁ s₂ hR)
      ref 0 (lruInit framesCount) (lruInit (framesCount + 1)) 0 0 0 0 rfl
      ⟨hgood₀, hgood₁, by
        have e : ∀ m, resident (lruInit m).frames = ∅ := fun m => resident_emptyFrames m
        rw [e, e], fun _ => by
        have e : ∀ m, resident (lruInit m).frames = ∅ := fun m => resident_emptyFrames m
        rw [e, e]⟩
  refine ⟨summarize "LRU" ref.length out₁, summarize "LRU" ref.length out₂,
    by simp [runLRU, lruLoop, h₁], by simp [runLRU, lruLoop, h₂], ?_⟩
  show out₂.faults ≤ out₁.faults
  omega

theorem lru_faults_antitone_in_frames_witness :
    (1 ≤ 2 ∧ ∀ p ∈ [1, 2, 3, 1, 2, 4, 1], (0 : Int) ≤ p) ∧
    ∃ small large, runLRU [1, 2, 3, 1, 2, 4, 1] 2 = some small ∧
      runLRU [1, 2, 3, 1, 2, 4, 1] (2 + 1) = some large ∧
      large.result.faults ≤ small.result.faults :=
  ⟨⟨by decide, by decide⟩,
    lru_faults_antitone_in_frames [1, 2, 3, 1, 2, 4, 1] 2 (by decide) (by decide)⟩

end PageSim
